import Mathlib

/-!
# The buffer cache of `fs/buffer.c`

A shallow embedding of the buffer cache (`fs/buffer.c`) and a verification of
its contract.

## Embedding

* The pool `start_buffer[0 .. NR_BUFFERS)` is a list of `buffer_head`s; a
  `struct buffer_head *` is a `Ptr` (`none` is `NULL`, `some i` is
  `start_buffer + i`).
* `hash_table` is the array of bucket heads, `free_list` the head of the
  circular list of all slots.
* A store through a pointer that is not a pool slot (for instance `NULL`)
  changes no slot of the pool; it is counted in `State.stray`.
* Code that can sleep forever, panic or loop returns a `Res`.
* The model follows one task.  Whoever holds the lock of a slot releases it
  while the task waits in `wait_on_buffer`; block transfers are carried out
  synchronously by `ll_rw_block`.
-/

set_option maxRecDepth 8000

namespace Buffer

/-- A `struct buffer_head *`: `none` is `NULL`, `some i` is `start_buffer + i`. -/
abbrev Ptr := Option Nat

/-- Modelled from the spec: the `struct buffer_head` of `linux/fs.h`, whose
declaration is not part of `fs/buffer.c`. The fields are the ones the code
uses, the flags are booleans, the reference count is a natural number and
the device and block number hold any integer assigned to them.  `b_data`
is the content of the block, `b_wait` (the queue of tasks waiting for the
lock) belongs to the scheduler and is left out. -/
structure buffer_head where
  b_data : List Nat
  b_blocknr : Int
  b_dev : Int
  b_uptodate : Bool
  b_dirt : Bool
  b_count : Nat
  b_lock : Bool
  b_prev : Ptr
  b_next : Ptr
  b_prev_free : Ptr
  b_next_free : Ptr
deriving DecidableEq, Repr

/-- The all-zero header: what `buffer_init` writes before linking. -/
def buffer_head.zero : buffer_head :=
  { b_data := [], b_blocknr := 0, b_dev := 0, b_uptodate := false, b_dirt := false,
    b_count := 0, b_lock := false, b_prev := none, b_next := none,
    b_prev_free := none, b_next_free := none }

/-- Direction of a block transfer (`READ`, `WRITE`, `READA` of `linux/fs.h`). -/
inductive Rw where
  | READ
  | WRITE
  | READA
deriving DecidableEq, Repr

/-- One call of `ll_rw_block`: the direction, the slot, and the header of the
slot as it was when the request was issued. -/
structure Request where
  rw : Rw
  bh : Ptr
  head : buffer_head
deriving DecidableEq, Repr

/-- The globals of `fs/buffer.c`, the device contents and the trace.
`NR_BUFFERS` is the length of `bufs`. `buffer_wait` tells whether a task
sleeps on the queue of tasks waiting for a free slot. -/
structure State where
  bufs : List buffer_head
  hash_table : Nat → Ptr
  free_list : Ptr
  buffer_wait : Bool
  io_log : List Request
  disk : List ((Int × Int) × List Nat)
  stray : Nat

/-- Modelled from the spec: the external collaborators of the cache. The
block device (`ll_rw_block`, `drivers/block/ll_rw_blk.c`) and the inode layer
(`sync_inodes`, `fs/inode.c`) are not part of `fs/buffer.c`. `read_ok dev block`
tells whether a read of that block succeeds, `media` is the content of blocks
never written, `sync_inodes` gives the slots the metadata sync marks dirty. -/
structure Env where
  read_ok : Int → Int → Bool
  media : Int → Int → List Nat
  sync_inodes : State → List Nat

/-- Outcome of an operation that may sleep for ever, panic or loop. -/
inductive Res (α : Type) where
  | ok (s : State) (r : α)
  | sleeping (s : State)
  | panic (msg : String)
  | timeout

/-- The value of `NR_BUFFERS`. -/
def State.NR_BUFFERS (s : State) : Nat := s.bufs.length

/-- The read `*p`; a pointer outside the pool reads as zeroes. -/
def State.bh (s : State) (p : Ptr) : buffer_head :=
  match p with
  | some i => s.bufs.getD i buffer_head.zero
  | none => buffer_head.zero

/-- Slot `i` of the pool becomes `f` of itself. -/
def State.upd (s : State) (i : Nat) (f : buffer_head → buffer_head) : State :=
  { s with bufs := s.bufs.set i (f (s.bufs.getD i buffer_head.zero)) }

/-- The store `*p = f (*p)`; a store outside the pool is counted in `stray`. -/
def State.store (s : State) (p : Ptr) (f : buffer_head → buffer_head) : State :=
  match p with
  | some i => if i < s.bufs.length then s.upd i f else { s with stray := s.stray + 1 }
  | none => { s with stray := s.stray + 1 }

/-- The function `wait_on_buffer` (lines 56-62): the loop runs while the
slot is locked. Modelled from the spec: `sleep_on` is a scheduler primitive;
the task sleeps until the holder of the lock releases it, and the holder
changes nothing else. -/
def wait_on_buffer (s : State) (bh : Ptr) : State :=
  if (s.bh bh).b_lock then s.store bh (fun b => { b with b_lock := false }) else s

/-- Content of block `(dev, block)` on the device. -/
def disk_read (E : Env) (s : State) (dev block : Int) : List Nat :=
  match s.disk.lookup (dev, block) with
  | some d => d
  | none => E.media dev block

/-- Modelled from the spec: `ll_rw_block` (`drivers/block/ll_rw_blk.c`) is
not part of `fs/buffer.c`. The transfer is synchronous: the request is
logged; a `WRITE` stores the data of the slot on the device and clears
`b_dirt`; a read of a slot that is not up to date loads the data and sets
`b_uptodate` when the device succeeds; completion clears the lock. -/
def ll_rw_block (E : Env) (rw : Rw) (s : State) (bh : Ptr) : State :=
  let b := s.bh bh
  let s1 : State := { s with io_log := s.io_log ++ [{ rw := rw, bh := bh, head := b }] }
  match rw with
  | Rw.WRITE =>
    let s2 : State := { s1 with disk := ((b.b_dev, b.b_blocknr), b.b_data) :: s1.disk }
    s2.store bh (fun x => { x with b_dirt := false, b_lock := false })
  | _ =>
    if b.b_uptodate then s1
    else if E.read_ok b.b_dev b.b_blocknr then
      s1.store bh (fun x => { x with b_data := disk_read E s b.b_dev b.b_blocknr,
                                     b_uptodate := true, b_lock := false })
    else s1.store bh (fun x => { x with b_lock := false })

/-- Modelled from the spec: `sync_inodes` (`fs/inode.c`) writes the inodes
into their buffers, which marks slots dirty. -/
def sync_inodes (E : Env) (s : State) : State :=
  (E.sync_inodes s).foldl (fun t i => t.upd i (fun b => { b with b_dirt := true })) s

/-- One scanning loop of `sync_dev` (lines 99-106 and 113-120). -/
def sync_pass (E : Env) (dev : Int) (s : State) : State :=
  (List.range s.NR_BUFFERS).foldl (fun t i =>
    if (t.bh (some i)).b_dev ≠ dev then t
    else
      let t1 := wait_on_buffer t (some i)
      if (t1.bh (some i)).b_dev = dev ∧ (t1.bh (some i)).b_dirt = true then
        ll_rw_block E Rw.WRITE t1 (some i)
      else t1) s

/-- The function `sync_dev` (lines 88-122). -/
def sync_dev (E : Env) (s : State) (dev : Int) : State × Int :=
  let s1 := sync_pass E dev s
  let s2 := sync_inodes E s1
  let s3 := sync_pass E dev s2
  (s3, 0)

/-- The function `invalidate_buffers` (lines 126-141). -/
def invalidate_buffers (s : State) (dev : Int) : State :=
  (List.range s.NR_BUFFERS).foldl (fun t i =>
    if (t.bh (some i)).b_dev ≠ dev then t
    else
      let t1 := wait_on_buffer t (some i)
      if (t1.bh (some i)).b_dev = dev then
        t1.store (some i) (fun b => { b with b_uptodate := false, b_dirt := false })
      else t1) s

/-- The constant `NR_HASH` of `linux/fs.h` (307, as line 41 notes). -/
def NR_HASH : Nat := 307

/-- The macro `_hashfn`: `((unsigned)(dev^block))%NR_HASH` on 32-bit ints. -/
def _hashfn (dev block : Int) : Nat :=
  ((Int.xor dev block) % 2 ^ 32).toNat % NR_HASH

/-- The macro `hash(dev,block)` as an rvalue. -/
def State.hash (s : State) (dev block : Int) : Ptr :=
  s.hash_table (_hashfn dev block)

/-- The macro `hash(dev,block)` as an lvalue: `hash(dev,block) = p`. -/
def State.set_hash (s : State) (dev block : Int) (p : Ptr) : State :=
  { s with hash_table := fun h => if h = _hashfn dev block then p else s.hash_table h }

/-- The first half of `remove_from_queues`, "remove from hash-queue"
(lines 183-188). Every field is read again after each store, as the C code
does. -/
def remove_hash (s : State) (bh : Ptr) : State :=
  let s1 := match (s.bh bh).b_next with
    | some n => s.store (some n) (fun x => { x with b_prev := (s.bh bh).b_prev })
    | none => s
  let s2 := match (s1.bh bh).b_prev with
    | some p => s1.store (some p) (fun x => { x with b_next := (s1.bh bh).b_next })
    | none => s1
  if s2.hash (s2.bh bh).b_dev (s2.bh bh).b_blocknr = bh then
    s2.set_hash (s2.bh bh).b_dev (s2.bh bh).b_blocknr (s2.bh bh).b_next
  else s2

/-- The second half of `remove_from_queues`, "remove from free list"
(lines 190-195). -/
def remove_free (s : State) (bh : Ptr) : Res Unit :=
  if (s.bh bh).b_prev_free = none ∨ (s.bh bh).b_next_free = none then
    Res.panic "Free block list corrupted"
  else
    let s4 := s.store (s.bh bh).b_prev_free (fun x => { x with b_next_free := (s.bh bh).b_next_free })
    let s5 := s4.store (s4.bh bh).b_next_free (fun x => { x with b_prev_free := (s4.bh bh).b_prev_free })
    let s6 := if s5.free_list = bh then { s5 with free_list := (s5.bh bh).b_next_free } else s5
    Res.ok s6 ()

/-- The function `remove_from_queues` (lines 180-196). -/
def remove_from_queues (s : State) (bh : Ptr) : Res Unit :=
  remove_free (remove_hash s bh) bh

/-- The first half of `insert_into_queues`, "put at end of free list"
(lines 201-204). -/
def insert_free (s : State) (bh : Ptr) : State :=
  let s1 := s.store bh (fun x => { x with b_next_free := s.free_list })
  let s2 := s1.store bh (fun x => { x with b_prev_free := (s1.bh s1.free_list).b_prev_free })
  let s3 := s2.store (s2.bh s2.free_list).b_prev_free (fun x => { x with b_next_free := bh })
  s3.store s3.free_list (fun x => { x with b_prev_free := bh })

/-- The second half of `insert_into_queues`, "put the buffer in new
hash-queue if it has a device" (lines 206-212). -/
def insert_hash (s : State) (bh : Ptr) : State :=
  let s5 := s.store bh (fun x => { x with b_prev := none })
  let s6 := s5.store bh (fun x => { x with b_next := none })
  if (s6.bh bh).b_dev = 0 then s6
  else
    let s7 := s6.store bh (fun x => { x with b_next := s6.hash (s6.bh bh).b_dev (s6.bh bh).b_blocknr })
    let s8 := s7.set_hash (s7.bh bh).b_dev (s7.bh bh).b_blocknr bh
    s8.store (s8.bh bh).b_next (fun x => { x with b_prev := bh })

/-- The function `insert_into_queues` (lines 198-213). -/
def insert_into_queues (s : State) (bh : Ptr) : State :=
  insert_hash (insert_free s bh) bh

/-- The loop of `find_buffer` (line 219), `none` when the budget of `k`
steps is used up. -/
def find_loop (s : State) (dev block : Int) : Nat → Ptr → Option Ptr
  | 0, _ => none
  | k + 1, tmp =>
    match tmp with
    | none => some none
    | some i =>
      if (s.bh (some i)).b_dev = dev ∧ (s.bh (some i)).b_blocknr = block then some (some i)
      else find_loop s dev block k (s.bh (some i)).b_next

/-- The function `find_buffer` (lines 215-223). -/
def find_buffer (k : Nat) (s : State) (dev block : Int) : Option Ptr :=
  find_loop s dev block k (s.hash dev block)

/-- The function `get_hash_table` (lines 232-245). -/
def get_hash_table : Nat → State → Int → Int → Res Ptr
  | 0, _, _, _ => Res.timeout
  | k + 1, s, dev, block =>
    match find_buffer (k + 1) s dev block with
    | none => Res.timeout
    | some none => Res.ok s none
    | some (some i) =>
      let s1 := s.store (some i) (fun b => { b with b_count := b.b_count + 1 })
      let s2 := wait_on_buffer s1 (some i)
      if (s2.bh (some i)).b_dev = dev ∧ (s2.bh (some i)).b_blocknr = block then
        Res.ok s2 (some i)
      else
        get_hash_table k (s2.store (some i) (fun b => { b with b_count := b.b_count - 1 })) dev block

/-- The macro `BADNESS` (line 254). -/
def BADNESS (b : buffer_head) : Nat :=
  2 * b.b_dirt.toNat + b.b_lock.toNat

/-- The `do ... while` scan of `getblk` (lines 263-272): `tmp` is the slot
looked at, `bh` the best candidate so far; `none` when the budget is used up. -/
def scan (s : State) : Nat → Ptr → Ptr → Option Ptr
  | 0, _, _ => none
  | k + 1, tmp, bh =>
    if (s.bh tmp).b_count ≠ 0 then
      if (s.bh tmp).b_next_free ≠ s.free_list then scan s k (s.bh tmp).b_next_free bh
      else some bh
    else if bh = none ∨ BADNESS (s.bh tmp) < BADNESS (s.bh bh) then
      if BADNESS (s.bh tmp) = 0 then some tmp
      else if (s.bh tmp).b_next_free ≠ s.free_list then scan s k (s.bh tmp).b_next_free tmp
      else some tmp
    else
      if (s.bh tmp).b_next_free ≠ s.free_list then scan s k (s.bh tmp).b_next_free bh
      else some bh

/-- The `while (bh->b_dirt)` loop of `getblk` (lines 280-285). The flag of
the result tells whether the loop was left by `goto repeat`. -/
def sync_loop (E : Env) : Nat → State → Ptr → Option (State × Bool)
  | 0, _, _ => none
  | k + 1, s, bh =>
    if (s.bh bh).b_dirt = true then
      let s1 := (sync_dev E s (s.bh bh).b_dev).1
      let s2 := wait_on_buffer s1 bh
      if (s2.bh bh).b_count ≠ 0 then some (s2, true)
      else sync_loop E k s2 bh
    else some (s, false)

/-- The commit of `getblk` (lines 292-299). -/
def getblk_commit (s : State) (bh : Ptr) (dev block : Int) : Res Ptr :=
  let s1 := s.store bh (fun b => { b with b_count := 1 })
  let s2 := s1.store bh (fun b => { b with b_dirt := false })
  let s3 := s2.store bh (fun b => { b with b_uptodate := false })
  match remove_from_queues s3 bh with
  | Res.ok s4 _ =>
    let s5 := s4.store bh (fun b => { b with b_dev := dev })
    let s6 := s5.store bh (fun b => { b with b_blocknr := block })
    Res.ok (insert_into_queues s6 bh) bh
  | Res.sleeping t => Res.sleeping t
  | Res.panic m => Res.panic m
  | Res.timeout => Res.timeout

/-- The function `getblk` (lines 255-300). `Res.sleeping` is the task asleep
in `sleep_on(&buffer_wait)`: when woken it starts again at `repeat`. -/
def getblk (E : Env) : Nat → State → Int → Int → Res Ptr
  | 0, _, _, _ => Res.timeout
  | k + 1, s, dev, block =>
    match get_hash_table (k + 1) s dev block with
    | Res.ok s1 (some i) => Res.ok s1 (some i)
    | Res.ok s1 none =>
      match scan s1 (k + 1) s1.free_list none with
      | none => Res.timeout
      | some none => Res.sleeping { s1 with buffer_wait := true }
      | some (some v) =>
        let s2 := wait_on_buffer s1 (some v)
        if (s2.bh (some v)).b_count ≠ 0 then getblk E k s2 dev block
        else
          match sync_loop E (k + 1) s2 (some v) with
          | none => Res.timeout
          | some (s3, true) => getblk E k s3 dev block
          | some (s3, false) =>
            match find_buffer (k + 1) s3 dev block with
            | none => Res.timeout
            | some (some _) => getblk E k s3 dev block
            | some none => getblk_commit s3 (some v) dev block
    | Res.sleeping t => Res.sleeping t
    | Res.panic m => Res.panic m
    | Res.timeout => Res.timeout

/-- The function `brelse` (lines 302-310). -/
def brelse (s : State) (buf : Ptr) : Res Unit :=
  match buf with
  | none => Res.ok s ()
  | some i =>
    let s1 := wait_on_buffer s (some i)
    if (s1.bh (some i)).b_count = 0 then Res.panic "Trying to free free buffer"
    else
      let s2 := s1.store (some i) (fun b => { b with b_count := b.b_count - 1 })
      Res.ok { s2 with buffer_wait := false } ()

/-- The function `bread` (lines 316-330). -/
def bread (E : Env) (k : Nat) (s : State) (dev block : Int) : Res Ptr :=
  match getblk E k s dev block with
  | Res.ok _ none => Res.panic "bread: getblk returned NULL\n"
  | Res.ok s1 (some i) =>
    if (s1.bh (some i)).b_uptodate = true then Res.ok s1 (some i)
    else
      let s2 := ll_rw_block E Rw.READ s1 (some i)
      let s3 := wait_on_buffer s2 (some i)
      if (s3.bh (some i)).b_uptodate = true then Res.ok s3 (some i)
      else
        match brelse s3 (some i) with
        | Res.ok s4 _ => Res.ok s4 none
        | Res.sleeping t => Res.sleeping t
        | Res.panic m => Res.panic m
        | Res.timeout => Res.timeout
  | Res.sleeping t => Res.sleeping t
  | Res.panic m => Res.panic m
  | Res.timeout => Res.timeout

/-- The function `buffer_init` (lines 402-445), for a memory that holds `n`
slots: the loop of lines 421-437 writes `n` headers, each linked to its
neighbours in memory, then lines 438-444 close the ring and clear the
hash table. -/
def buffer_init (n : Nat) : State :=
  let s0 : State :=
    { bufs := (List.range n).map (fun i =>
        { buffer_head.zero with b_prev_free := some (i - 1), b_next_free := some (i + 1) }),
      hash_table := fun _ => none,
      free_list := some 0,
      buffer_wait := false,
      io_log := [],
      disk := [],
      stray := 0 }
  let s1 := s0.store s0.free_list (fun b => { b with b_prev_free := some (n - 1) })
  s1.store (some (n - 1)) (fun b => { b with b_next_free := s1.free_list })

/-! ## The ring of all slots and the hash chains, as lists -/

/-- In the ring with links `nf`, `pf`, slot `y` follows slot `x`. -/
def RLink (nf pf : Nat → Ptr) (x y : Nat) : Prop :=
  nf x = some y ∧ pf y = some x

/-- The links lead from `a` through the slots of `l`, in order, to `b`. -/
def RPath (nf pf : Nat → Ptr) : Nat → List Nat → Nat → Prop
  | a, [], b => RLink nf pf a b
  | a, c :: t, b => RLink nf pf a c ∧ RPath nf pf c t b

/-- The list `L` is one turn of the ring, from its first slot round to it. -/
def Ring (nf pf : Nat → Ptr) : List Nat → Prop
  | [] => False
  | f :: T => RPath nf pf f T f

/-- A piece of a hash chain: `cur` points to the first slot of `l`, whose
`b_prev` is `prev`, and the `b_next` of the last slot of `l` is `nxt`. -/
def HSeg (nx pv : Nat → Ptr) : Ptr → Ptr → List Nat → Ptr → Prop
  | _, cur, [], nxt => cur = nxt
  | prev, cur, x :: t, nxt => cur = some x ∧ pv x = prev ∧ HSeg nx pv (some x) (nx x) t nxt

/-- The last slot of `l`, or `prev` when `l` is empty. -/
def lastP (prev : Ptr) : List Nat → Ptr
  | [] => prev
  | x :: t => lastP (some x) t

/-- Links of slot `i` in the state. -/
def State.nf (s : State) (i : Nat) : Ptr := (s.bh (some i)).b_next_free

/-- Link `b_prev_free` of slot `i`. -/
def State.pf (s : State) (i : Nat) : Ptr := (s.bh (some i)).b_prev_free

/-- Link `b_next` of slot `i`. -/
def State.nx (s : State) (i : Nat) : Ptr := (s.bh (some i)).b_next

/-- Link `b_prev` of slot `i`. -/
def State.pv (s : State) (i : Nat) : Ptr := (s.bh (some i)).b_prev

/-- The recency list of the state is `L`: `L` lists every slot once, starts
at `free_list` and follows `b_next_free`, with `b_prev_free` its inverse. -/
def FreeOrder (s : State) (L : List Nat) : Prop :=
  L.Nodup ∧ (∀ i, i ∈ L ↔ i < s.bufs.length) ∧ s.free_list = L.head? ∧ Ring s.nf s.pf L

/-- The hash chains of the state are `C`: bucket `h` is the doubly linked
list `C h`, which holds exactly the slots with a device that hash to `h`;
the slot `d`, if any, is detached: it is in no chain and nothing is said
of its links. -/
def HashOrderX (s : State) (C : Nat → List Nat) (d : Option Nat) : Prop :=
  (∀ h, HSeg s.nx s.pv none (s.hash_table h) (C h) none) ∧
  (∀ h, (C h).Nodup) ∧
  (∀ h x, x ∈ C h ↔ (x < s.bufs.length ∧ some x ≠ d ∧ (s.bh (some x)).b_dev ≠ 0 ∧
    _hashfn (s.bh (some x)).b_dev (s.bh (some x)).b_blocknr = h)) ∧
  (∀ i, i < s.bufs.length → some i ≠ d → (s.bh (some i)).b_dev = 0 → s.nx i = none ∧ s.pv i = none)

/-- The hash chains of the state are `C`, no slot detached. -/
def HashOrder (s : State) (C : Nat → List Nat) : Prop := HashOrderX s C none

/-- A well-formed cache: the recency list and the hash chains are intact. -/
def WF (s : State) : Prop := ∃ L C, FreeOrder s L ∧ HashOrder s C

/-- At most one slot is bound to a pair `(dev, block)` with `dev ≠ 0`. -/
def Unique (s : State) : Prop :=
  ∀ i j, i < s.bufs.length → j < s.bufs.length → (s.bh (some i)).b_dev ≠ 0 →
    (s.bh (some i)).b_dev = (s.bh (some j)).b_dev →
    (s.bh (some i)).b_blocknr = (s.bh (some j)).b_blocknr → i = j

/-- The part of `FreeOrder` that speaks of the links only. -/
def FreeRing (s : State) (L : List Nat) : Prop :=
  L.Nodup ∧ (∀ i, i ∈ L → i < s.bufs.length) ∧ s.free_list = L.head? ∧ Ring s.nf s.pf L

/-- The fields of a header that are not links. -/
def buffer_head.core (b : buffer_head) : List Nat × Int × Int × Bool × Bool × Nat × Bool :=
  (b.b_data, b.b_blocknr, b.b_dev, b.b_uptodate, b.b_dirt, b.b_count, b.b_lock)

/-- The state `t` differs from `s` at most in the links of the two queues,
the hash table, `free_list` and the count of stray stores. -/
def QStep (s t : State) : Prop :=
  t.bufs.length = s.bufs.length ∧ t.buffer_wait = s.buffer_wait ∧ t.io_log = s.io_log ∧
    t.disk = s.disk ∧ ∀ j, (t.bh (some j)).core = (s.bh (some j)).core

/-- The slot is bound to `(dev, block)`. -/
def State.bound (s : State) (dev block : Int) (i : Nat) : Bool :=
  decide ((s.bh (some i)).b_dev = dev ∧ (s.bh (some i)).b_blocknr = block)

/-- The candidate kept by the scan of `getblk` over the slots of a list:
the scan as a function of the recency list instead of the links. -/
def pick (s : State) : List Nat → Ptr → Ptr
  | [], bh => bh
  | x :: t, bh =>
    if (s.bh (some x)).b_count ≠ 0 then pick s t bh
    else if bh = none ∨ BADNESS (s.bh (some x)) < BADNESS (s.bh bh) then
      if BADNESS (s.bh (some x)) = 0 then some x else pick s t (some x)
    else pick s t bh

/-- The state `t` differs from `s` at most in the data, the flags and the
reference counts of the slots, the request log, the device and the wait queue. -/
def FlagStep (s t : State) : Prop :=
  t.bufs.length = s.bufs.length ∧ t.hash_table = s.hash_table ∧ t.free_list = s.free_list ∧
    t.stray = s.stray ∧
    ∀ j, (t.bh (some j)).b_dev = (s.bh (some j)).b_dev ∧
      (t.bh (some j)).b_blocknr = (s.bh (some j)).b_blocknr ∧
      (t.bh (some j)).b_prev = (s.bh (some j)).b_prev ∧
      (t.bh (some j)).b_next = (s.bh (some j)).b_next ∧
      (t.bh (some j)).b_prev_free = (s.bh (some j)).b_prev_free ∧
      (t.bh (some j)).b_next_free = (s.bh (some j)).b_next_free

/-- What `invalidate_buffers(dev)` does to one slot. -/
def inval_slot (dev : Int) (b : buffer_head) : buffer_head :=
  if b.b_dev = dev then { b with b_uptodate := false, b_dirt := false, b_lock := false } else b

/-- What one pass of `sync_dev(dev)` does to one slot. -/
def sync_slot (dev : Int) (b : buffer_head) : buffer_head :=
  if b.b_dev = dev then { b with b_dirt := false, b_lock := false } else b

/-- The requests one pass of `sync_dev(dev)` issues for the first `m` slots. -/
def sync_reqs (s : State) (dev : Int) (m : Nat) : List Request :=
  (List.range m).filterMap (fun i =>
    if (s.bh (some i)).b_dev = dev ∧ (s.bh (some i)).b_dirt = true then
      some { rw := Rw.WRITE, bh := some i, head := { s.bh (some i) with b_lock := false } }
    else none)

/-- The device after the writes of a list of requests, the last one first. -/
def disk_after (rs : List Request) (disk : List ((Int × Int) × List Nat)) :
    List ((Int × Int) × List Nat) :=
  rs.reverse.map (fun r => ((r.head.b_dev, r.head.b_blocknr), r.head.b_data)) ++ disk

/-- The state in which `getblk` commits the victim `v`: the victim
unlocked, and written back when it was dirty (lines 277-285). -/
def getblk_prep (E : Env) (s : State) (v : Nat) : State :=
  let s2 := wait_on_buffer s (some v)
  if (s2.bh (some v)).b_dirt = true then
    wait_on_buffer (sync_dev E s2 (s2.bh (some v)).b_dev).1 (some v)
  else s2

/-- The state after a cache hit on slot `i`: one more reference, and the
lock released by its holder during the wait. -/
def hit_state (s : State) (i : Nat) : State :=
  s.upd i (fun b => { b with b_count := b.b_count + 1, b_lock := false })

/-- The state after `brelse` of slot `i`. -/
def release_state (s : State) (i : Nat) : State :=
  { (s.upd i (fun b => { b with b_count := b.b_count - 1, b_lock := false })) with
    buffer_wait := false }

/-- A device on which every read succeeds and every block is blank, with an
inode layer that has nothing to write. -/
def Env.quiet : Env :=
  { read_ok := fun _ _ => true, media := fun _ _ => [], sync_inodes := fun _ => [] }

/-- The states of a cache of `n` slots that the operations of `fs/buffer.c`
reach from `buffer_init`, each run with a loop budget above the number of
slots. Between the calls a caller may write the data of a slot and mark it
dirty. -/
inductive Reachable (E : Env) (n : Nat) : State → Prop where
  | init : Reachable E n (buffer_init n)
  | getblk (s t : State) (k : Nat) (dev block : Int) (r : Ptr) : Reachable E n s →
      s.bufs.length < k → getblk E k s dev block = Res.ok t r → Reachable E n t
  | getblk_sleep (s t : State) (k : Nat) (dev block : Int) : Reachable E n s →
      s.bufs.length < k → getblk E k s dev block = Res.sleeping t → Reachable E n t
  | get_hash_table (s t : State) (k : Nat) (dev block : Int) (r : Ptr) : Reachable E n s →
      s.bufs.length < k → get_hash_table k s dev block = Res.ok t r → Reachable E n t
  | brelse (s t : State) (buf : Ptr) : Reachable E n s →
      brelse s buf = Res.ok t () → Reachable E n t
  | bread (s t : State) (k : Nat) (dev block : Int) (r : Ptr) : Reachable E n s →
      s.bufs.length < k → bread E k s dev block = Res.ok t r → Reachable E n t
  | bread_sleep (s t : State) (k : Nat) (dev block : Int) : Reachable E n s →
      s.bufs.length < k → bread E k s dev block = Res.sleeping t → Reachable E n t
  | invalidate_buffers (s : State) (dev : Int) : Reachable E n s →
      Reachable E n (invalidate_buffers s dev)
  | sync_dev (s : State) (dev : Int) : Reachable E n s → Reachable E n (sync_dev E s dev).1
  | modify (s : State) (i : Nat) (data : List Nat) : Reachable E n s →
      Reachable E n (s.upd i (fun b => { b with b_data := data, b_dirt := true }))

/-- The state an operation leaves, or `d` when it does not come back. -/
def Res.state {α : Type} (r : Res α) (d : State) : State :=
  match r with
  | Res.ok t _ => t
  | Res.sleeping t => t
  | Res.panic _ => d
  | Res.timeout => d

/-- A pool of three slots after `getblk(1, 5)`: slot 0 is bound and held. -/
def pool_one : State := (getblk Env.quiet 4 (buffer_init 3) 1 5).state (buffer_init 3)

/-- The pool `pool_one` after the holder of slot 0 wrote to it and released
it: slot 0 is bound to `(1, 5)`, dirty and free. -/
def pool_dirty : State :=
  (brelse (pool_one.upd 0 (fun b => { b with b_data := [7], b_dirt := true })) (some 0)).state
    pool_one

/-- A pool of one slot, bound to `(1, 5)`, written to and released: the
slot is dirty and free. -/
def single_dirty : State :=
  (brelse (((getblk Env.quiet 3 (buffer_init 1) 1 5).state (buffer_init 1)).upd 0
    (fun b => { b with b_data := [7], b_dirt := true })) (some 0)).state (buffer_init 1)

/-- The call `getblk(dev, block)` made `m` times in a row, nothing released
in between. -/
def repeat_getblk (E : Env) (k : Nat) (dev block : Int) : Nat → State → Res Ptr
  | 0, s => Res.ok s none
  | m + 1, s =>
    match repeat_getblk E k dev block m s with
    | Res.ok t _ => getblk E k t dev block
    | Res.sleeping t => Res.sleeping t
    | Res.panic msg => Res.panic msg
    | Res.timeout => Res.timeout

/-- A pool of one slot after `getblk(1, 5)`: the only slot is held. -/
def pool_held : State := (getblk Env.quiet 3 (buffer_init 1) 1 5).state (buffer_init 1)

/-- The macro `COPYBLK(from, to)` (lines 332-337): `rep movsl` moves
`BLOCK_SIZE/4` long words from the block `src` to the address `dst` of the
memory `mem`, a map from byte addresses to bytes; bytes past the end of the
list `src` read as 0. `BLOCK_SIZE` is a constant of `linux/fs.h` and a
parameter here. The destination is memory outside the pool. -/
def COPYBLK (BLOCK_SIZE : Nat) (src : List Nat) (dst : Nat) (mem : Nat → Nat) : Nat → Nat :=
  fun a => if dst ≤ a ∧ a < dst + 4 * (BLOCK_SIZE / 4) then src.getD (a - dst) 0 else mem a

/-- One more entry in front of the local array `bh` of `bread_page`. -/
def Res.push (p : Ptr) (r : Res (List Ptr)) : Res (List Ptr) :=
  match r with
  | Res.ok t ps => Res.ok t (p :: ps)
  | Res.sleeping t => Res.sleeping t
  | Res.panic m => Res.panic m
  | Res.timeout => Res.timeout

/-- The first loop of `bread_page` (lines 350-356) over the entries of `b`
that are left; the result is the local array `bh`, entry by entry. -/
def bread_page_issue (E : Env) (k : Nat) (dev : Int) : List Int → State → Res (List Ptr)
  | [], s => Res.ok s []
  | x :: xs, s =>
    if x ≠ 0 then
      match getblk E k s dev x with
      | Res.ok s1 (some j) =>
        if (s1.bh (some j)).b_uptodate = true then
          Res.push (some j) (bread_page_issue E k dev xs s1)
        else Res.push (some j) (bread_page_issue E k dev xs (ll_rw_block E Rw.READ s1 (some j)))
      | Res.ok s1 none => Res.push none (bread_page_issue E k dev xs s1)
      | Res.sleeping t => Res.sleeping t
      | Res.panic m => Res.panic m
      | Res.timeout => Res.timeout
    else Res.push none (bread_page_issue E k dev xs s)

/-- The second loop of `bread_page` (lines 357-363) over the entries of `bh`
that are left; `address` is an `unsigned long` of 32 bits. -/
def bread_page_copy (BLOCK_SIZE : Nat) :
    List Ptr → Nat → State → (Nat → Nat) → Res (Nat → Nat)
  | [], _, s, mem => Res.ok s mem
  | none :: ps, address, s, mem =>
    bread_page_copy BLOCK_SIZE ps ((address + BLOCK_SIZE) % 2 ^ 32) s mem
  | some j :: ps, address, s, mem =>
    match brelse (wait_on_buffer s (some j)) (some j) with
    | Res.ok s2 _ =>
      bread_page_copy BLOCK_SIZE ps ((address + BLOCK_SIZE) % 2 ^ 32) s2
        (if ((wait_on_buffer s (some j)).bh (some j)).b_uptodate = true then
          COPYBLK BLOCK_SIZE ((wait_on_buffer s (some j)).bh (some j)).b_data address mem
        else mem)
    | Res.sleeping t => Res.sleeping t
    | Res.panic m => Res.panic m
    | Res.timeout => Res.timeout

/-- The function `bread_page` (lines 345-364); `b` is the array `int b[4]`,
`mem` the memory the page at `address` lies in. -/
def bread_page (E : Env) (k : Nat) (BLOCK_SIZE : Nat) (s : State) (address : Nat) (dev : Int)
    (b : Nat → Int) (mem : Nat → Nat) : Res (Nat → Nat) :=
  match bread_page_issue E k dev [b 0, b 1, b 2, b 3] s with
  | Res.ok s1 bh => bread_page_copy BLOCK_SIZE bh address s1 mem
  | Res.sleeping t => Res.sleeping t
  | Res.panic m => Res.panic m
  | Res.timeout => Res.timeout

/-- The array `b = [10, 11, 0, 13]`. -/
def page_blocks : Nat → Int := fun i => [10, 11, 0, 13].getD i 0

/-- A device on which every read succeeds and block `n` starts with the byte
`n`, with an inode layer that has nothing to write. -/
def Env.numbered : Env :=
  { read_ok := fun _ _ => true, media := fun _ block => [block.toNat], sync_inodes := fun _ => [] }

/-- A memory in which every byte is 255. -/
def blank_mem : Nat → Nat := fun _ => 255

/-- The `while` loop of `breada` (lines 381-389) over the arguments that
`va_arg` has not yet read; `bh` is the slot of the first block. The loop
ends at the first negative argument, and with the list. -/
def breada_hints (E : Env) (k : Nat) (dev : Int) (bh : Ptr) : List Int → State → Res Unit
  | [], s => Res.ok s ()
  | first :: args, s =>
    if first ≥ 0 then
      match getblk E k s dev first with
      | Res.ok s1 (some tmp) =>
        if (s1.bh (some tmp)).b_uptodate = true then
          breada_hints E k dev bh args
            (s1.store (some tmp) (fun b => { b with b_count := b.b_count - 1 }))
        else
          breada_hints E k dev bh args
            ((ll_rw_block E Rw.READA s1 bh).store (some tmp)
              (fun b => { b with b_count := b.b_count - 1 }))
      | Res.ok s1 none => breada_hints E k dev bh args s1
      | Res.sleeping t => Res.sleeping t
      | Res.panic m => Res.panic m
      | Res.timeout => Res.timeout
    else Res.ok s ()

/-- The function `breada` (lines 371-395); `args` are the arguments after
`first`. -/
def breada (E : Env) (k : Nat) (s : State) (dev first : Int) (args : List Int) : Res Ptr :=
  match getblk E k s dev first with
  | Res.ok _ none => Res.panic "bread: getblk returned NULL\n"
  | Res.ok s1 (some i) =>
    match breada_hints E k dev (some i) args
        (if (s1.bh (some i)).b_uptodate = true then s1 else ll_rw_block E Rw.READ s1 (some i)) with
    | Res.ok s3 _ =>
      if ((wait_on_buffer s3 (some i)).bh (some i)).b_uptodate = true then
        Res.ok (wait_on_buffer s3 (some i)) (some i)
      else
        match brelse (wait_on_buffer s3 (some i)) (some i) with
        | Res.ok s5 _ => Res.ok s5 none
        | Res.sleeping t => Res.sleeping t
        | Res.panic m => Res.panic m
        | Res.timeout => Res.timeout
    | Res.sleeping t => Res.sleeping t
    | Res.panic m => Res.panic m
    | Res.timeout => Res.timeout
  | Res.sleeping t => Res.sleeping t
  | Res.panic m => Res.panic m
  | Res.timeout => Res.timeout

/-- A pool of three slots after `getblk(1, 5)` and `getblk(1, 6)`: slots 0
and 1 are held, the recency list is 2, 0, 1. -/
def pool_two : State := (getblk Env.quiet 4 pool_one 1 6).state pool_one

/-- The slots met on the first `m` steps along `b_next_free` from `p`. -/
def free_walk (s : State) : Nat → Ptr → List Nat
  | 0, _ => []
  | _ + 1, none => []
  | m + 1, some i => i :: free_walk s m (s.bh (some i)).b_next_free

/-- The pointer reached from `p` after `m` steps along `b_next_free`. -/
def free_step (s : State) : Nat → Ptr → Ptr
  | 0, p => p
  | m + 1, p => free_step s m (s.bh p).b_next_free

/-- A fresh pool of three slots in the middle of the commit of `getblk(1, 5)`
(lines 292-297): slot 0 is taken out of both queues and bound to `(1, 5)`,
and `insert_into_queues` comes next. -/
def pool_detached : State :=
  ((remove_from_queues (buffer_init 3) (some 0)).state (buffer_init 3)).upd 0
    (fun b => { b with b_count := 1, b_dev := 1, b_blocknr := 5 })

theorem RPath_append (nf pf : Nat → Ptr) (l1 : List Nat) (m : Nat) (l2 : List Nat) (a b : Nat) :
    RPath nf pf a (l1 ++ m :: l2) b ↔ RPath nf pf a l1 m ∧ RPath nf pf m l2 b := by
  induction l1 generalizing a with
  | nil => simp [RPath]
  | cons c t ih => simp [RPath, ih, and_assoc]

theorem RPath_frame {nf pf nf1 pf1 : Nat → Ptr} {l : List Nat} {a b : Nat}
    (h : RPath nf pf a l b) (hn : ∀ y ∈ a :: l, nf1 y = nf y)
    (hp : ∀ y ∈ l ++ [b], pf1 y = pf y) : RPath nf1 pf1 a l b := by
  induction l generalizing a with
  | nil =>
    simp only [RPath, RLink] at h ⊢
    rw [hn a (by simp), hp b (by simp)]; exact h
  | cons c t ih =>
    simp only [RPath, RLink] at h ⊢
    refine ⟨⟨?_, ?_⟩, ih h.2 ?_ ?_⟩
    · rw [hn a (by simp)]; exact h.1.1
    · rw [hp c (by simp)]; exact h.1.2
    · intro y hy; exact hn y (List.mem_cons_of_mem _ hy)
    · intro y hy; exact hp y (by simp at hy ⊢; tauto)

theorem Ring_rotate {nf pf : Nat → Ptr} (A : List Nat) (m : Nat) (B : List Nat)
    (h : Ring nf pf (A ++ m :: B)) : Ring nf pf (m :: B ++ A) := by
  cases A with
  | nil => simpa using h
  | cons a A1 =>
    simp only [List.cons_append, Ring] at h ⊢
    rw [RPath_append] at h ⊢
    exact ⟨h.2, h.1⟩

theorem HSeg_append (nx pv : Nat → Ptr) (A B : List Nat) (prev cur nxt : Ptr) :
    HSeg nx pv prev cur (A ++ B) nxt ↔
      ∃ mid, HSeg nx pv prev cur A mid ∧ HSeg nx pv (lastP prev A) mid B nxt := by
  induction A generalizing prev cur with
  | nil => simp [HSeg, lastP]
  | cons x t ih =>
    show (cur = some x ∧ pv x = prev ∧ HSeg nx pv (some x) (nx x) (t ++ B) nxt) ↔
      ∃ mid, (cur = some x ∧ pv x = prev ∧ HSeg nx pv (some x) (nx x) t mid) ∧
        HSeg nx pv (lastP (some x) t) mid B nxt
    rw [ih]
    constructor
    · rintro ⟨h1, h2, mid, h3, h4⟩; exact ⟨mid, ⟨h1, h2, h3⟩, h4⟩
    · rintro ⟨mid, ⟨h1, h2, h3⟩, h4⟩; exact ⟨h1, h2, mid, h3, h4⟩

theorem HSeg_frame {nx pv nx1 pv1 : Nat → Ptr} {l : List Nat} {prev cur nxt : Ptr}
    (h : HSeg nx pv prev cur l nxt) (hn : ∀ y ∈ l, nx1 y = nx y)
    (hp : ∀ y ∈ l, pv1 y = pv y) : HSeg nx1 pv1 prev cur l nxt := by
  induction l generalizing prev cur with
  | nil => exact h
  | cons x t ih =>
    simp only [HSeg] at h ⊢
    refine ⟨h.1, ?_, ?_⟩
    · rw [hp x (by simp)]; exact h.2.1
    · rw [hn x (by simp)]
      exact ih h.2.2 (fun y hy => hn y (List.mem_cons_of_mem _ hy))
        (fun y hy => hp y (List.mem_cons_of_mem _ hy))

theorem Ring_remove_head {nf pf nf1 pf1 : Nat → Ptr} {v : Nat} {R : List Nat}
    (hR : Ring nf pf (v :: R)) (hnd : (v :: R).Nodup) (hne : R ≠ [])
    (hnf : ∀ j, nf1 j = if pf v = some j then nf v else nf j)
    (hpf : ∀ j, pf1 j = if nf v = some j then pf v else pf j) :
    Ring nf1 pf1 R ∧ nf v = R.head? := by
  cases R with
  | nil => exact absurd rfl hne
  | cons q M =>
    simp only [Ring, RPath] at hR
    obtain ⟨⟨hvq, hqv⟩, hM⟩ := hR
    refine ⟨?_, by simpa using hvq⟩
    rcases List.eq_nil_or_concat M with rfl | ⟨M1, p, hMp⟩
    · simp only [RPath, RLink] at hM
      simp only [Ring, RPath, RLink]
      rw [hnf, hpf, hM.2, hvq]; simp [hvq]
    · rw [List.concat_eq_append] at hMp
      subst hMp
      rw [RPath_append] at hM
      obtain ⟨hqp, hpv⟩ := hM
      simp only [RPath, RLink] at hpv
      simp only [Ring]
      rw [RPath_append]
      have hnd2 : (q :: (M1 ++ [p])).Nodup := (List.nodup_cons.1 hnd).2
      have hnd3 := List.nodup_cons.1 hnd2
      have hnd4 : (M1 ++ [p]).Nodup := hnd3.2
      refine ⟨RPath_frame hqp ?_ ?_, ?_⟩
      · intro y hy
        rw [hnf, hpv.2, if_neg]
        rintro h
        have hyp : p = y := Option.some.inj h
        subst hyp
        rcases List.mem_cons.1 hy with h1 | h1
        · subst h1; exact hnd3.1 (by simp)
        · exact (List.nodup_append.1 hnd4).2.2 h1 (by simp)
      · intro y hy
        rw [hpf, hvq, if_neg]
        rintro h
        have hyq : q = y := Option.some.inj h
        subst hyq
        exact hnd3.1 hy
      · simp only [RPath, RLink]
        rw [hnf, hpf, hpv.2, hvq]; simp

theorem Ring_remove {nf pf nf1 pf1 : Nat → Ptr} {v : Nat} {L : List Nat}
    (hR : Ring nf pf L) (hnd : L.Nodup) (hv : v ∈ L) (hlen : 2 ≤ L.length)
    (hnf : ∀ j, nf1 j = if pf v = some j then nf v else nf j)
    (hpf : ∀ j, pf1 j = if nf v = some j then pf v else pf j) :
    Ring nf1 pf1 (L.erase v) ∧
      (L.erase v).head? = (if L.head? = some v then nf v else L.head?) := by
  obtain ⟨A, B, rfl⟩ := List.append_of_mem hv
  have hvA : v ∉ A := by
    intro h
    exact (List.nodup_append.1 hnd).2.2 h (List.mem_cons_self v B)
  have he : (A ++ v :: B).erase v = A ++ B := by
    rw [List.erase_append_right _ hvA, List.erase_cons_head]
  rw [he]
  cases A with
  | nil =>
    simp only [List.nil_append] at hR hnd hlen ⊢
    have hne : B ≠ [] := by
      rintro rfl; simp at hlen
    obtain ⟨hring, hhead⟩ := Ring_remove_head hR hnd hne hnf hpf
    exact ⟨hring, by simp [hhead]⟩
  | cons a A1 =>
    have hrot := Ring_rotate (a :: A1) v B hR
    have hnd2 : (v :: B ++ (a :: A1)).Nodup := by
      have : (v :: B ++ (a :: A1)).Perm ((a :: A1) ++ v :: B) := by
        simpa using (List.perm_append_comm : ((v :: B) ++ (a :: A1)).Perm ((a :: A1) ++ (v :: B)))
      exact this.nodup_iff.2 hnd
    have hne : B ++ (a :: A1) ≠ [] := by simp
    obtain ⟨hring, _⟩ := Ring_remove_head hrot hnd2 hne hnf hpf
    refine ⟨by simpa using Ring_rotate B a A1 hring, ?_⟩
    have hav : a ≠ v := by
      rintro rfl; exact hvA (List.mem_cons_self _ _)
    simp [hav]

theorem Ring_insert {nf pf nf2 pf2 : Nat → Ptr} {f v t : Nat} {T : List Nat}
    (hR : Ring nf pf (f :: T)) (hnd : (f :: T).Nodup) (hv : v ∉ f :: T)
    (ht : pf f = some t)
    (hnf : ∀ j, nf2 j = if j = t then some v else if j = v then some f else nf j)
    (hpf : ∀ j, pf2 j = if j = f then some v else if j = v then some t else pf j) :
    Ring nf2 pf2 (f :: T ++ [v]) := by
  have hvf : v ≠ f := fun h => hv (by simp [h])
  rcases List.eq_nil_or_concat T with rfl | ⟨M, p, hMp⟩
  · simp only [Ring, RPath, RLink] at hR
    have htf : t = f := by
      have := hR.2; rw [ht] at this; exact Option.some.inj this
    subst htf
    simp only [List.cons_append, List.nil_append, Ring, RPath, RLink]
    rw [hnf, hnf, hpf, hpf]; simp [hvf]
  · rw [List.concat_eq_append] at hMp
    subst hMp
    simp only [Ring] at hR
    rw [RPath_append] at hR
    obtain ⟨hfp, hpf0⟩ := hR
    simp only [RPath, RLink] at hpf0
    have htp : t = p := by
      have := hpf0.2; rw [ht] at this; exact Option.some.inj this
    subst htp
    have hnd3 := List.nodup_cons.1 hnd
    have hMt := List.nodup_append.1 hnd3.2
    have htf : t ≠ f := by
      rintro rfl; exact hnd3.1 (by simp)
    have hvt : v ≠ t := fun h => hv (by simp [h])
    show Ring nf2 pf2 (f :: ((M ++ [t]) ++ [v]))
    simp only [Ring]
    rw [List.append_assoc]
    show RPath nf2 pf2 f (M ++ t :: [v]) f
    rw [RPath_append]
    refine ⟨RPath_frame hfp ?_ ?_, ?_⟩
    · intro y hy
      have hyt : y ≠ t := by
        rintro rfl
        rcases List.mem_cons.1 hy with h1 | h1
        · exact htf h1
        · exact hMt.2.2 h1 (by simp)
      have hyv : y ≠ v := by
        rintro rfl
        apply hv
        rcases List.mem_cons.1 hy with h1 | h1
        · simp [h1]
        · simp [h1]
      rw [hnf, if_neg hyt, if_neg hyv]
    · intro y hy
      have hyf : y ≠ f := by
        rintro rfl; exact hnd3.1 hy
      have hyv : y ≠ v := by
        rintro rfl
        exact hv (List.mem_cons_of_mem _ hy)
      rw [hpf, if_neg hyf, if_neg hyv]
    · simp only [RPath, RLink]
      rw [hnf, hnf, hpf, hpf]; simp [hvf, hvt]

theorem lastP_mem {prev : Ptr} {A : List Nat} {y : Nat} (h : lastP prev A = some y) :
    y ∈ A ∨ prev = some y := by
  induction A generalizing prev with
  | nil => exact Or.inr h
  | cons x t ih =>
    rcases @ih (some x) h with h1 | h1
    · exact Or.inl (List.mem_cons_of_mem _ h1)
    · exact Or.inl (by rw [Option.some.inj h1]; exact List.mem_cons_self _ _)

theorem lastP_concat (prev : Ptr) (A : List Nat) (p : Nat) : lastP prev (A ++ [p]) = some p := by
  induction A generalizing prev with
  | nil => rfl
  | cons x t ih => exact ih (some x)

theorem HSeg_head {nx pv : Nat → Ptr} {prev cur nxt : Ptr} {l : List Nat}
    (h : HSeg nx pv prev cur l nxt) : cur = (match l.head? with | some x => some x | none => nxt) := by
  cases l with
  | nil => exact h
  | cons x t => exact h.1

theorem HSeg_remove {nx pv nx1 pv1 : Nat → Ptr} {A B : List Nat} {v : Nat} {head : Ptr}
    (h : HSeg nx pv none head (A ++ v :: B) none) (hnd : (A ++ v :: B).Nodup)
    (hnx : ∀ j, nx1 j = if pv v = some j then nx v else nx j)
    (hpv : ∀ j, pv1 j = if nx v = some j then pv v else pv j) :
    HSeg nx1 pv1 none (if head = some v then nx v else head) (A ++ B) none := by
  rw [HSeg_append] at h
  obtain ⟨mid, hA, hvB⟩ := h
  obtain ⟨hmid, hpvv, hB⟩ : mid = some v ∧ pv v = lastP none A ∧ HSeg nx pv (some v) (nx v) B none := hvB
  subst hmid
  have hndA := (List.nodup_append.1 hnd)
  have hndvB := List.nodup_cons.1 hndA.2.1
  have hvA : v ∉ A := fun h => hndA.2.2 h (List.mem_cons_self _ _)
  have hnxv : ∀ z, nx v = some z → z ∈ B := by
    intro z hz
    have := HSeg_head hB
    cases B with
    | nil => simp at this; rw [this] at hz; exact absurd hz (by simp)
    | cons b B1 =>
      simp at this; rw [this] at hz
      rw [← Option.some.inj hz]; exact List.mem_cons_self _ _
  have hpvA : ∀ p, pv v = some p → p ∈ A := by
    intro p hp
    rw [hpvv] at hp
    rcases lastP_mem hp with h1 | h1
    · exact h1
    · exact absurd h1 (by simp)
  have hAB : ∀ y, y ∈ A → y ∉ B := fun y hy hyB => hndA.2.2 hy (List.mem_cons_of_mem _ hyB)
  rw [HSeg_append]
  refine ⟨nx v, ?_, ?_⟩
  · rcases List.eq_nil_or_concat A with rfl | ⟨A0, p, hAp⟩
    · have hh : head = some v := hA
      simp [HSeg, hh]
    · rw [List.concat_eq_append] at hAp
      subst hAp
      have hhead : head ≠ some v := by
        have := HSeg_head hA
        intro hc
        rw [hc] at this
        cases A0 with
        | nil => simp at this; exact hvA (by simp [this])
        | cons a A1 => simp at this; exact hvA (by simp [this])
      rw [if_neg hhead]
      rw [HSeg_append] at hA ⊢
      obtain ⟨m, hA0, hp⟩ := hA
      obtain ⟨hm, hpvp, hnxp⟩ : m = some p ∧ pv p = lastP none A0 ∧ nx p = some v := hp
      subst hm
      have hpvv2 : pv v = some p := by rw [hpvv, lastP_concat]
      have hA0nd := List.nodup_append.1 hndA.1
      refine ⟨some p, HSeg_frame hA0 ?_ ?_, ?_⟩
      · intro y hy
        rw [hnx, hpvv2, if_neg]
        rintro hc
        have : p = y := Option.some.inj hc
        subst this
        exact hA0nd.2.2 hy (by simp)
      · intro y hy
        rw [hpv, if_neg]
        intro hc
        exact hAB y (by simp [hy]) (hnxv y hc)
      · show some p = some p ∧ pv1 p = lastP none A0 ∧ nx1 p = nx v
        refine ⟨rfl, ?_, ?_⟩
        · rw [hpv, if_neg, hpvp]
          intro hc
          exact hAB p (by simp) (hnxv p hc)
        · rw [hnx, hpvv2]; simp
  · cases B with
    | nil => exact hB
    | cons z B1 =>
      obtain ⟨hz, hpz, hB1⟩ : nx v = some z ∧ pv z = some v ∧ HSeg nx pv (some z) (nx z) B1 none := hB
      have hzB1 := List.nodup_cons.1 hndvB.2
      have hzA : z ∉ A := fun h => hAB z h (List.mem_cons_self _ _)
      show nx v = some z ∧ pv1 z = lastP none A ∧ HSeg nx1 pv1 (some z) (nx1 z) B1 none
      refine ⟨hz, ?_, ?_⟩
      · rw [hpv, hz]; simp [hpvv]
      · have hnz : nx1 z = nx z := by
          rw [hnx, if_neg]
          intro hc; exact hzA (hpvA z hc)
        rw [hnz]
        refine HSeg_frame hB1 ?_ ?_
        · intro y hy
          rw [hnx, if_neg]
          intro hc
          exact hAB y (hpvA y hc) (List.mem_cons_of_mem _ hy)
        · intro y hy
          rw [hpv, hz, if_neg]
          rintro hc
          have : z = y := Option.some.inj hc
          subst this
          exact hzB1.1 hy

theorem HSeg_push {nx pv nx2 pv2 : Nat → Ptr} {l : List Nat} {v : Nat} {head : Ptr}
    (h : HSeg nx pv none head l none) (hv : v ∉ l) (hnd : l.Nodup)
    (hnx : ∀ j, nx2 j = if j = v then head else nx j)
    (hpv : ∀ j, pv2 j = if head = some j then some v else if j = v then none else pv j) :
    HSeg nx2 pv2 none (some v) (v :: l) none := by
  have hhv : head ≠ some v := by
    have := HSeg_head h
    intro hc
    rw [hc] at this
    cases l with
    | nil => simp at this
    | cons a t => simp at this; exact hv (by simp [this])
  show some v = some v ∧ pv2 v = none ∧ HSeg nx2 pv2 (some v) (nx2 v) l none
  refine ⟨rfl, ?_, ?_⟩
  · rw [hpv, if_neg hhv]; simp
  · have : nx2 v = head := by rw [hnx]; simp
    rw [this]
    cases l with
    | nil => exact h
    | cons z t =>
      obtain ⟨hz, hpz, ht⟩ : head = some z ∧ pv z = none ∧ HSeg nx pv (some z) (nx z) t none := h
      have hzv : z ≠ v := fun hc => hv (by simp [hc])
      show head = some z ∧ pv2 z = some v ∧ HSeg nx2 pv2 (some z) (nx2 z) t none
      refine ⟨hz, ?_, ?_⟩
      · rw [hpv, hz]; simp
      · have : nx2 z = nx z := by rw [hnx, if_neg hzv]
        rw [this]
        have hzt := List.nodup_cons.1 hnd
        refine HSeg_frame ht ?_ ?_
        · intro y hy
          rw [hnx, if_neg]
          rintro rfl; exact hv (List.mem_cons_of_mem _ hy)
        · intro y hy
          rw [hpv, hz, if_neg, if_neg]
          · rintro rfl; exact hv (List.mem_cons_of_mem _ hy)
          · intro hc
            have : z = y := Option.some.inj hc
            subst this
            exact hzt.1 hy

/-! ## Reads and stores -/

theorem bh_upd (s : State) (i : Nat) (f : buffer_head → buffer_head) (j : Nat) :
    (s.upd i f).bh (some j) =
      if j = i ∧ i < s.bufs.length then f (s.bh (some i)) else s.bh (some j) := by
  simp only [State.bh, State.upd, List.getD_eq_getElem?_getD, List.getElem?_set]
  by_cases hji : j = i
  · subst hji
    by_cases hlt : j < s.bufs.length
    · simp [hlt]
    · have hn : s.bufs[j]? = none := List.getElem?_eq_none (Nat.le_of_not_lt hlt)
      simp [hlt, hn]
  · have : ¬ i = j := fun h => hji h.symm
    simp [hji, this]

theorem upd_length (s : State) (i : Nat) (f : buffer_head → buffer_head) :
    (s.upd i f).bufs.length = s.bufs.length := by
  simp [State.upd]

theorem store_some {s : State} {i : Nat} (f : buffer_head → buffer_head)
    (h : i < s.bufs.length) : s.store (some i) f = s.upd i f := by
  simp [State.store, h]

theorem store_length (s : State) (p : Ptr) (f : buffer_head → buffer_head) :
    (s.store p f).bufs.length = s.bufs.length := by
  cases p with
  | none => rfl
  | some i =>
    simp only [State.store]
    split
    · exact upd_length s i f
    · rfl

theorem upd_self (s : State) (i : Nat) (f : buffer_head → buffer_head)
    (h : f (s.bh (some i)) = s.bh (some i)) : s.upd i f = s := by
  have hb : s.bufs.set i (f (s.bufs.getD i buffer_head.zero)) = s.bufs := by
    apply List.ext_getElem?
    intro j
    rw [List.getElem?_set]
    by_cases hij : i = j
    · subst hij
      by_cases hlt : i < s.bufs.length
      · simp only [State.bh, List.getD_eq_getElem?_getD] at h
        simp only [List.getD_eq_getElem?_getD, if_true, if_pos hlt, h]
        rw [List.getElem?_eq_getElem hlt]; simp
      · have hn : s.bufs[i]? = none := List.getElem?_eq_none (Nat.le_of_not_lt hlt)
        simp [hlt, hn]
    · simp [hij]
  cases s
  simp only [State.upd] at hb ⊢
  rw [hb]

theorem wait_eq_upd (s : State) (i : Nat) :
    wait_on_buffer s (some i) = s.upd i (fun b => { b with b_lock := false }) := by
  unfold wait_on_buffer
  by_cases hl : (s.bh (some i)).b_lock = true
  · rw [if_pos hl]
    by_cases hlt : i < s.bufs.length
    · exact store_some _ hlt
    · exfalso
      simp only [State.bh, List.getD_eq_getElem?_getD] at hl
      rw [List.getElem?_eq_none (by omega)] at hl
      simp [buffer_head.zero] at hl
  · rw [if_neg hl]
    symm
    apply upd_self
    cases hb : s.bh (some i)
    simp only [hb] at hl
    simp at hl
    simp [hl]

theorem bh_upd_ne (s : State) {i j : Nat} (f : buffer_head → buffer_head) (h : j ≠ i) :
    (s.upd i f).bh (some j) = s.bh (some j) := by
  rw [bh_upd, if_neg (fun hc => h hc.1)]

theorem bh_upd_same (s : State) {i : Nat} (f : buffer_head → buffer_head)
    (h : i < s.bufs.length) : (s.upd i f).bh (some i) = f (s.bh (some i)) := by
  rw [bh_upd, if_pos ⟨rfl, h⟩]

theorem remove_free_eff {s : State} {v p q : Nat}
    (hp : s.pf v = some p) (hq : s.nf v = some q) (hpl : p < s.bufs.length)
    (hql : q < s.bufs.length) :
    ∃ s1, remove_free s (some v) = Res.ok s1 () ∧
      s1.bufs.length = s.bufs.length ∧ s1.hash_table = s.hash_table ∧
      s1.free_list = (if s.free_list = some v then some q else s.free_list) ∧
      s1.buffer_wait = s.buffer_wait ∧ s1.io_log = s.io_log ∧ s1.disk = s.disk ∧
      s1.stray = s.stray ∧
      ∀ j, s1.bh (some j) = { s.bh (some j) with
        b_next_free := if j = p then some q else s.nf j,
        b_prev_free := if j = q then some p else s.pf j } := by
  simp only [State.pf, State.nf] at hp hq ⊢
  have h4n : ((s.upd p (fun x => { x with b_next_free := some q })).bh (some v)).b_next_free = some q := by
    rw [bh_upd]; split_ifs with h <;> simp [hq]
  have h4p : ((s.upd p (fun x => { x with b_next_free := some q })).bh (some v)).b_prev_free = some p := by
    rw [bh_upd]; split_ifs with h
    · obtain ⟨rfl, _⟩ := h; simpa using hp
    · exact hp
  have hql4 : q < (s.upd p (fun x => { x with b_next_free := some q })).bufs.length := by
    rw [upd_length]; exact hql
  have h5n : (((s.upd p (fun x => { x with b_next_free := some q })).upd q
      (fun x => { x with b_prev_free := some p })).bh (some v)).b_next_free = some q := by
    rw [bh_upd]; split_ifs with h
    · obtain ⟨rfl, _⟩ := h; simpa using h4n
    · exact h4n
  have hbh : ∀ j, ((s.upd p (fun x => { x with b_next_free := some q })).upd q
      (fun x => { x with b_prev_free := some p })).bh (some j) = { s.bh (some j) with
        b_next_free := if j = p then some q else (s.bh (some j)).b_next_free,
        b_prev_free := if j = q then some p else (s.bh (some j)).b_prev_free } := by
    intro j
    rw [bh_upd, bh_upd, bh_upd, upd_length]
    by_cases hjq : j = q
    · subst hjq
      by_cases hjp : j = p
      · subst hjp; simp [hpl]
      · simp [hjp, hql, Ne.symm hjp]
    · by_cases hjp : j = p
      · subst hjp; simp [hjq, hpl, Ne.symm hjq]
      · simp [hjq, hjp]

  unfold remove_free
  simp only [hp, hq, store_some _ hpl, h4n, h4p, store_some _ hql4]
  refine ⟨_, if_neg (by simp), ?_⟩
  by_cases hfl : s.free_list = some v
  · have hfl5 : ((s.upd p (fun x => { x with b_next_free := some q })).upd q
      (fun x => { x with b_prev_free := some p })).free_list = some v := hfl
    rw [if_pos hfl5, if_pos hfl, h5n]
    refine ⟨?_, rfl, rfl, rfl, rfl, rfl, rfl, ?_⟩
    · dsimp only; rw [upd_length, upd_length]
    · exact hbh
  · have hfl5 : ¬ ((s.upd p (fun x => { x with b_next_free := some q })).upd q
      (fun x => { x with b_prev_free := some p })).free_list = some v := hfl
    rw [if_neg hfl5, if_neg hfl]
    refine ⟨?_, rfl, rfl, rfl, rfl, rfl, rfl, ?_⟩
    · rw [upd_length, upd_length]
    · exact hbh

theorem insert_free_eff {s : State} {v f t : Nat} (hv : v < s.bufs.length)
    (hf : s.free_list = some f) (hfl : f < s.bufs.length)
    (ht : s.pf f = some t) (htl : t < s.bufs.length) :
    (insert_free s (some v)).bufs.length = s.bufs.length ∧
    (insert_free s (some v)).hash_table = s.hash_table ∧
    (insert_free s (some v)).free_list = s.free_list ∧
    (insert_free s (some v)).buffer_wait = s.buffer_wait ∧
    (insert_free s (some v)).io_log = s.io_log ∧
    (insert_free s (some v)).disk = s.disk ∧
    (insert_free s (some v)).stray = s.stray ∧
    ∀ j, (insert_free s (some v)).bh (some j) = { s.bh (some j) with
        b_next_free := if j = t then some v else if j = v then some f else s.nf j,
        b_prev_free := if j = f then some v else if j = v then some t else s.pf j } := by
  simp only [State.pf, State.nf] at ht ⊢
  have e1 : s.store (some v) (fun x => { x with b_next_free := some f }) =
      s.upd v (fun x => { x with b_next_free := some f }) := store_some _ hv
  have h1 : ((s.upd v (fun x => { x with b_next_free := some f })).bh (some f)).b_prev_free = some t := by
    rw [bh_upd]; split_ifs with h
    · obtain ⟨rfl, _⟩ := h; simpa using ht
    · exact ht
  have hv1 : v < (s.upd v (fun x => { x with b_next_free := some f })).bufs.length := by
    rw [upd_length]; exact hv
  have h2 : (((s.upd v (fun x => { x with b_next_free := some f })).upd v
      (fun x => { x with b_prev_free := some t })).bh (some f)).b_prev_free = some t := by
    rw [bh_upd]; split_ifs with h
    · simp
    · exact h1
  have ht2 : t < ((s.upd v (fun x => { x with b_next_free := some f })).upd v
      (fun x => { x with b_prev_free := some t })).bufs.length := by
    rw [upd_length, upd_length]; exact htl
  have hf3 : f < (((s.upd v (fun x => { x with b_next_free := some f })).upd v
      (fun x => { x with b_prev_free := some t })).upd t
      (fun x => { x with b_next_free := some v })).bufs.length := by
    rw [upd_length, upd_length, upd_length]; exact hfl
  have hfl1 : (s.upd v (fun x => { x with b_next_free := some f })).free_list = some f := hf
  have hfl2 : ((s.upd v (fun x => { x with b_next_free := some f })).upd v
      (fun x => { x with b_prev_free := some t })).free_list = some f := hf
  have hfl3 : (((s.upd v (fun x => { x with b_next_free := some f })).upd v
      (fun x => { x with b_prev_free := some t })).upd t
      (fun x => { x with b_next_free := some v })).free_list = some f := hf
  have key : insert_free s (some v) = (((s.upd v (fun x => { x with b_next_free := some f })).upd v
      (fun x => { x with b_prev_free := some t })).upd t
      (fun x => { x with b_next_free := some v })).upd f (fun x => { x with b_prev_free := some v }) := by
    unfold insert_free
    simp only [hf, e1, hfl1, h1, store_some _ hv1, hfl2, h2, store_some _ ht2, hfl3, store_some _ hf3]
  rw [key]
  refine ⟨?_, rfl, rfl, rfl, rfl, rfl, rfl, ?_⟩
  · simp only [upd_length]
  · intro j
    simp only [bh_upd, upd_length]
    by_cases hjf : j = f <;> by_cases hjv : j = v <;> by_cases hjt : j = t <;>
      by_cases hft : f = t <;> by_cases hfv : f = v <;> by_cases htv : t = v <;>
      simp_all

theorem remove_hash_eff {s : State} {v : Nat}
    (hz : ∀ z, s.nx v = some z → z < s.bufs.length ∧ z ≠ v)
    (hp : ∀ p, s.pv v = some p → p < s.bufs.length ∧ p ≠ v) :
    (remove_hash s (some v)).bufs.length = s.bufs.length ∧
    (remove_hash s (some v)).hash_table = (fun h =>
      if h = _hashfn (s.bh (some v)).b_dev (s.bh (some v)).b_blocknr ∧ s.hash_table h = some v
      then s.nx v else s.hash_table h) ∧
    (remove_hash s (some v)).free_list = s.free_list ∧
    (remove_hash s (some v)).buffer_wait = s.buffer_wait ∧
    (remove_hash s (some v)).io_log = s.io_log ∧
    (remove_hash s (some v)).disk = s.disk ∧
    (remove_hash s (some v)).stray = s.stray ∧
    ∀ j, (remove_hash s (some v)).bh (some j) = { s.bh (some j) with
        b_prev := if s.nx v = some j then s.pv v else s.pv j,
        b_next := if s.pv v = some j then s.nx v else s.nx j } := by
  simp only [State.pv, State.nx] at hz hp ⊢
  -- the state after the two stores
  obtain ⟨s2, hs2, hlen, hht, hfl, hbw, hio, hdk, hst, hbh⟩ : ∃ s2 : State,
      (let s1 := match (s.bh (some v)).b_next with
          | some n => s.store (some n) (fun x => { x with b_prev := (s.bh (some v)).b_prev })
          | none => s
        match (s1.bh (some v)).b_prev with
          | some p => s1.store (some p) (fun x => { x with b_next := (s1.bh (some v)).b_next })
          | none => s1) = s2 ∧
      s2.bufs.length = s.bufs.length ∧ s2.hash_table = s.hash_table ∧
      s2.free_list = s.free_list ∧ s2.buffer_wait = s.buffer_wait ∧ s2.io_log = s.io_log ∧
      s2.disk = s.disk ∧ s2.stray = s.stray ∧
      ∀ j, s2.bh (some j) = { s.bh (some j) with
        b_prev := if (s.bh (some v)).b_next = some j then (s.bh (some v)).b_prev
          else (s.bh (some j)).b_prev,
        b_next := if (s.bh (some v)).b_prev = some j then (s.bh (some v)).b_next
          else (s.bh (some j)).b_next } := by
    refine ⟨_, rfl, ?_⟩
    cases hnx : (s.bh (some v)).b_next with
    | none =>
      cases hpv : (s.bh (some v)).b_prev with
      | none =>
        simp only [hnx, hpv]
        refine ⟨?_, ?_, ?_, ?_, ?_, ?_, ?_, ?_⟩
        all_goals try trivial
        intro j; simp
      | some p =>
        obtain ⟨hpl, hpv'⟩ := hp p hpv
        simp only [hnx, hpv, store_some _ hpl]
        refine ⟨?_, ?_, ?_, ?_, ?_, ?_, ?_, ?_⟩
        all_goals try trivial
        · exact upd_length _ _ _
        intro j
        rw [bh_upd]
        by_cases hjp : j = p
        · subst hjp; simp [hpl]
        · simp [hjp, Ne.symm hjp]
    | some z =>
      obtain ⟨hzl, hzv⟩ := hz z hnx
      have e1 : ((s.upd z (fun x => { x with b_prev := (s.bh (some v)).b_prev })).bh (some v)) =
          s.bh (some v) := bh_upd_ne _ _ (Ne.symm hzv)
      cases hpv : (s.bh (some v)).b_prev with
      | none =>
        rw [hpv] at e1
        simp only [hnx, hpv, store_some _ hzl, e1]
        refine ⟨?_, ?_, ?_, ?_, ?_, ?_, ?_, ?_⟩
        all_goals try trivial
        · exact upd_length _ _ _
        intro j
        rw [bh_upd]
        by_cases hjz : j = z
        · subst hjz; simp [hzl]
        · simp [hjz, Ne.symm hjz]
      | some p =>
        obtain ⟨hpl, hpv'⟩ := hp p hpv
        have hpl1 : p < (s.upd z (fun x => { x with b_prev := some p })).bufs.length := by
          rw [upd_length]; exact hpl
        rw [hpv] at e1
        simp only [hnx, hpv, store_some _ hzl, e1, store_some _ hpl1]
        refine ⟨?_, ?_, ?_, ?_, ?_, ?_, ?_, ?_⟩
        all_goals try trivial
        · rw [upd_length, upd_length]
        intro j
        rw [bh_upd, bh_upd, bh_upd, upd_length]
        by_cases hjz : j = z
        · subst hjz
          by_cases hjp : j = p
          · subst hjp; simp [hpl]
          · simp [hjp, hzl, Ne.symm hjp]
        · by_cases hjp : j = p
          · subst hjp; simp [hjz, hpl, Ne.symm hjz]
          · simp [hjz, hjp, Ne.symm hjz, Ne.symm hjp]
  have hv2 : s2.bh (some v) = s.bh (some v) := by
    rw [hbh]
    have h1 : ¬ (s.bh (some v)).b_next = some v := fun h => (hz v h).2 rfl
    have h2 : ¬ (s.bh (some v)).b_prev = some v := fun h => (hp v h).2 rfl
    simp [h1, h2]
  have key : remove_hash s (some v) =
      if s2.hash (s2.bh (some v)).b_dev (s2.bh (some v)).b_blocknr = some v then
        s2.set_hash (s2.bh (some v)).b_dev (s2.bh (some v)).b_blocknr (s2.bh (some v)).b_next
      else s2 := by
    unfold remove_hash
    simp only [] at hs2
    simp only [hs2]
  rw [key, hv2]
  simp only [State.hash, hht]
  by_cases hh : s.hash_table (_hashfn (s.bh (some v)).b_dev (s.bh (some v)).b_blocknr) = some v
  · rw [if_pos hh]
    refine ⟨hlen, ?_, hfl, hbw, hio, hdk, hst, hbh⟩
    funext h
    simp only [State.set_hash, hht]
    by_cases h1 : h = _hashfn (s.bh (some v)).b_dev (s.bh (some v)).b_blocknr
    · subst h1; simp [hh]
    · simp [h1]
  · rw [if_neg hh]
    refine ⟨hlen, ?_, hfl, hbw, hio, hdk, hst, hbh⟩
    rw [hht]
    funext h
    by_cases h1 : h = _hashfn (s.bh (some v)).b_dev (s.bh (some v)).b_blocknr
    · subst h1; simp [hh]
    · simp [h1]

theorem insert_hash_eff_zero {s : State} {v : Nat} (hv : v < s.bufs.length)
    (hd : (s.bh (some v)).b_dev = 0) :
    (insert_hash s (some v)).bufs.length = s.bufs.length ∧
    (insert_hash s (some v)).hash_table = s.hash_table ∧
    (insert_hash s (some v)).free_list = s.free_list ∧
    (insert_hash s (some v)).buffer_wait = s.buffer_wait ∧
    (insert_hash s (some v)).io_log = s.io_log ∧
    (insert_hash s (some v)).disk = s.disk ∧
    (insert_hash s (some v)).stray = s.stray ∧
    ∀ j, (insert_hash s (some v)).bh (some j) =
      if j = v then { s.bh (some j) with b_prev := none, b_next := none } else s.bh (some j) := by
  have hv5 : v < (s.upd v (fun x => { x with b_prev := none })).bufs.length := by
    rw [upd_length]; exact hv
  have h6 : (((s.upd v (fun x => { x with b_prev := none })).upd v
      (fun x => { x with b_next := none })).bh (some v)).b_dev = 0 := by
    rw [bh_upd_same _ _ hv5, bh_upd_same _ _ hv]; exact hd
  have key : insert_hash s (some v) = (s.upd v (fun x => { x with b_prev := none })).upd v
      (fun x => { x with b_next := none }) := by
    unfold insert_hash
    simp only [store_some _ hv, store_some _ hv5, h6, if_true]
  rw [key]
  refine ⟨by rw [upd_length, upd_length], rfl, rfl, rfl, rfl, rfl, rfl, ?_⟩
  intro j
  rw [bh_upd, bh_upd, bh_upd, upd_length]
  by_cases hjv : j = v
  · subst hjv; simp [hv]
  · simp [hjv]

theorem insert_hash_eff {s : State} {v : Nat} (hv : v < s.bufs.length)
    (hd : (s.bh (some v)).b_dev ≠ 0)
    (hh : ∀ z, s.hash_table (_hashfn (s.bh (some v)).b_dev (s.bh (some v)).b_blocknr) = some z →
      z < s.bufs.length) :
    (insert_hash s (some v)).bufs.length = s.bufs.length ∧
    (insert_hash s (some v)).hash_table = (fun h =>
      if h = _hashfn (s.bh (some v)).b_dev (s.bh (some v)).b_blocknr then some v
      else s.hash_table h) ∧
    (insert_hash s (some v)).free_list = s.free_list ∧
    (insert_hash s (some v)).buffer_wait = s.buffer_wait ∧
    (insert_hash s (some v)).io_log = s.io_log ∧
    (insert_hash s (some v)).disk = s.disk ∧
    (insert_hash s (some v)).stray =
      (if s.hash_table (_hashfn (s.bh (some v)).b_dev (s.bh (some v)).b_blocknr) = none
       then s.stray + 1 else s.stray) ∧
    ∀ j, (insert_hash s (some v)).bh (some j) = { s.bh (some j) with
      b_next := if j = v
        then s.hash_table (_hashfn (s.bh (some v)).b_dev (s.bh (some v)).b_blocknr)
        else s.nx j,
      b_prev := if s.hash_table (_hashfn (s.bh (some v)).b_dev (s.bh (some v)).b_blocknr) = some j
        then some v else if j = v then none else s.pv j } := by
  simp only [State.nx, State.pv]
  generalize hH : s.hash_table (_hashfn (s.bh (some v)).b_dev (s.bh (some v)).b_blocknr) = h0 at hh ⊢
  obtain ⟨s6, hs6, hlen6, hht6, hfl6, hbw6, hio6, hdk6, hst6, hbh6⟩ : ∃ s6 : State,
      (s.upd v (fun x => { x with b_prev := none })).upd v (fun x => { x with b_next := none }) = s6 ∧
      s6.bufs.length = s.bufs.length ∧ s6.hash_table = s.hash_table ∧
      s6.free_list = s.free_list ∧ s6.buffer_wait = s.buffer_wait ∧ s6.io_log = s.io_log ∧
      s6.disk = s.disk ∧ s6.stray = s.stray ∧
      ∀ j, s6.bh (some j) =
        if j = v then { s.bh (some j) with b_prev := none, b_next := none } else s.bh (some j) := by
    refine ⟨_, rfl, by rw [upd_length, upd_length], rfl, rfl, rfl, rfl, rfl, rfl, ?_⟩
    intro j
    rw [bh_upd, bh_upd, bh_upd, upd_length]
    by_cases hjv : j = v
    · subst hjv; simp [hv]
    · simp [hjv]
  have hv5 : v < (s.upd v (fun x => { x with b_prev := none })).bufs.length := by
    rw [upd_length]; exact hv
  have hv6 : v < s6.bufs.length := by rw [hlen6]; exact hv
  have h6d : (s6.bh (some v)).b_dev = (s.bh (some v)).b_dev := by rw [hbh6]; simp
  have h6b : (s6.bh (some v)).b_blocknr = (s.bh (some v)).b_blocknr := by rw [hbh6]; simp
  have h6h : s6.hash (s.bh (some v)).b_dev (s.bh (some v)).b_blocknr = h0 := by
    simp only [State.hash, hht6, hH]
  have h7 : (s6.upd v (fun x => { x with b_next := h0 })).bh (some v) =
      { s6.bh (some v) with b_next := h0 } := bh_upd_same _ _ hv6
  have key : insert_hash s (some v) =
      ((s6.upd v (fun x => { x with b_next := h0 })).set_hash
        (s.bh (some v)).b_dev (s.bh (some v)).b_blocknr (some v)).store h0
        (fun x => { x with b_prev := some v }) := by
    unfold insert_hash
    simp only [store_some _ hv, store_some _ hv5, hs6, h6d, h6b, if_neg hd, h6h,
      store_some _ hv6]
    have e8 : ((s6.upd v (fun x => { x with b_next := h0 })).set_hash
        (s.bh (some v)).b_dev (s.bh (some v)).b_blocknr (some v)).bh (some v) =
        { s6.bh (some v) with b_next := h0 } := h7
    have e7d : ((s6.upd v (fun x => { x with b_next := h0 })).bh (some v)).b_dev =
        (s.bh (some v)).b_dev := by rw [h7]; exact h6d
    have e7b : ((s6.upd v (fun x => { x with b_next := h0 })).bh (some v)).b_blocknr =
        (s.bh (some v)).b_blocknr := by rw [h7]; exact h6b
    simp only [e7d, e7b, e8]
  rw [key]
  cases h0 with
  | none =>
    simp only [State.store, State.set_hash]
    refine ⟨?_, ?_, hfl6, hbw6, hio6, hdk6, ?_, ?_⟩
    · show (s6.upd v (fun x => { x with b_next := none })).bufs.length = _
      rw [upd_length]; exact hlen6
    · show (fun h => if h = _ then some v else s6.hash_table h) = _
      rw [hht6]
    · show s6.stray + 1 = _
      rw [hst6]; simp
    · intro j
      show (s6.upd v (fun x => { x with b_next := none })).bh (some j) = _
      rw [bh_upd, hbh6, hbh6]
      by_cases hjv : j = v
      · subst hjv; simp [hv6]
      · simp [hjv]
  | some z =>
    have hzl := hh z rfl
    have hz8 : z < ((s6.upd v (fun x => { x with b_next := some z })).set_hash
        (s.bh (some v)).b_dev (s.bh (some v)).b_blocknr (some v)).bufs.length := by
      show z < (s6.upd v (fun x => { x with b_next := some z })).bufs.length
      rw [upd_length, hlen6]; exact hzl
    rw [store_some _ hz8]
    refine ⟨?_, ?_, hfl6, hbw6, hio6, hdk6, ?_, ?_⟩
    · rw [upd_length]
      show (s6.upd v (fun x => { x with b_next := some z })).bufs.length = _
      rw [upd_length]; exact hlen6
    · show (fun h => if h = _ then some v else s6.hash_table h) = _
      rw [hht6]
    · show s6.stray = _
      rw [hst6]; simp
    · intro j
      rw [bh_upd]
      show (if j = z ∧ z < (s6.upd v (fun x => { x with b_next := some z })).bufs.length then
          { (s6.upd v (fun x => { x with b_next := some z })).bh (some z) with b_prev := some v }
        else (s6.upd v (fun x => { x with b_next := some z })).bh (some j)) = _
      rw [upd_length, bh_upd, bh_upd, hlen6]
      by_cases hjv : j = v
      · subst hjv
        by_cases hjz : j = z
        · subst hjz; simp [hv, hbh6]
        · simp [hjz, hv, Ne.symm hjz, hbh6]
      · by_cases hjz : j = z
        · subst hjz; simp [hjv, hzl, Ne.symm hjv, hbh6]
        · simp [hjz, hjv, Ne.symm hjz, hbh6]

theorem RPath_first {nf pf : Nat → Ptr} {a b : Nat} {l : List Nat} (h : RPath nf pf a l b) :
    ∃ q, nf a = some q ∧ q ∈ l ++ [b] := by
  cases l with
  | nil => exact ⟨b, h.1, by simp⟩
  | cons c t => exact ⟨c, h.1.1, by simp⟩

theorem RPath_last {nf pf : Nat → Ptr} {a b : Nat} {l : List Nat} (h : RPath nf pf a l b) :
    ∃ p, pf b = some p ∧ p ∈ a :: l := by
  induction l generalizing a with
  | nil => exact ⟨a, h.2, by simp⟩
  | cons c t ih =>
    obtain ⟨p, hp, hm⟩ := ih h.2
    exact ⟨p, hp, List.mem_cons_of_mem _ hm⟩

theorem Ring_links {nf pf : Nat → Ptr} {L : List Nat} {v : Nat} (hR : Ring nf pf L)
    (hv : v ∈ L) : ∃ p q, pf v = some p ∧ nf v = some q ∧ p ∈ L ∧ q ∈ L := by
  obtain ⟨A, B, rfl⟩ := List.append_of_mem hv
  have hrot := Ring_rotate A v B hR
  have hrot2 : RPath nf pf v (B ++ A) v := hrot
  obtain ⟨q, hq, hqm⟩ := RPath_first hrot2
  obtain ⟨p, hp, hpm⟩ := RPath_last hrot2
  refine ⟨p, q, hp, hq, ?_, ?_⟩
  · simp only [List.mem_cons, List.mem_append] at hpm ⊢; tauto
  · simp only [List.mem_cons, List.mem_append, List.mem_singleton, List.not_mem_nil, or_false] at hqm ⊢
    tauto

theorem HSeg_mid {nx pv : Nat → Ptr} {A B : List Nat} {v : Nat} {head : Ptr}
    (h : HSeg nx pv none head (A ++ v :: B) none) :
    nx v = B.head? ∧ pv v = lastP none A := by
  rw [HSeg_append] at h
  obtain ⟨mid, _, hvB⟩ := h
  obtain ⟨_, hpvv, hB⟩ : mid = some v ∧ pv v = lastP none A ∧ HSeg nx pv (some v) (nx v) B none := hvB
  refine ⟨?_, hpvv⟩
  have := HSeg_head hB
  cases B with
  | nil => simpa using this
  | cons b B1 => simpa using this

theorem HSeg_links {nx pv : Nat → Ptr} {l : List Nat} {v : Nat} {head : Ptr}
    (h : HSeg nx pv none head l none) (hnd : l.Nodup) (hv : v ∈ l) :
    (∀ z, nx v = some z → z ∈ l ∧ z ≠ v) ∧ (∀ p, pv v = some p → p ∈ l ∧ p ≠ v) := by
  obtain ⟨A, B, rfl⟩ := List.append_of_mem hv
  obtain ⟨h1, h2⟩ := HSeg_mid h
  have hndA := List.nodup_append.1 hnd
  have hvB := (List.nodup_cons.1 hndA.2.1).1
  have hvA : v ∉ A := fun h => hndA.2.2 h (List.mem_cons_self _ _)
  constructor
  · intro z hz
    rw [h1] at hz
    have hzB : z ∈ B := List.mem_of_mem_head? hz
    exact ⟨by simp [hzB], fun hc => hvB (hc ▸ hzB)⟩
  · intro p hp
    rw [h2] at hp
    rcases lastP_mem hp with h3 | h3
    · exact ⟨by simp [h3], fun hc => hvA (hc ▸ h3)⟩
    · exact absurd h3 (by simp)

theorem FreeOrder_iff (s : State) (L : List Nat) :
    FreeOrder s L ↔ FreeRing s L ∧ ∀ i, i < s.bufs.length → i ∈ L := by
  unfold FreeOrder FreeRing
  constructor
  · rintro ⟨h1, h2, h3, h4⟩
    exact ⟨⟨h1, fun i hi => (h2 i).1 hi, h3, h4⟩, fun i hi => (h2 i).2 hi⟩
  · rintro ⟨⟨h1, h2, h3, h4⟩, h5⟩
    exact ⟨h1, fun i => ⟨h2 i, h5 i⟩, h3, h4⟩

theorem FreeRing_congr {s t : State} {L : List Nat} (h : FreeRing s L)
    (hlen : t.bufs.length = s.bufs.length) (hfl : t.free_list = s.free_list)
    (hbh : ∀ j, (t.bh (some j)).b_next_free = (s.bh (some j)).b_next_free ∧
      (t.bh (some j)).b_prev_free = (s.bh (some j)).b_prev_free) : FreeRing t L := by
  obtain ⟨h1, h2, h3, h4⟩ := h
  have hnf : t.nf = s.nf := funext fun j => (hbh j).1
  have hpf : t.pf = s.pf := funext fun j => (hbh j).2
  exact ⟨h1, fun i hi => hlen ▸ h2 i hi, hfl ▸ h3, by rw [hnf, hpf]; exact h4⟩

theorem HashOrderX_congr {s t : State} {C : Nat → List Nat} {d : Option Nat}
    (h : HashOrderX s C d)
    (hlen : t.bufs.length = s.bufs.length) (hht : t.hash_table = s.hash_table)
    (hbh : ∀ j, (t.bh (some j)).b_next = (s.bh (some j)).b_next ∧
      (t.bh (some j)).b_prev = (s.bh (some j)).b_prev)
    (hid : ∀ j, some j ≠ d → (t.bh (some j)).b_dev = (s.bh (some j)).b_dev ∧
      (t.bh (some j)).b_blocknr = (s.bh (some j)).b_blocknr) : HashOrderX t C d := by
  obtain ⟨h1, h2, h3, h4⟩ := h
  have hnx : t.nx = s.nx := funext fun j => (hbh j).1
  have hpv : t.pv = s.pv := funext fun j => (hbh j).2
  refine ⟨?_, h2, ?_, ?_⟩
  · intro h; rw [hnx, hpv, hht]; exact h1 h
  · intro h x
    rw [h3 h x, hlen]
    constructor
    · rintro ⟨a, b, c, e⟩
      obtain ⟨e1, e2⟩ := hid x b
      exact ⟨a, b, by rw [e1]; exact c, by rw [e1, e2]; exact e⟩
    · rintro ⟨a, b, c, e⟩
      obtain ⟨e1, e2⟩ := hid x b
      exact ⟨a, b, by rw [← e1]; exact c, by rw [← e1, ← e2]; exact e⟩
  · intro i hi hd h0
    obtain ⟨e1, _⟩ := hid i hd
    rw [hnx, hpv]
    exact h4 i (hlen ▸ hi) hd (e1 ▸ h0)

theorem QStep_trans {s t u : State} (h1 : QStep s t) (h2 : QStep t u) : QStep s u := by
  obtain ⟨a1, a2, a3, a4, a5⟩ := h1
  obtain ⟨b1, b2, b3, b4, b5⟩ := h2
  exact ⟨b1.trans a1, b2.trans a2, b3.trans a3, b4.trans a4, fun j => (b5 j).trans (a5 j)⟩

theorem HashOrderX_link {s : State} {C : Nat → List Nat} {d : Option Nat}
    (h : HashOrderX s C d) {v : Nat} (hv : v < s.bufs.length) (hvd : some v ≠ d) :
    (∀ z, s.nx v = some z → z ≠ v ∧ v ∈ C (_hashfn (s.bh (some v)).b_dev (s.bh (some v)).b_blocknr) ∧
      z ∈ C (_hashfn (s.bh (some v)).b_dev (s.bh (some v)).b_blocknr)) ∧
    (∀ p, s.pv v = some p → p ≠ v ∧ v ∈ C (_hashfn (s.bh (some v)).b_dev (s.bh (some v)).b_blocknr) ∧
      p ∈ C (_hashfn (s.bh (some v)).b_dev (s.bh (some v)).b_blocknr)) := by
  obtain ⟨h1, h2, h3, h4⟩ := h
  by_cases hd : (s.bh (some v)).b_dev = 0
  · obtain ⟨e1, e2⟩ := h4 v hv hvd hd
    constructor
    · intro z hz; rw [e1] at hz; exact absurd hz (by simp)
    · intro p hp; rw [e2] at hp; exact absurd hp (by simp)
  · have hvC : v ∈ C (_hashfn (s.bh (some v)).b_dev (s.bh (some v)).b_blocknr) :=
      (h3 _ v).2 ⟨hv, hvd, hd, rfl⟩
    obtain ⟨l1, l2⟩ := HSeg_links (h1 _) (h2 _) hvC
    constructor
    · intro z hz; exact ⟨(l1 z hz).2, hvC, (l1 z hz).1⟩
    · intro p hp; exact ⟨(l2 p hp).2, hvC, (l2 p hp).1⟩

theorem remove_hash_inv {s : State} {C : Nat → List Nat} (h : HashOrder s C) {v : Nat}
    (hv : v < s.bufs.length) :
    HashOrderX (remove_hash s (some v)) (fun h => (C h).erase v) (some v) ∧
    QStep s (remove_hash s (some v)) ∧
    (remove_hash s (some v)).free_list = s.free_list ∧
    (remove_hash s (some v)).stray = s.stray ∧
    (∀ j, ((remove_hash s (some v)).bh (some j)).b_next_free = (s.bh (some j)).b_next_free ∧
      ((remove_hash s (some v)).bh (some j)).b_prev_free = (s.bh (some j)).b_prev_free) := by
  have hX : HashOrderX s C none := h
  obtain ⟨h1, h2, h3, h4⟩ := hX
  have hne : ∀ x : Nat, some x ≠ (none : Option Nat) := fun x => by simp
  have hlink := fun x (hx : x < s.bufs.length) => HashOrderX_link h hx (hne x)
  obtain ⟨lz, lp⟩ := hlink v hv
  have hlt : ∀ h x, x ∈ C h → x < s.bufs.length := fun h x hx => ((h3 h x).1 hx).1
  obtain ⟨e1, e2, e3, e4, e5, e6, e7, e8⟩ := remove_hash_eff (s := s) (v := v)
    (fun z hz => ⟨hlt _ z (lz z hz).2.2, (lz z hz).1⟩)
    (fun p hp => ⟨hlt _ p (lp p hp).2.2, (lp p hp).1⟩)
  generalize remove_hash s (some v) = t at e1 e2 e3 e4 e5 e6 e7 e8 ⊢
  have hnx : ∀ j, t.nx j = if s.pv v = some j then s.nx v else s.nx j := by
    intro j; simp only [State.nx, e8 j]
  have hpv : ∀ j, t.pv j = if s.nx v = some j then s.pv v else s.pv j := by
    intro j; simp only [State.pv, e8 j]
  have hdev : ∀ j, (t.bh (some j)).b_dev = (s.bh (some j)).b_dev := fun j => by rw [e8 j]
  have hblk : ∀ j, (t.bh (some j)).b_blocknr = (s.bh (some j)).b_blocknr := fun j => by rw [e8 j]
  -- a slot linked to `v` lies in the chain of `v`
  have hsame : ∀ h y, y ∈ C h → (s.pv v = some y ∨ s.nx v = some y) → v ∈ C h := by
    intro h y hy hl
    have hyv : y ∈ C (_hashfn (s.bh (some v)).b_dev (s.bh (some v)).b_blocknr) ∧
        v ∈ C (_hashfn (s.bh (some v)).b_dev (s.bh (some v)).b_blocknr) := by
      rcases hl with hl | hl
      · exact ⟨(lp y hl).2.2, (lp y hl).2.1⟩
      · exact ⟨(lz y hl).2.2, (lz y hl).2.1⟩
    have a := ((h3 _ y).1 hy).2.2.2
    have b := ((h3 _ y).1 hyv.1).2.2.2
    rw [a] at b
    rw [b]; exact hyv.2
  refine ⟨⟨?_, fun h => (h2 h).erase v, ?_, ?_⟩, ⟨e1, e4, e5, e6, fun j => by rw [e8 j]; rfl⟩,
    e3, e7, fun j => by rw [e8 j]; exact ⟨rfl, rfl⟩⟩
  · intro h
    by_cases hvC : v ∈ C h
    · obtain ⟨A, B, hAB⟩ := List.append_of_mem hvC
      have hnd := h2 h
      have hseg := h1 h
      rw [hAB] at hnd hseg
      have hvA : v ∉ A := fun hc => (List.nodup_append.1 hnd).2.2 hc (List.mem_cons_self _ _)
      have he : (C h).erase v = A ++ B := by
        rw [hAB, List.erase_append_right _ hvA, List.erase_cons_head]
      have hh : h = _hashfn (s.bh (some v)).b_dev (s.bh (some v)).b_blocknr :=
        ((h3 h v).1 hvC).2.2.2.symm
      have := HSeg_remove hseg hnd hnx hpv
      show HSeg t.nx t.pv none (t.hash_table h) ((C h).erase v) none
      rw [he, e2]
      simp only [← hh, true_and]
      exact this
    · have he : (C h).erase v = C h := List.erase_of_not_mem hvC
      show HSeg t.nx t.pv none (t.hash_table h) ((C h).erase v) none
      rw [he, e2]
      have hhd : ¬ (h = _hashfn (s.bh (some v)).b_dev (s.bh (some v)).b_blocknr ∧
          s.hash_table h = some v) := by
        rintro ⟨_, hc⟩
        have := HSeg_head (h1 h)
        rw [hc] at this
        cases hC : C h with
        | nil => rw [hC] at this; simp at this
        | cons a l =>
          rw [hC] at this; simp at this
          exact hvC (by rw [hC, this]; exact List.mem_cons_self _ _)
      simp only [if_neg hhd]
      refine HSeg_frame (h1 h) ?_ ?_
      · intro y hy
        rw [hnx, if_neg]
        intro hc; exact hvC (hsame h y hy (Or.inl hc))
      · intro y hy
        rw [hpv, if_neg]
        intro hc; exact hvC (hsame h y hy (Or.inr hc))
  · intro h x
    show x ∈ (C h).erase v ↔ _
    rw [(h2 h).mem_erase_iff, h3 h x, e1, hdev, hblk]
    constructor
    · rintro ⟨a, b, _, c, e⟩
      exact ⟨b, fun hc => a (Option.some.inj hc), c, e⟩
    · rintro ⟨b, a, c, e⟩
      exact ⟨fun hc => a (by rw [hc]), b, hne x, c, e⟩
  · intro i hi hiv hd
    rw [e1] at hi
    rw [hdev] at hd
    obtain ⟨a, b⟩ := h4 i hi (hne i) hd
    have hnot : ∀ y, y ∈ C (_hashfn (s.bh (some v)).b_dev (s.bh (some v)).b_blocknr) → y ≠ i := by
      intro y hy hc
      exact ((h3 _ y).1 hy).2.2.1 (hc ▸ hd)
    rw [hnx, hpv, if_neg, if_neg]
    · exact ⟨a, b⟩
    · intro hc; exact hnot i (lz i hc).2.2 rfl
    · intro hc; exact hnot i (lp i hc).2.2 rfl

theorem insert_hash_inv {s : State} {C : Nat → List Nat} {v : Nat}
    (h : HashOrderX s C (some v)) (hv : v < s.bufs.length) :
    HashOrder (insert_hash s (some v)) (fun h =>
      if (s.bh (some v)).b_dev ≠ 0 ∧ h = _hashfn (s.bh (some v)).b_dev (s.bh (some v)).b_blocknr
      then v :: C h else C h) ∧
    QStep s (insert_hash s (some v)) ∧
    (insert_hash s (some v)).free_list = s.free_list ∧
    (insert_hash s (some v)).stray =
      (if (s.bh (some v)).b_dev ≠ 0 ∧
          s.hash_table (_hashfn (s.bh (some v)).b_dev (s.bh (some v)).b_blocknr) = none
       then s.stray + 1 else s.stray) ∧
    (∀ j, ((insert_hash s (some v)).bh (some j)).b_next_free = (s.bh (some j)).b_next_free ∧
      ((insert_hash s (some v)).bh (some j)).b_prev_free = (s.bh (some j)).b_prev_free) := by
  obtain ⟨h1, h2, h3, h4⟩ := h
  have hvC : ∀ h, v ∉ C h := fun h hc => ((h3 h v).1 hc).2.1 rfl
  have hne : ∀ x : Nat, some x ≠ (none : Option Nat) := fun x => by simp
  by_cases hd : (s.bh (some v)).b_dev = 0
  · obtain ⟨e1, e2, e3, e4, e5, e6, e7, e8⟩ := insert_hash_eff_zero hv hd
    generalize insert_hash s (some v) = t at e1 e2 e3 e4 e5 e6 e7 e8 ⊢
    have hC : (fun h => if (s.bh (some v)).b_dev ≠ 0 ∧
        h = _hashfn (s.bh (some v)).b_dev (s.bh (some v)).b_blocknr then v :: C h else C h) = C := by
      funext h; simp [hd]
    rw [hC]
    have hdev : ∀ j, (t.bh (some j)).b_dev = (s.bh (some j)).b_dev := fun j => by
      rw [e8 j]; split <;> rfl
    have hblk : ∀ j, (t.bh (some j)).b_blocknr = (s.bh (some j)).b_blocknr := fun j => by
      rw [e8 j]; split <;> rfl
    refine ⟨⟨?_, h2, ?_, ?_⟩, ⟨e1, e4, e5, e6, fun j => by rw [e8 j]; split <;> rfl⟩, e3,
      by rw [e7]; simp [hd], fun j => by rw [e8 j]; split <;> exact ⟨rfl, rfl⟩⟩
    · intro h
      show HSeg t.nx t.pv none (t.hash_table h) (C h) none
      rw [e2]
      refine HSeg_frame (h1 h) ?_ ?_
      · intro y hy
        have hyv : y ≠ v := fun hc => hvC h (hc ▸ hy)
        simp only [State.nx, e8 y, if_neg hyv]
      · intro y hy
        have hyv : y ≠ v := fun hc => hvC h (hc ▸ hy)
        simp only [State.pv, e8 y, if_neg hyv]
    · intro h x
      rw [h3 h x, e1, hdev, hblk]
      constructor
      · rintro ⟨a, _, c, e⟩; exact ⟨a, hne x, c, e⟩
      · rintro ⟨a, _, c, e⟩
        refine ⟨a, ?_, c, e⟩
        intro hc
        rw [Option.some.inj hc] at c
        exact c hd
    · intro i hi _ hd0
      rw [e1] at hi
      by_cases hiv : i = v
      · subst hiv; simp [State.nx, State.pv, e8 i]
      · rw [hdev] at hd0
        have := h4 i hi (fun hc => hiv (Option.some.inj hc)) hd0
        simpa only [State.nx, State.pv, e8 i, if_neg hiv] using this
  · have hhead : ∀ z, s.hash_table (_hashfn (s.bh (some v)).b_dev (s.bh (some v)).b_blocknr) = some z →
        z ∈ C (_hashfn (s.bh (some v)).b_dev (s.bh (some v)).b_blocknr) := by
      intro z hz
      have := HSeg_head (h1 (_hashfn (s.bh (some v)).b_dev (s.bh (some v)).b_blocknr))
      rw [hz] at this
      cases hC : C (_hashfn (s.bh (some v)).b_dev (s.bh (some v)).b_blocknr) with
      | nil => rw [hC] at this; simp at this
      | cons a l =>
        rw [hC] at this; simp at this
        rw [this]; exact List.mem_cons_self _ _
    obtain ⟨e1, e2, e3, e4, e5, e6, e7, e8⟩ := insert_hash_eff hv hd
      (fun z hz => ((h3 _ z).1 (hhead z hz)).1)
    generalize insert_hash s (some v) = t at e1 e2 e3 e4 e5 e6 e7 e8 ⊢
    generalize hH : _hashfn (s.bh (some v)).b_dev (s.bh (some v)).b_blocknr = hv0 at *
    have hnx : ∀ j, t.nx j = if j = v then s.hash_table hv0 else s.nx j := by
      intro j; simp only [State.nx, e8 j]
    have hpv : ∀ j, t.pv j = if s.hash_table hv0 = some j then some v
        else if j = v then none else s.pv j := by
      intro j; simp only [State.pv, e8 j]
    have hdev : ∀ j, (t.bh (some j)).b_dev = (s.bh (some j)).b_dev := fun j => by rw [e8 j]
    have hblk : ∀ j, (t.bh (some j)).b_blocknr = (s.bh (some j)).b_blocknr := fun j => by rw [e8 j]
    refine ⟨⟨?_, ?_, ?_, ?_⟩, ⟨e1, e4, e5, e6, fun j => by rw [e8 j]; rfl⟩, e3,
      by rw [e7]; simp [hd], fun j => by rw [e8 j]; exact ⟨rfl, rfl⟩⟩
    · intro h
      show HSeg t.nx t.pv none (t.hash_table h) _ none
      rw [e2]
      by_cases hh : h = hv0
      · subst hh
        simp only [if_true, ne_eq, hd, not_false_eq_true, and_self]
        exact HSeg_push (h1 h) (hvC h) (h2 h) hnx hpv
      · have hc2 : ¬ ((s.bh (some v)).b_dev ≠ 0 ∧ h = hv0) := fun hc => hh hc.2
        simp only [if_neg hh, if_neg hc2]
        refine HSeg_frame (h1 h) ?_ ?_
        · intro y hy
          have hyv : y ≠ v := fun hc => hvC h (hc ▸ hy)
          rw [hnx, if_neg hyv]
        · intro y hy
          have hyv : y ≠ v := fun hc => hvC h (hc ▸ hy)
          rw [hpv, if_neg, if_neg hyv]
          intro hc
          have a := ((h3 _ y).1 (hhead y hc)).2.2.2
          have b := ((h3 _ y).1 hy).2.2.2
          rw [a] at b
          exact hh b.symm
    · intro h
      by_cases hh : h = hv0
      · subst hh
        simp only [if_true, ne_eq, hd, not_false_eq_true, and_self]
        exact List.nodup_cons.2 ⟨hvC h, h2 h⟩
      · have hc2 : ¬ ((s.bh (some v)).b_dev ≠ 0 ∧ h = hv0) := fun hc => hh hc.2
        simp only [if_neg hh, if_neg hc2]
        exact h2 h
    · intro h x
      rw [e1, hdev, hblk]
      by_cases hh : h = hv0
      · subst hh
        simp only [if_true, ne_eq, hd, not_false_eq_true, and_self, List.mem_cons]
        rw [h3 h x]
        constructor
        · rintro (rfl | ⟨a, _, c, e⟩)
          · exact ⟨hv, hne x, hd, hH⟩
          · exact ⟨a, hne x, c, e⟩
        · rintro ⟨a, _, c, e⟩
          by_cases hxv : x = v
          · exact Or.inl hxv
          · exact Or.inr ⟨a, fun hc => hxv (Option.some.inj hc), c, e⟩
      · have hc2 : ¬ ((s.bh (some v)).b_dev ≠ 0 ∧ h = hv0) := fun hc => hh hc.2
        simp only [if_neg hh, if_neg hc2]
        rw [h3 h x]
        constructor
        · rintro ⟨a, _, c, e⟩; exact ⟨a, hne x, c, e⟩
        · rintro ⟨a, _, c, e⟩
          refine ⟨a, ?_, c, e⟩
          intro hc
          rw [Option.some.inj hc, hH] at e
          exact hh e.symm
    · intro i hi _ hd0
      rw [e1] at hi
      rw [hdev] at hd0
      have hiv : i ≠ v := fun hc => hd (hc ▸ hd0)
      have := h4 i hi (fun hc => hiv (Option.some.inj hc)) hd0
      rw [hnx, hpv, if_neg hiv, if_neg, if_neg hiv]
      · exact this
      · intro hc
        exact ((h3 _ i).1 (hhead i hc)).2.2.1 hd0

theorem remove_free_inv {s : State} {L : List Nat} {v : Nat} (h : FreeRing s L) (hv : v ∈ L) :
    ∃ t, remove_free s (some v) = Res.ok t () ∧ QStep s t ∧ t.hash_table = s.hash_table ∧
      t.stray = s.stray ∧
      (∀ j, (t.bh (some j)).b_next = (s.bh (some j)).b_next ∧
        (t.bh (some j)).b_prev = (s.bh (some j)).b_prev) ∧
      (2 ≤ L.length → FreeRing t (L.erase v)) ∧ (L.length < 2 → FreeRing t L) := by
  obtain ⟨h1, h2, h3, h4⟩ := h
  obtain ⟨p, q, hp, hq, hpL, hqL⟩ := Ring_links h4 hv
  obtain ⟨t, e0, e1, e2, e3, e4, e5, e6, e7, e8⟩ := remove_free_eff hp hq (h2 p hpL) (h2 q hqL)
  refine ⟨t, e0, ⟨e1, e4, e5, e6, fun j => by rw [e8 j]; rfl⟩, e2, e7,
    fun j => by rw [e8 j]; exact ⟨rfl, rfl⟩, ?_, ?_⟩
  · intro hlen
    have hnf : ∀ j, t.nf j = if s.pf v = some j then s.nf v else s.nf j := by
      intro j
      simp only [State.pf, State.nf] at hp hq ⊢
      rw [e8 j]
      simp only [State.pf, State.nf, hp, hq]
      by_cases hjp : j = p
      · subst hjp; simp
      · have : ¬ some p = some j := fun hc => hjp (Option.some.inj hc).symm
        simp [hjp, this]
    have hpf : ∀ j, t.pf j = if s.nf v = some j then s.pf v else s.pf j := by
      intro j
      simp only [State.pf, State.nf] at hp hq ⊢
      rw [e8 j]
      simp only [State.pf, State.nf, hp, hq]
      by_cases hjq : j = q
      · subst hjq; simp
      · have : ¬ some q = some j := fun hc => hjq (Option.some.inj hc).symm
        simp [hjq, this]
    obtain ⟨r1, r2⟩ := Ring_remove h4 h1 hv hlen hnf hpf
    refine ⟨h1.erase v, ?_, ?_, r1⟩
    · intro i hi
      rw [e1]; exact h2 i (List.mem_of_mem_erase hi)
    · rw [e3, r2, h3, hq]
  · intro hlen
    have hL : L = [v] := by
      cases L with
      | nil => exact absurd hv (by simp)
      | cons a l =>
        cases l with
        | nil => simp at hv; rw [hv]
        | cons b l2 => simp at hlen; omega
    subst hL
    have hr : RLink s.nf s.pf v v := h4
    have hpv : p = v := by
      have := hr.2; rw [hp] at this; exact Option.some.inj this
    have hqv : q = v := by
      have := hr.1; rw [hq] at this; exact Option.some.inj this
    subst hpv; subst hqv
    refine FreeRing_congr ⟨h1, h2, h3, h4⟩ e1 ?_ ?_
    · rw [e3]; split <;> simp_all
    · intro j
      rw [e8 j]
      by_cases hjp : j = q
      · subst hjp; exact ⟨by simpa [State.nf] using hq.symm, by simpa [State.pf] using hp.symm⟩
      · simp [hjp, State.nf, State.pf]

theorem insert_free_inv {s : State} {f v : Nat} {T : List Nat} (h : FreeRing s (f :: T))
    (hv : v < s.bufs.length) (hvL : v ∉ f :: T) :
    FreeRing (insert_free s (some v)) (f :: T ++ [v]) ∧ QStep s (insert_free s (some v)) ∧
      (insert_free s (some v)).hash_table = s.hash_table ∧
      (insert_free s (some v)).stray = s.stray ∧
      (∀ j, ((insert_free s (some v)).bh (some j)).b_next = (s.bh (some j)).b_next ∧
        ((insert_free s (some v)).bh (some j)).b_prev = (s.bh (some j)).b_prev) := by
  obtain ⟨h1, h2, h3, h4⟩ := h
  obtain ⟨t, _, ht, _, htL, _⟩ := Ring_links h4 (List.mem_cons_self f T)
  have hf : s.free_list = some f := by rw [h3]; rfl
  obtain ⟨e1, e2, e3, e4, e5, e6, e7, e8⟩ :=
    insert_free_eff hv hf (h2 f (List.mem_cons_self _ _)) ht (h2 t htL)
  generalize insert_free s (some v) = u at e1 e2 e3 e4 e5 e6 e7 e8 ⊢
  refine ⟨⟨?_, ?_, ?_, ?_⟩, ⟨e1, e4, e5, e6, fun j => by rw [e8 j]; rfl⟩, e2, e7,
    fun j => by rw [e8 j]; exact ⟨rfl, rfl⟩⟩
  · rw [List.nodup_append]
    refine ⟨h1, by simp, ?_⟩
    intro a ha hb
    rw [List.mem_singleton] at hb
    exact hvL (hb ▸ ha)
  · intro i hi
    rw [e1]
    rcases List.mem_append.1 hi with hi | hi
    · exact h2 i hi
    · rw [List.mem_singleton] at hi; rw [hi]; exact hv
  · rw [e3, hf]; rfl
  · refine Ring_insert h4 h1 hvL ht ?_ ?_
    · intro j; simp only [State.nf, e8 j]
    · intro j; simp only [State.pf, e8 j]

theorem insert_free_inv_one {s : State} {v : Nat} (h : FreeRing s [v]) :
    FreeRing (insert_free s (some v)) [v] ∧ QStep s (insert_free s (some v)) ∧
      (insert_free s (some v)).hash_table = s.hash_table ∧
      (insert_free s (some v)).stray = s.stray ∧
      (∀ j, ((insert_free s (some v)).bh (some j)).b_next = (s.bh (some j)).b_next ∧
        ((insert_free s (some v)).bh (some j)).b_prev = (s.bh (some j)).b_prev) := by
  obtain ⟨h1, h2, h3, h4⟩ := h
  have hr : RLink s.nf s.pf v v := h4
  have hv := h2 v (List.mem_cons_self _ _)
  have hf : s.free_list = some v := by rw [h3]; rfl
  obtain ⟨e1, e2, e3, e4, e5, e6, e7, e8⟩ := insert_free_eff hv hf hv hr.2 hv
  generalize insert_free s (some v) = u at e1 e2 e3 e4 e5 e6 e7 e8 ⊢
  refine ⟨FreeRing_congr ⟨h1, h2, h3, h4⟩ e1 e3 ?_, ⟨e1, e4, e5, e6, fun j => by rw [e8 j]; rfl⟩,
    e2, e7, fun j => by rw [e8 j]; exact ⟨rfl, rfl⟩⟩
  intro j
  rw [e8 j]
  by_cases hjv : j = v
  · subst hjv
    exact ⟨by simpa [State.nf] using hr.1.symm, by simpa [State.pf] using hr.2.symm⟩
  · simp [hjv, State.nf, State.pf]

theorem FreeRing_valid {s : State} {L : List Nat} (h : FreeRing s L) : L ≠ [] := by
  intro hc
  obtain ⟨_, _, _, h4⟩ := h
  rw [hc] at h4
  exact h4

theorem HashOrderX_head {s : State} {C : Nat → List Nat} {d : Option Nat}
    (h : HashOrderX s C d) (k : Nat) : s.hash_table k = (C k).head? := by
  have := HSeg_head (h.1 k)
  cases hC : C k with
  | nil => rw [hC] at this; simpa using this
  | cons a l => rw [hC] at this; simpa using this

theorem getblk_commit_spec {s : State} {L : List Nat} {C : Nat → List Nat} {v : Nat}
    (dev block : Int) (hF : FreeOrder s L) (hH : HashOrder s C) (hv : v < s.bufs.length) :
    ∃ t, getblk_commit s (some v) dev block = Res.ok t (some v) ∧
      FreeOrder t (L.erase v ++ [v]) ∧
      HashOrder t (fun h =>
        if dev ≠ 0 ∧ h = _hashfn dev block then v :: (C h).erase v else (C h).erase v) ∧
      t.bufs.length = s.bufs.length ∧ t.buffer_wait = s.buffer_wait ∧ t.io_log = s.io_log ∧
      t.disk = s.disk ∧
      (∀ j, j ≠ v → (t.bh (some j)).core = (s.bh (some j)).core) ∧
      (t.bh (some v)).core =
        ((s.bh (some v)).b_data, block, dev, false, false, 1, (s.bh (some v)).b_lock) ∧
      t.stray = (if dev ≠ 0 ∧ (C (_hashfn dev block)).erase v = [] then s.stray + 1
        else s.stray) := by
  rw [FreeOrder_iff] at hF
  obtain ⟨hFR, hFall⟩ := hF
  have hvL : v ∈ L := hFall v hv
  -- the three flags
  obtain ⟨s3, hs3, a1, a2, a3, a4, a5, a6, a7, a8⟩ : ∃ s3 : State,
      ((s.store (some v) (fun b => { b with b_count := 1 })).store (some v)
        (fun b => { b with b_dirt := false })).store (some v)
        (fun b => { b with b_uptodate := false }) = s3 ∧
      s3.bufs.length = s.bufs.length ∧ s3.hash_table = s.hash_table ∧
      s3.free_list = s.free_list ∧ s3.buffer_wait = s.buffer_wait ∧ s3.io_log = s.io_log ∧
      s3.disk = s.disk ∧ s3.stray = s.stray ∧
      ∀ j, s3.bh (some j) = if j = v then
        { s.bh (some j) with b_count := 1, b_dirt := false, b_uptodate := false }
        else s.bh (some j) := by
    have hv1 : v < (s.upd v (fun b => { b with b_count := 1 })).bufs.length := by
      rw [upd_length]; exact hv
    have hv2 : v < ((s.upd v (fun b => { b with b_count := 1 })).upd v
        (fun b => { b with b_dirt := false })).bufs.length := by
      rw [upd_length]; exact hv1
    rw [store_some _ hv, store_some _ hv1, store_some _ hv2]
    refine ⟨_, rfl, by simp only [upd_length], rfl, rfl, rfl, rfl, rfl, rfl, ?_⟩
    intro j
    simp only [bh_upd, upd_length]
    by_cases hjv : j = v
    · subst hjv; simp [hv]
    · simp [hjv]
  have hFR3 : FreeRing s3 L := FreeRing_congr hFR a1 a3 (fun j => by
    rw [a8 j]; split <;> exact ⟨rfl, rfl⟩)
  have hH3 : HashOrder s3 C := HashOrderX_congr hH a1 a2 (fun j => by
    rw [a8 j]; split <;> exact ⟨rfl, rfl⟩) (fun j _ => by
    rw [a8 j]; split <;> exact ⟨rfl, rfl⟩)
  have hv3 : v < s3.bufs.length := by rw [a1]; exact hv
  -- remove_from_queues
  obtain ⟨b1, b2, b3, b4, b5⟩ := remove_hash_inv hH3 hv3
  have hFRh : FreeRing (remove_hash s3 (some v)) L := FreeRing_congr hFR3 b2.1 b3 b5
  obtain ⟨s4, c0, c1, c2, c3, c4, c5, c6⟩ := remove_free_inv hFRh hvL
  have hH4 : HashOrderX s4 (fun h => (C h).erase v) (some v) :=
    HashOrderX_congr b1 c1.1 c2 c4 (fun j _ => by
      have := c1.2.2.2.2 j
      simp only [buffer_head.core, Prod.mk.injEq] at this
      exact ⟨this.2.2.1, this.2.1⟩)
  have hq34 : QStep s3 s4 := QStep_trans b2 c1
  have hv4 : v < s4.bufs.length := by rw [hq34.1]; exact hv3
  -- the new identity
  obtain ⟨s6, hs6, d1, d2, d3, d4, d5, d6, d7, d8⟩ : ∃ s6 : State,
      (s4.store (some v) (fun b => { b with b_dev := dev })).store (some v)
        (fun b => { b with b_blocknr := block }) = s6 ∧
      s6.bufs.length = s4.bufs.length ∧ s6.hash_table = s4.hash_table ∧
      s6.free_list = s4.free_list ∧ s6.buffer_wait = s4.buffer_wait ∧ s6.io_log = s4.io_log ∧
      s6.disk = s4.disk ∧ s6.stray = s4.stray ∧
      ∀ j, s6.bh (some j) = if j = v then
        { s4.bh (some j) with b_dev := dev, b_blocknr := block }
        else s4.bh (some j) := by
    have hv1 : v < (s4.upd v (fun b => { b with b_dev := dev })).bufs.length := by
      rw [upd_length]; exact hv4
    rw [store_some _ hv4, store_some _ hv1]
    refine ⟨_, rfl, by simp only [upd_length], rfl, rfl, rfl, rfl, rfl, rfl, ?_⟩
    intro j
    simp only [bh_upd, upd_length]
    by_cases hjv : j = v
    · subst hjv; simp [hv4]
    · simp [hjv]
  have hv6 : v < s6.bufs.length := by rw [d1]; exact hv4
  have hH6 : HashOrderX s6 (fun h => (C h).erase v) (some v) :=
    HashOrderX_congr hH4 d1 d2 (fun j => by
      rw [d8 j]; split <;> exact ⟨rfl, rfl⟩) (fun j hj => by
      have hjv : j ≠ v := fun hc => hj (by rw [hc])
      rw [d8 j, if_neg hjv]; exact ⟨rfl, rfl⟩)
  have hlinks6 : ∀ j, (s6.bh (some j)).b_next_free = (s4.bh (some j)).b_next_free ∧
      (s6.bh (some j)).b_prev_free = (s4.bh (some j)).b_prev_free := fun j => by
    rw [d8 j]; split <;> exact ⟨rfl, rfl⟩
  have key : getblk_commit s (some v) dev block = Res.ok (insert_hash (insert_free s6 (some v)) (some v))
      (some v) := by
    unfold getblk_commit remove_from_queues insert_into_queues
    simp only [hs3, c0, hs6]
  refine ⟨_, key, ?_⟩
  -- insert_into_queues
  have hins : ∃ u, insert_free s6 (some v) = u ∧ FreeRing u (L.erase v ++ [v]) ∧ QStep s6 u ∧
      u.hash_table = s6.hash_table ∧ u.stray = s6.stray ∧
      (∀ j, (u.bh (some j)).b_next = (s6.bh (some j)).b_next ∧
        (u.bh (some j)).b_prev = (s6.bh (some j)).b_prev) := by
    by_cases hlen : 2 ≤ L.length
    · have hr := FreeRing_congr (c5 hlen) d1 d3 hlinks6
      have hne := FreeRing_valid hr
      obtain ⟨f, T, hfT⟩ := List.exists_cons_of_ne_nil hne
      rw [hfT] at hr
      have hvn : v ∉ f :: T := by rw [← hfT]; exact hFR.1.not_mem_erase
      obtain ⟨r1, r2, r3, r4, r5⟩ := insert_free_inv hr hv6 hvn
      exact ⟨_, rfl, by rw [hfT]; exact r1, r2, r3, r4, r5⟩
    · have hlen2 : L.length < 2 := Nat.lt_of_not_le hlen
      have hL : L = [v] := by
        cases L with
        | nil => exact absurd hvL (by simp)
        | cons a l =>
          cases l with
          | nil => simp at hvL; rw [hvL]
          | cons b l2 => simp at hlen2; omega
      have hr := FreeRing_congr (c6 hlen2) d1 d3 hlinks6
      rw [hL] at hr
      obtain ⟨r1, r2, r3, r4, r5⟩ := insert_free_inv_one hr
      exact ⟨_, rfl, by rw [hL]; simpa using r1, r2, r3, r4, r5⟩
  obtain ⟨u, hu, g1, g2, g3, g4, g5⟩ := hins
  rw [hu]
  have hvu : v < u.bufs.length := by rw [g2.1]; exact hv6
  have hcore6u : ∀ j, (u.bh (some j)).core = (s6.bh (some j)).core := g2.2.2.2.2
  have hdevu : (u.bh (some v)).b_dev = dev ∧ (u.bh (some v)).b_blocknr = block := by
    have := hcore6u v
    simp only [buffer_head.core, Prod.mk.injEq] at this
    rw [this.2.2.1, this.2.1, d8 v]
    simp
  have hHu : HashOrderX u (fun h => (C h).erase v) (some v) :=
    HashOrderX_congr hH6 g2.1 g3 g5 (fun j _ => by
      have := hcore6u j
      simp only [buffer_head.core, Prod.mk.injEq] at this
      exact ⟨this.2.2.1, this.2.1⟩)
  obtain ⟨k1, k2, k3, k4, k5⟩ := insert_hash_inv hHu hvu
  rw [hdevu.1, hdevu.2] at k1 k4
  generalize insert_hash u (some v) = t at k1 k2 k3 k4 k5 ⊢
  have hq6t : QStep s6 t := QStep_trans g2 k2
  have hlen_t : t.bufs.length = s.bufs.length := by
    rw [hq6t.1, d1, hq34.1, a1]
  refine ⟨?_, k1, hlen_t, ?_, ?_, ?_, ?_, ?_, ?_⟩
  · rw [FreeOrder_iff]
    refine ⟨FreeRing_congr g1 k2.1 k3 k5, ?_⟩
    intro i hi
    rw [hlen_t] at hi
    by_cases hiv : i = v
    · simp [hiv]
    · exact List.mem_append_left _ ((hFR.1.mem_erase_iff).2 ⟨hiv, hFall i hi⟩)
  · rw [hq6t.2.1, d4, hq34.2.1, a4]
  · rw [hq6t.2.2.1, d5, hq34.2.2.1, a5]
  · rw [hq6t.2.2.2.1, d6, hq34.2.2.2.1, a6]
  · intro j hjv
    rw [hq6t.2.2.2.2 j, d8 j, if_neg hjv, hq34.2.2.2.2 j, a8 j, if_neg hjv]
  · rw [hq6t.2.2.2.2 v, d8 v, if_pos rfl]
    have := hq34.2.2.2.2 v
    rw [a8 v, if_pos rfl] at this
    simp only [buffer_head.core, Prod.mk.injEq] at this ⊢
    obtain ⟨t1, t2, t3, t4, t5, t6, t7⟩ := this
    exact ⟨t1, trivial, trivial, t4, t5, t6, t7⟩
  · rw [k4, g4, d7, c3, b4, a7, HashOrderX_head hHu]
    by_cases hd : dev ≠ 0
    · cases hE : (C (_hashfn dev block)).erase v with
      | nil => simp [hd, hE]
      | cons a l => simp [hd, hE]
    · simp [hd]

theorem nodup_length_le {l : List Nat} {n : Nat} (hnd : l.Nodup) (h : ∀ x ∈ l, x < n) :
    l.length ≤ n := by
  have hsub : l ⊆ List.range n := fun x hx => List.mem_range.2 (h x hx)
  have := (List.subperm_of_subset hnd hsub).length_le
  simpa using this

theorem nodup_length_eq {l : List Nat} {n : Nat} (hnd : l.Nodup) (h : ∀ x, x ∈ l ↔ x < n) :
    l.length = n := by
  have hp : l.Perm (List.range n) :=
    (List.perm_ext_iff_of_nodup hnd (List.nodup_range n)).2 (fun a => by
      rw [h a, List.mem_range])
  simpa using hp.length_eq

theorem find_loop_spec {s : State} {dev block : Int} {l : List Nat} {prev cur : Ptr} {k : Nat}
    (h : HSeg s.nx s.pv prev cur l none) (hk : l.length < k) :
    find_loop s dev block k cur = some (l.find? (s.bound dev block)) := by
  induction l generalizing prev cur k with
  | nil =>
    have hc : cur = none := h
    subst hc
    cases k with
    | zero => exact absurd hk (by simp)
    | succ k => rfl
  | cons x t ih =>
    obtain ⟨hc, _, ht⟩ : cur = some x ∧ s.pv x = prev ∧ HSeg s.nx s.pv (some x) (s.nx x) t none := h
    subst hc
    cases k with
    | zero => exact absurd hk (by simp)
    | succ k =>
      have hk2 : t.length < k := by simpa using hk
      simp only [find_loop, List.find?_cons, State.bound]
      by_cases hm : (s.bh (some x)).b_dev = dev ∧ (s.bh (some x)).b_blocknr = block
      · simp [hm]
      · rw [if_neg hm]
        have := ih ht hk2
        simp only [State.nx] at this
        rw [this]
        simp [hm, State.bound]

theorem find_buffer_spec {s : State} {C : Nat → List Nat} {d : Option Nat}
    (h : HashOrderX s C d) (dev block : Int) {k : Nat} (hk : s.bufs.length < k) :
    find_buffer k s dev block = some ((C (_hashfn dev block)).find? (s.bound dev block)) := by
  unfold find_buffer State.hash
  refine find_loop_spec (h.1 _) ?_
  exact Nat.lt_of_le_of_lt (nodup_length_le (h.2.1 _) (fun x hx => ((h.2.2.1 _ x).1 hx).1)) hk

theorem find_buffer_some {s : State} {C : Nat → List Nat} (h : HashOrder s C) {dev block : Int}
    {k i : Nat} (hk : s.bufs.length < k) (hf : find_buffer k s dev block = some (some i)) :
    i < s.bufs.length ∧ (s.bh (some i)).b_dev = dev ∧ (s.bh (some i)).b_blocknr = block ∧
      dev ≠ 0 := by
  rw [find_buffer_spec h dev block hk] at hf
  have hf2 : (C (_hashfn dev block)).find? (s.bound dev block) = some i := Option.some.inj hf
  have hm := List.mem_of_find?_eq_some hf2
  have hb := List.find?_some hf2
  simp only [State.bound, decide_eq_true_eq] at hb
  have := (h.2.2.1 _ i).1 hm
  exact ⟨this.1, hb.1, hb.2, hb.1 ▸ this.2.2.1⟩

theorem find_buffer_none {s : State} {C : Nat → List Nat} (h : HashOrder s C) {dev block : Int}
    {k : Nat} (hk : s.bufs.length < k) :
    find_buffer k s dev block = some none ↔
      (dev = 0 ∨ ∀ i, i < s.bufs.length →
        ¬ ((s.bh (some i)).b_dev = dev ∧ (s.bh (some i)).b_blocknr = block)) := by
  rw [find_buffer_spec h dev block hk]
  constructor
  · intro hf
    have hf2 : (C (_hashfn dev block)).find? (s.bound dev block) = none := Option.some.inj hf
    by_cases hd : dev = 0
    · exact Or.inl hd
    · right
      intro i hi hb
      have hm : i ∈ C (_hashfn dev block) :=
        (h.2.2.1 _ i).2 ⟨hi, by simp, hb.1 ▸ hd, by rw [hb.1, hb.2]⟩
      have := List.find?_eq_none.1 hf2 i hm
      simp [State.bound, hb] at this
  · intro hf
    congr 1
    rw [List.find?_eq_none]
    intro x hx
    have hx2 := (h.2.2.1 _ x).1 hx
    simp only [State.bound, decide_eq_true_eq]
    rcases hf with hd | hall
    · intro hb; exact hx2.2.2.1 (hb.1.trans hd)
    · exact hall x hx2.1

theorem find_buffer_hit {s : State} {C : Nat → List Nat} (h : HashOrder s C) (hu : Unique s)
    {dev block : Int} {k i : Nat} (hk : s.bufs.length < k) (hi : i < s.bufs.length)
    (hd : dev ≠ 0) (hb : (s.bh (some i)).b_dev = dev ∧ (s.bh (some i)).b_blocknr = block) :
    find_buffer k s dev block = some (some i) := by
  cases hf : find_buffer k s dev block with
  | none =>
    rw [find_buffer_spec h dev block hk] at hf
    exact absurd hf (by simp)
  | some r =>
    cases r with
    | none =>
      rcases (find_buffer_none h hk).1 hf with h0 | hall
      · exact absurd h0 hd
      · exact absurd hb (hall i hi)
    | some j =>
      obtain ⟨hj, hjd, hjb, _⟩ := find_buffer_some h hk hf
      have : i = j := hu i j hi hj (hb.1 ▸ hd) (hb.1.trans hjd.symm) (hb.2.trans hjb.symm)
      rw [this]

theorem scan_spec {s : State} {f : Nat} (hfl : s.free_list = some f) {l : List Nat} {a : Nat}
    {k : Nat} (bh : Ptr) (h : RPath s.nf s.pf a l f) (hf : f ∉ l) (hk : l.length < k) :
    scan s k (some a) bh = some (pick s (a :: l) bh) := by
  induction l generalizing a k bh with
  | nil =>
    have hn : (s.bh (some a)).b_next_free = s.free_list := by
      rw [hfl]; exact h.1
    cases k with
    | zero => exact absurd hk (by simp)
    | succ k =>
      simp only [scan, pick, hn, ne_eq, not_true_eq_false, if_false]
      by_cases hc : (s.bh (some a)).b_count = 0
      · simp only [hc, not_true_eq_false, if_false]
        by_cases hb : bh = none ∨ BADNESS (s.bh (some a)) < BADNESS (s.bh bh)
        · simp only [hb, if_true]; split <;> rfl
        · simp only [hb, if_false]
      · simp only [hc, not_false_eq_true, if_true]
  | cons c t ih =>
    obtain ⟨hac, ht⟩ : RLink s.nf s.pf a c ∧ RPath s.nf s.pf c t f := h
    have hcf : c ≠ f := fun hc => hf (by simp [hc])
    have hft : f ∉ t := fun hc => hf (List.mem_cons_of_mem _ hc)
    have hn : (s.bh (some a)).b_next_free = some c := hac.1
    have hne : ¬ (some c = s.free_list) := by
      rw [hfl]; intro hc; exact hcf (Option.some.inj hc)
    cases k with
    | zero => exact absurd hk (by simp)
    | succ k =>
      have hk2 : t.length < k := by simpa using hk
      have ih1 := fun bh => ih (a := c) (k := k) bh ht hft hk2
      rw [scan]
      rw [show pick s (a :: c :: t) bh =
        (if (s.bh (some a)).b_count ≠ 0 then pick s (c :: t) bh
        else if bh = none ∨ BADNESS (s.bh (some a)) < BADNESS (s.bh bh) then
          if BADNESS (s.bh (some a)) = 0 then some a else pick s (c :: t) (some a)
        else pick s (c :: t) bh) from rfl]
      simp only [hn, ne_eq, hne, not_false_eq_true, if_true, ih1]
      by_cases hc : (s.bh (some a)).b_count = 0
      · simp only [hc, not_true_eq_false, if_false]
        by_cases hb : bh = none ∨ BADNESS (s.bh (some a)) < BADNESS (s.bh bh)
        · simp only [hb, if_true]; split <;> rfl
        · simp only [hb, if_false]
      · simp only [hc, not_false_eq_true, if_true]

theorem pick_some {s : State} {l : List Nat} {bh : Ptr} {v : Nat} (h : pick s l bh = some v) :
    bh = some v ∨ (v ∈ l ∧ (s.bh (some v)).b_count = 0) := by
  induction l generalizing bh with
  | nil => exact Or.inl h
  | cons x t ih =>
    simp only [pick] at h
    by_cases hc : (s.bh (some x)).b_count = 0
    · simp only [hc, ne_eq, not_true_eq_false, if_false] at h
      by_cases hb : bh = none ∨ BADNESS (s.bh (some x)) < BADNESS (s.bh bh)
      · simp only [hb, if_true] at h
        by_cases h0 : BADNESS (s.bh (some x)) = 0
        · simp only [h0, if_true] at h
          have : x = v := Option.some.inj h
          subst this
          exact Or.inr ⟨List.mem_cons_self _ _, hc⟩
        · simp only [h0, if_false] at h
          rcases ih h with h1 | h1
          · have : x = v := Option.some.inj h1
            subst this
            exact Or.inr ⟨List.mem_cons_self _ _, hc⟩
          · exact Or.inr ⟨List.mem_cons_of_mem _ h1.1, h1.2⟩
      · simp only [hb, if_false] at h
        rcases ih h with h1 | h1
        · exact Or.inl h1
        · exact Or.inr ⟨List.mem_cons_of_mem _ h1.1, h1.2⟩
    · simp only [hc, ne_eq, not_false_eq_true, if_true] at h
      rcases ih h with h1 | h1
      · exact Or.inl h1
      · exact Or.inr ⟨List.mem_cons_of_mem _ h1.1, h1.2⟩

theorem pick_isSome {s : State} {l : List Nat} {bh : Ptr} (h : bh ≠ none) :
    pick s l bh ≠ none := by
  induction l generalizing bh with
  | nil => exact h
  | cons x t ih =>
    simp only [pick]
    split
    · exact ih h
    · split
      · split
        · simp
        · exact ih (by simp)
      · exact ih h

theorem pick_none {s : State} {l : List Nat} :
    pick s l none = none ↔ ∀ x ∈ l, (s.bh (some x)).b_count ≠ 0 := by
  induction l with
  | nil => simp [pick]
  | cons x t ih =>
    simp only [pick, true_or, if_true, List.mem_cons, forall_eq_or_imp]
    by_cases hc : (s.bh (some x)).b_count = 0
    · simp only [hc, ne_eq, not_true_eq_false, if_false, false_and, iff_false]
      split
      · simp
      · exact pick_isSome (by simp)
    · simp only [hc, ne_eq, not_false_eq_true, if_true, true_and]
      exact ih

theorem scan_free {s : State} {L : List Nat} (h : FreeOrder s L) {k : Nat}
    (hk : s.bufs.length < k) : scan s k s.free_list none = some (pick s L none) := by
  obtain ⟨h1, h2, h3, h4⟩ := h
  cases L with
  | nil => exact absurd h4 (by simp [Ring])
  | cons f T =>
    have hfl : s.free_list = some f := by rw [h3]; rfl
    rw [hfl]
    have hlen := nodup_length_eq h1 h2
    refine scan_spec hfl none h4 (List.nodup_cons.1 h1).1 ?_
    simp at hlen; omega

theorem FlagStep.refl (s : State) : FlagStep s s :=
  ⟨rfl, rfl, rfl, rfl, fun _ => ⟨rfl, rfl, rfl, rfl, rfl, rfl⟩⟩

theorem FlagStep_trans {s t u : State} (h1 : FlagStep s t) (h2 : FlagStep t u) : FlagStep s u := by
  obtain ⟨a1, a2, a3, a4, a5⟩ := h1
  obtain ⟨b1, b2, b3, b4, b5⟩ := h2
  refine ⟨b1.trans a1, b2.trans a2, b3.trans a3, b4.trans a4, fun j => ?_⟩
  obtain ⟨c1, c2, c3, c4, c5, c6⟩ := a5 j
  obtain ⟨d1, d2, d3, d4, d5, d6⟩ := b5 j
  exact ⟨d1.trans c1, d2.trans c2, d3.trans c3, d4.trans c4, d5.trans c5, d6.trans c6⟩

theorem FlagStep_upd (s : State) (i : Nat) (f : buffer_head → buffer_head)
    (hf : ∀ b, (f b).b_dev = b.b_dev ∧ (f b).b_blocknr = b.b_blocknr ∧ (f b).b_prev = b.b_prev ∧
      (f b).b_next = b.b_next ∧ (f b).b_prev_free = b.b_prev_free ∧
      (f b).b_next_free = b.b_next_free) : FlagStep s (s.upd i f) := by
  refine ⟨upd_length _ _ _, rfl, rfl, rfl, fun j => ?_⟩
  rw [bh_upd]
  split
  · next h => rw [h.1]; exact hf _
  · exact ⟨rfl, rfl, rfl, rfl, rfl, rfl⟩

theorem FlagStep.freeOrder {s t : State} (h : FlagStep s t) {L : List Nat} (hF : FreeOrder s L) :
    FreeOrder t L := by
  rw [FreeOrder_iff] at hF ⊢
  refine ⟨FreeRing_congr hF.1 h.1 h.2.2.1 (fun j => ⟨(h.2.2.2.2 j).2.2.2.2.2,
    (h.2.2.2.2 j).2.2.2.2.1⟩), ?_⟩
  intro i hi
  exact hF.2 i (h.1 ▸ hi)

theorem FlagStep.hashOrder {s t : State} (h : FlagStep s t) {C : Nat → List Nat}
    {d : Option Nat} (hH : HashOrderX s C d) : HashOrderX t C d :=
  HashOrderX_congr hH h.1 h.2.1 (fun j => ⟨(h.2.2.2.2 j).2.2.2.1, (h.2.2.2.2 j).2.2.1⟩)
    (fun j _ => ⟨(h.2.2.2.2 j).1, (h.2.2.2.2 j).2.1⟩)

theorem FlagStep.wf {s t : State} (h : FlagStep s t) (hW : WF s) : WF t := by
  obtain ⟨L, C, hF, hH⟩ := hW
  exact ⟨L, C, h.freeOrder hF, h.hashOrder hH⟩

theorem FlagStep.unique {s t : State} (h : FlagStep s t) (hU : Unique s) : Unique t := by
  intro i j hi hj hd he hb
  rw [h.1] at hi hj
  rw [(h.2.2.2.2 i).1] at hd he
  rw [(h.2.2.2.2 j).1] at he
  rw [(h.2.2.2.2 i).2.1, (h.2.2.2.2 j).2.1] at hb
  exact hU i j hi hj hd he hb

theorem find_loop_congr {s t : State} (h : FlagStep s t) (dev block : Int) (k : Nat) (cur : Ptr) :
    find_loop t dev block k cur = find_loop s dev block k cur := by
  induction k generalizing cur with
  | zero => rfl
  | succ k ih =>
    cases cur with
    | none => rfl
    | some i =>
      simp only [find_loop]
      rw [(h.2.2.2.2 i).1, (h.2.2.2.2 i).2.1, (h.2.2.2.2 i).2.2.2.1, ih]

theorem find_buffer_congr {s t : State} (h : FlagStep s t) (dev block : Int) (k : Nat) :
    find_buffer k t dev block = find_buffer k s dev block := by
  unfold find_buffer State.hash
  rw [h.2.1]
  exact find_loop_congr h dev block k _

theorem foldl_inv {α β : Type} (P : α → Prop) (body : α → β → α) (l : List β) (a : α)
    (h0 : P a) (hstep : ∀ t i, i ∈ l → P t → P (body t i)) : P (l.foldl body a) := by
  induction l generalizing a with
  | nil => exact h0
  | cons x xs ih =>
    simp only [List.foldl_cons]
    exact ih (body a x) (hstep a x (List.mem_cons_self _ _) h0)
      (fun t i hi hp => hstep t i (List.mem_cons_of_mem _ hi) hp)

theorem upd_upd (s : State) (i : Nat) (f g : buffer_head → buffer_head) :
    (s.upd i f).upd i g = s.upd i (fun b => g (f b)) := by
  by_cases hi : i < s.bufs.length
  · have h1 : (s.upd i f).bufs.getD i buffer_head.zero = f (s.bufs.getD i buffer_head.zero) := by
      have := bh_upd_same s f hi
      simpa [State.bh] using this
    simp only [State.upd] at h1 ⊢
    rw [List.set_set, h1]
  · have hle : s.bufs.length ≤ i := Nat.le_of_not_lt hi
    simp only [State.upd, List.set_eq_of_length_le hle]

theorem State.ext_bh {s t : State} (hlen : t.bufs.length = s.bufs.length)
    (hbh : ∀ j, j < s.bufs.length → t.bh (some j) = s.bh (some j))
    (h1 : t.hash_table = s.hash_table) (h2 : t.free_list = s.free_list)
    (h3 : t.buffer_wait = s.buffer_wait) (h4 : t.io_log = s.io_log) (h5 : t.disk = s.disk)
    (h6 : t.stray = s.stray) : t = s := by
  have hb : t.bufs = s.bufs := by
    apply List.ext_getElem hlen
    intro j hj1 hj2
    have := hbh j hj2
    simp only [State.bh, List.getD_eq_getElem?_getD, List.getElem?_eq_getElem hj1,
      List.getElem?_eq_getElem hj2, Option.getD_some] at this
    exact this
  cases s; cases t
  simp only at hb h1 h2 h3 h4 h5 h6
  subst hb h1 h2 h3 h4 h5 h6
  rfl

theorem invalidate_body (t : State) (dev : Int) (i : Nat) (hi : i < t.bufs.length) :
    (if (t.bh (some i)).b_dev ≠ dev then t
      else
        let t1 := wait_on_buffer t (some i)
        if (t1.bh (some i)).b_dev = dev then
          t1.store (some i) (fun b => { b with b_uptodate := false, b_dirt := false })
        else t1) = t.upd i (inval_slot dev) := by
  by_cases hd : (t.bh (some i)).b_dev = dev
  · have h1 : ((t.upd i (fun b => { b with b_lock := false })).bh (some i)).b_dev = dev := by
      rw [bh_upd_same _ _ hi]; exact hd
    have hi1 : i < (t.upd i (fun b => { b with b_lock := false })).bufs.length := by
      rw [upd_length]; exact hi
    simp only [hd, ne_eq, not_true_eq_false, if_false, wait_eq_upd, h1, if_true,
      store_some _ hi1, upd_upd]
    simp only [State.upd]
    congr 2
    simp only [inval_slot]
    have : (t.bufs.getD i buffer_head.zero).b_dev = dev := hd
    rw [if_pos this]
  · simp only [ne_eq, hd, not_false_eq_true, if_true]
    symm
    apply upd_self
    simp [inval_slot, hd]

theorem invalidate_fold (s : State) (dev : Int) (m : Nat) (hm : m ≤ s.bufs.length) :
    ∃ t, (List.range m).foldl (fun t i =>
      if (t.bh (some i)).b_dev ≠ dev then t
      else
        let t1 := wait_on_buffer t (some i)
        if (t1.bh (some i)).b_dev = dev then
          t1.store (some i) (fun b => { b with b_uptodate := false, b_dirt := false })
        else t1) s = t ∧
      t.bufs.length = s.bufs.length ∧ t.hash_table = s.hash_table ∧
      t.free_list = s.free_list ∧ t.buffer_wait = s.buffer_wait ∧ t.io_log = s.io_log ∧
      t.disk = s.disk ∧ t.stray = s.stray ∧
      ∀ j, t.bh (some j) = if j < m then inval_slot dev (s.bh (some j)) else s.bh (some j) := by
  induction m with
  | zero => exact ⟨s, rfl, rfl, rfl, rfl, rfl, rfl, rfl, rfl, fun j => by simp⟩
  | succ m ih =>
    obtain ⟨t, ht, a1, a2, a3, a4, a5, a6, a7, a8⟩ := ih (Nat.le_of_succ_le hm)
    have hmt : m < t.bufs.length := by rw [a1]; exact hm
    refine ⟨t.upd m (inval_slot dev), ?_, ?_, a2, a3, a4, a5, a6, a7, ?_⟩
    · rw [List.range_succ, List.foldl_append, ht]
      simp only [List.foldl_cons, List.foldl_nil]
      exact invalidate_body t dev m hmt
    · rw [upd_length]; exact a1
    · intro j
      rw [bh_upd, a8 j, a8 m]
      by_cases hjm : j = m
      · subst hjm; simp [hmt]
      · by_cases hlt : j < m
        · have : j < m + 1 := Nat.lt_succ_of_lt hlt
          simp [hjm, hlt, this]
        · have : ¬ j < m + 1 := by omega
          simp [hjm, hlt, this]

theorem invalidate_buffers_spec (s : State) (dev : Int) :
    (invalidate_buffers s dev).bufs.length = s.bufs.length ∧
    (invalidate_buffers s dev).hash_table = s.hash_table ∧
    (invalidate_buffers s dev).free_list = s.free_list ∧
    (invalidate_buffers s dev).buffer_wait = s.buffer_wait ∧
    (invalidate_buffers s dev).io_log = s.io_log ∧
    (invalidate_buffers s dev).disk = s.disk ∧
    (invalidate_buffers s dev).stray = s.stray ∧
    ∀ j, (invalidate_buffers s dev).bh (some j) = inval_slot dev (s.bh (some j)) := by
  obtain ⟨t, ht, a1, a2, a3, a4, a5, a6, a7, a8⟩ := invalidate_fold s dev s.bufs.length (Nat.le_refl _)
  have : invalidate_buffers s dev = t := ht
  rw [this]
  refine ⟨a1, a2, a3, a4, a5, a6, a7, ?_⟩
  intro j
  rw [a8 j]
  by_cases hj : j < s.bufs.length
  · simp [hj]
  · simp only [hj, if_false]
    have hz : s.bh (some j) = buffer_head.zero := by
      simp only [State.bh, List.getD_eq_getElem?_getD]
      rw [List.getElem?_eq_none (Nat.le_of_not_lt hj)]; rfl
    rw [hz]
    simp only [inval_slot]
    split
    · rfl
    · rfl

theorem bh_of_bufs {s t : State} (h : t.bufs = s.bufs) (p : Ptr) : t.bh p = s.bh p := by
  cases p with
  | none => rfl
  | some i => simp only [State.bh, h]

theorem ll_rw_block_write (E : Env) (s : State) (i : Nat) (hi : i < s.bufs.length) :
    (ll_rw_block E Rw.WRITE s (some i)).bufs =
      (s.upd i (fun x => { x with b_dirt := false, b_lock := false })).bufs ∧
    (ll_rw_block E Rw.WRITE s (some i)).hash_table = s.hash_table ∧
    (ll_rw_block E Rw.WRITE s (some i)).free_list = s.free_list ∧
    (ll_rw_block E Rw.WRITE s (some i)).buffer_wait = s.buffer_wait ∧
    (ll_rw_block E Rw.WRITE s (some i)).stray = s.stray ∧
    (ll_rw_block E Rw.WRITE s (some i)).io_log =
      s.io_log ++ [{ rw := Rw.WRITE, bh := some i, head := s.bh (some i) }] ∧
    (ll_rw_block E Rw.WRITE s (some i)).disk =
      (((s.bh (some i)).b_dev, (s.bh (some i)).b_blocknr), (s.bh (some i)).b_data) :: s.disk := by
  simp only [ll_rw_block, State.store, if_pos hi]
  exact ⟨rfl, rfl, rfl, rfl, rfl, rfl, rfl⟩

theorem sync_body (E : Env) (dev : Int) (t : State) (i : Nat) (hi : i < t.bufs.length) :
    ∃ u, (if (t.bh (some i)).b_dev ≠ dev then t
      else
        let t1 := wait_on_buffer t (some i)
        if (t1.bh (some i)).b_dev = dev ∧ (t1.bh (some i)).b_dirt = true then
          ll_rw_block E Rw.WRITE t1 (some i)
        else t1) = u ∧
      u.bufs.length = t.bufs.length ∧ u.hash_table = t.hash_table ∧
      u.free_list = t.free_list ∧ u.buffer_wait = t.buffer_wait ∧ u.stray = t.stray ∧
      u.io_log = t.io_log ++
        (if (t.bh (some i)).b_dev = dev ∧ (t.bh (some i)).b_dirt = true then
          [{ rw := Rw.WRITE, bh := some i, head := { t.bh (some i) with b_lock := false } }]
        else []) ∧
      u.disk = disk_after
        (if (t.bh (some i)).b_dev = dev ∧ (t.bh (some i)).b_dirt = true then
          [{ rw := Rw.WRITE, bh := some i, head := { t.bh (some i) with b_lock := false } }]
        else []) t.disk ∧
      ∀ j, u.bh (some j) = if j = i then sync_slot dev (t.bh (some i)) else t.bh (some j) := by
  refine ⟨_, rfl, ?_⟩
  by_cases hd : (t.bh (some i)).b_dev = dev
  · have h1 : (t.upd i (fun b => { b with b_lock := false })).bh (some i) =
        { t.bh (some i) with b_lock := false } := bh_upd_same _ _ hi
    have hi1 : i < (t.upd i (fun b => { b with b_lock := false })).bufs.length := by
      rw [upd_length]; exact hi
    by_cases hdirt : (t.bh (some i)).b_dirt = true
    · have hc : (t.bh (some i)).b_dev = dev ∧ (t.bh (some i)).b_dirt = true := ⟨hd, hdirt⟩
      have hc1 : ((t.upd i (fun b => { b with b_lock := false })).bh (some i)).b_dev = dev ∧
          ((t.upd i (fun b => { b with b_lock := false })).bh (some i)).b_dirt = true := by
        rw [h1]; exact hc
      rw [if_neg (by simpa using hd)]
      simp only [wait_eq_upd]
      rw [if_pos hc1, if_pos hc]
      obtain ⟨w1, w2, w3, w4, w5, w6, w7⟩ := ll_rw_block_write E _ i hi1
      rw [h1] at w6 w7
      refine ⟨?_, w2, w3, w4, w5, w6, ?_, ?_⟩
      · rw [w1, upd_length, upd_length]
      · rw [w7]; simp [disk_after]; rfl
      · intro j
        rw [bh_of_bufs w1, upd_upd, bh_upd]
        by_cases hji : j = i
        · subst hji; simp [hi, sync_slot, hd]
        · simp [hji]
    · have hc : ¬ ((t.bh (some i)).b_dev = dev ∧ (t.bh (some i)).b_dirt = true) :=
        fun h => hdirt h.2
      have hc1 : ¬ (((t.upd i (fun b => { b with b_lock := false })).bh (some i)).b_dev = dev ∧
          ((t.upd i (fun b => { b with b_lock := false })).bh (some i)).b_dirt = true) := by
        rw [h1]; exact hc
      rw [if_neg (by simpa using hd)]
      simp only [wait_eq_upd]
      rw [if_neg hc1, if_neg hc]
      refine ⟨upd_length _ _ _, rfl, rfl, rfl, rfl, by simp; rfl, by simp [disk_after]; rfl, ?_⟩
      intro j
      rw [bh_upd]
      by_cases hji : j = i
      · subst hji
        simp only [Bool.not_eq_true] at hdirt
        simp [hi, sync_slot, hd, ← hdirt]
      · simp [hji]
  · simp only [ne_eq, hd, not_false_eq_true, if_true, false_and, if_false, List.append_nil,
      disk_after, List.reverse_nil, List.map_nil, List.nil_append, true_and]
    intro j
    split
    · next h => rw [h]; simp [sync_slot, hd]
    · rfl

theorem disk_after_append (a b : List Request) (d : List ((Int × Int) × List Nat)) :
    disk_after (a ++ b) d = disk_after b (disk_after a d) := by
  simp [disk_after]

theorem bh_out (s : State) {j : Nat} (hj : ¬ j < s.bufs.length) :
    s.bh (some j) = buffer_head.zero := by
  simp only [State.bh, List.getD_eq_getElem?_getD]
  rw [List.getElem?_eq_none (Nat.le_of_not_lt hj)]; rfl

theorem sync_fold (E : Env) (s : State) (dev : Int) (m : Nat) (hm : m ≤ s.bufs.length) :
    ∃ t, (List.range m).foldl (fun t i =>
      if (t.bh (some i)).b_dev ≠ dev then t
      else
        let t1 := wait_on_buffer t (some i)
        if (t1.bh (some i)).b_dev = dev ∧ (t1.bh (some i)).b_dirt = true then
          ll_rw_block E Rw.WRITE t1 (some i)
        else t1) s = t ∧
      t.bufs.length = s.bufs.length ∧ t.hash_table = s.hash_table ∧
      t.free_list = s.free_list ∧ t.buffer_wait = s.buffer_wait ∧ t.stray = s.stray ∧
      t.io_log = s.io_log ++ sync_reqs s dev m ∧
      t.disk = disk_after (sync_reqs s dev m) s.disk ∧
      ∀ j, t.bh (some j) = if j < m then sync_slot dev (s.bh (some j)) else s.bh (some j) := by
  induction m with
  | zero =>
    exact ⟨s, rfl, rfl, rfl, rfl, rfl, rfl, by simp [sync_reqs], by simp [sync_reqs, disk_after],
      fun j => by simp⟩
  | succ m ih =>
    obtain ⟨t, ht, a1, a2, a3, a4, a5, a6, a7, a8⟩ := ih (Nat.le_of_succ_le hm)
    have hmt : m < t.bufs.length := by rw [a1]; exact hm
    obtain ⟨u, hu, b1, b2, b3, b4, b5, b6, b7, b8⟩ := sync_body E dev t m hmt
    have htm : t.bh (some m) = s.bh (some m) := by rw [a8 m]; simp
    have hreq : sync_reqs s dev (m + 1) = sync_reqs s dev m ++
        (if (s.bh (some m)).b_dev = dev ∧ (s.bh (some m)).b_dirt = true then
          [{ rw := Rw.WRITE, bh := some m, head := { s.bh (some m) with b_lock := false } }]
        else []) := by
      simp only [sync_reqs, List.range_succ, List.filterMap_append]
      congr 1
      simp only [List.filterMap_cons, List.filterMap_nil]
      split <;> simp_all
    rw [htm] at b6 b7 b8
    refine ⟨u, ?_, b1.trans a1, b2.trans a2, b3.trans a3, b4.trans a4, b5.trans a5, ?_, ?_, ?_⟩
    · rw [List.range_succ, List.foldl_append, ht]
      simp only [List.foldl_cons, List.foldl_nil]
      exact hu
    · rw [b6, a6, hreq, List.append_assoc]
    · rw [b7, a7, hreq, disk_after_append]
    · intro j
      rw [b8 j, a8 j]
      by_cases hjm : j = m
      · subst hjm; simp
      · by_cases hlt : j < m
        · have : j < m + 1 := Nat.lt_succ_of_lt hlt
          simp [hjm, hlt, this]
        · have : ¬ j < m + 1 := by omega
          simp [hjm, hlt, this]

theorem sync_slot_zero (dev : Int) : sync_slot dev buffer_head.zero = buffer_head.zero := by
  simp only [sync_slot]
  split <;> rfl

theorem sync_pass_spec (E : Env) (s : State) (dev : Int) :
    (sync_pass E dev s).bufs.length = s.bufs.length ∧
    (sync_pass E dev s).hash_table = s.hash_table ∧
    (sync_pass E dev s).free_list = s.free_list ∧
    (sync_pass E dev s).buffer_wait = s.buffer_wait ∧
    (sync_pass E dev s).stray = s.stray ∧
    (sync_pass E dev s).io_log = s.io_log ++ sync_reqs s dev s.bufs.length ∧
    (sync_pass E dev s).disk = disk_after (sync_reqs s dev s.bufs.length) s.disk ∧
    ∀ j, (sync_pass E dev s).bh (some j) = sync_slot dev (s.bh (some j)) := by
  obtain ⟨t, ht, a1, a2, a3, a4, a5, a6, a7, a8⟩ := sync_fold E s dev s.bufs.length (Nat.le_refl _)
  have : sync_pass E dev s = t := ht
  rw [this]
  refine ⟨a1, a2, a3, a4, a5, a6, a7, ?_⟩
  intro j
  rw [a8 j]
  by_cases hj : j < s.bufs.length
  · simp [hj]
  · simp only [hj, if_false]
    rw [bh_out s hj, sync_slot_zero]

theorem sync_inodes_spec (E : Env) (s : State) :
    (sync_inodes E s).bufs.length = s.bufs.length ∧
    (sync_inodes E s).hash_table = s.hash_table ∧
    (sync_inodes E s).free_list = s.free_list ∧
    (sync_inodes E s).buffer_wait = s.buffer_wait ∧
    (sync_inodes E s).stray = s.stray ∧
    (sync_inodes E s).io_log = s.io_log ∧
    (sync_inodes E s).disk = s.disk ∧
    ∀ j, (sync_inodes E s).bh (some j) = s.bh (some j) ∨
      (sync_inodes E s).bh (some j) = { s.bh (some j) with b_dirt := true } := by
  unfold sync_inodes
  refine foldl_inv (fun t : State => t.bufs.length = s.bufs.length ∧
    t.hash_table = s.hash_table ∧ t.free_list = s.free_list ∧ t.buffer_wait = s.buffer_wait ∧
    t.stray = s.stray ∧ t.io_log = s.io_log ∧ t.disk = s.disk ∧
    ∀ j, t.bh (some j) = s.bh (some j) ∨ t.bh (some j) = { s.bh (some j) with b_dirt := true })
    _ _ s ⟨rfl, rfl, rfl, rfl, rfl, rfl, rfl, fun j => Or.inl rfl⟩ ?_
  rintro t i _ ⟨a1, a2, a3, a4, a5, a6, a7, a8⟩
  refine ⟨(upd_length _ _ _).trans a1, a2, a3, a4, a5, a6, a7, ?_⟩
  intro j
  rw [bh_upd]
  split
  · next h =>
    right
    rw [h.1]
    rcases a8 i with h1 | h1 <;> rw [h1]
  · exact a8 j

theorem sync_slot_fields (dev : Int) (b : buffer_head) :
    (sync_slot dev b).b_dev = b.b_dev ∧ (sync_slot dev b).b_blocknr = b.b_blocknr ∧
    (sync_slot dev b).b_prev = b.b_prev ∧ (sync_slot dev b).b_next = b.b_next ∧
    (sync_slot dev b).b_prev_free = b.b_prev_free ∧
    (sync_slot dev b).b_next_free = b.b_next_free ∧
    (sync_slot dev b).b_count = b.b_count ∧ (sync_slot dev b).b_data = b.b_data ∧
    (sync_slot dev b).b_uptodate = b.b_uptodate := by
  simp only [sync_slot]
  split <;> exact ⟨rfl, rfl, rfl, rfl, rfl, rfl, rfl, rfl, rfl⟩

theorem sync_slot_clean {dev : Int} {b : buffer_head} (h : b.b_dev = dev) :
    (sync_slot dev b).b_dirt = false ∧ (sync_slot dev b).b_lock = false := by
  simp [sync_slot, h]

theorem sync_slot_other {dev : Int} {b : buffer_head} (h : b.b_dev ≠ dev) :
    sync_slot dev b = b := by
  simp [sync_slot, h]

theorem sync_dev_spec (E : Env) (s : State) (dev : Int) :
    (sync_dev E s dev).2 = 0 ∧
    FlagStep s (sync_dev E s dev).1 ∧
    (sync_dev E s dev).1.buffer_wait = s.buffer_wait ∧
    (sync_dev E s dev).1.io_log = s.io_log ++ sync_reqs s dev s.bufs.length ++
      sync_reqs (sync_inodes E (sync_pass E dev s)) dev s.bufs.length ∧
    (∀ j, ((sync_dev E s dev).1.bh (some j)).b_count = (s.bh (some j)).b_count ∧
      ((sync_dev E s dev).1.bh (some j)).b_data = (s.bh (some j)).b_data ∧
      ((sync_dev E s dev).1.bh (some j)).b_uptodate = (s.bh (some j)).b_uptodate) ∧
    (∀ j, (s.bh (some j)).b_dev = dev →
      ((sync_dev E s dev).1.bh (some j)).b_dirt = false ∧
      ((sync_dev E s dev).1.bh (some j)).b_lock = false) ∧
    (∀ j, (s.bh (some j)).b_dev ≠ dev →
      ((sync_dev E s dev).1.bh (some j)).b_lock = (s.bh (some j)).b_lock) := by
  obtain ⟨a1, a2, a3, a4, a5, a6, _, a8⟩ := sync_pass_spec E s dev
  obtain ⟨b1, b2, b3, b4, b5, b6, _, b8⟩ := sync_inodes_spec E (sync_pass E dev s)
  obtain ⟨c1, c2, c3, c4, c5, c6, _, c8⟩ := sync_pass_spec E (sync_inodes E (sync_pass E dev s)) dev
  have hsd : (sync_dev E s dev).1 = sync_pass E dev (sync_inodes E (sync_pass E dev s)) := rfl
  rw [hsd]
  generalize sync_pass E dev (sync_inodes E (sync_pass E dev s)) = t at c1 c2 c3 c4 c5 c6 c8
  generalize hu : sync_inodes E (sync_pass E dev s) = u at b1 b2 b3 b4 b5 b6 b8 c1 c2 c3 c4 c5 c6 c8
  generalize sync_pass E dev s = w at a1 a2 a3 a4 a5 a6 a8 b1 b2 b3 b4 b5 b6 b8
  -- the fields of one slot along the three steps
  have hw := fun j => sync_slot_fields dev (s.bh (some j))
  have ht := fun j => sync_slot_fields dev (u.bh (some j))
  have hu1 : ∀ j, (u.bh (some j)).b_dev = (w.bh (some j)).b_dev ∧
      (u.bh (some j)).b_blocknr = (w.bh (some j)).b_blocknr ∧
      (u.bh (some j)).b_prev = (w.bh (some j)).b_prev ∧
      (u.bh (some j)).b_next = (w.bh (some j)).b_next ∧
      (u.bh (some j)).b_prev_free = (w.bh (some j)).b_prev_free ∧
      (u.bh (some j)).b_next_free = (w.bh (some j)).b_next_free ∧
      (u.bh (some j)).b_count = (w.bh (some j)).b_count ∧
      (u.bh (some j)).b_data = (w.bh (some j)).b_data ∧
      (u.bh (some j)).b_uptodate = (w.bh (some j)).b_uptodate ∧
      (u.bh (some j)).b_lock = (w.bh (some j)).b_lock := by
    intro j
    rcases b8 j with h | h <;> rw [h] <;> exact ⟨rfl, rfl, rfl, rfl, rfl, rfl, rfl, rfl, rfl, rfl⟩
  refine ⟨rfl, ⟨?_, ?_, ?_, ?_, ?_⟩, ?_, ?_, ?_, ?_, ?_⟩
  · exact c1.trans (b1.trans a1)
  · exact c2.trans (b2.trans a2)
  · exact c3.trans (b3.trans a3)
  · exact c5.trans (b5.trans a5)
  · intro j
    obtain ⟨p1, p2, p3, p4, p5, p6, _⟩ := hw j
    obtain ⟨q1, q2, q3, q4, q5, q6, _⟩ := hu1 j
    obtain ⟨r1, r2, r3, r4, r5, r6, _⟩ := ht j
    rw [c8 j, r1, r2, r3, r4, r5, r6, q1, q2, q3, q4, q5, q6, a8 j, p1, p2, p3, p4, p5, p6]
    exact ⟨rfl, rfl, rfl, rfl, rfl, rfl⟩
  · exact c4.trans (b4.trans a4)
  · rw [c6, b6, a6, b1, a1]
  · intro j
    obtain ⟨_, _, _, _, _, _, p7, p8, p9⟩ := hw j
    obtain ⟨_, _, _, _, _, _, q7, q8, q9, _⟩ := hu1 j
    obtain ⟨_, _, _, _, _, _, r7, r8, r9⟩ := ht j
    rw [c8 j, r7, r8, r9, q7, q8, q9, a8 j, p7, p8, p9]
    exact ⟨rfl, rfl, rfl⟩
  · intro j hd
    rw [c8 j]
    apply sync_slot_clean
    rw [(hu1 j).1, a8 j, (hw j).1]; exact hd
  · intro j hd
    have hd2 : (u.bh (some j)).b_dev ≠ dev := by
      rw [(hu1 j).1, a8 j, (hw j).1]; exact hd
    rw [c8 j, sync_slot_other hd2, (hu1 j).2.2.2.2.2.2.2.2.2, a8 j, sync_slot_other hd]

theorem wait_flag (s : State) (i : Nat) : FlagStep s (wait_on_buffer s (some i)) := by
  rw [wait_eq_upd]
  exact FlagStep_upd s i _ (fun b => ⟨rfl, rfl, rfl, rfl, rfl, rfl⟩)

theorem wait_bh (s : State) (i j : Nat) :
    (wait_on_buffer s (some i)).bh (some j) =
      if j = i then { s.bh (some j) with b_lock := false } else s.bh (some j) := by
  rw [wait_eq_upd, bh_upd]
  by_cases hji : j = i
  · subst hji
    by_cases hj : j < s.bufs.length
    · simp [hj]
    · simp only [hj, and_false, if_false, if_true]
      rw [bh_out s hj]; rfl
  · simp [hji]

theorem getblk_prep_spec (E : Env) (s : State) (v : Nat) :
    FlagStep s (getblk_prep E s v) ∧
    (getblk_prep E s v).buffer_wait = s.buffer_wait ∧
    (∀ j, ((getblk_prep E s v).bh (some j)).b_count = (s.bh (some j)).b_count ∧
      ((getblk_prep E s v).bh (some j)).b_data = (s.bh (some j)).b_data ∧
      ((getblk_prep E s v).bh (some j)).b_uptodate = (s.bh (some j)).b_uptodate) ∧
    ((getblk_prep E s v).bh (some v)).b_dirt = false ∧
    ((getblk_prep E s v).bh (some v)).b_lock = false := by
  unfold getblk_prep
  have hw := wait_flag s v
  have hwb := wait_bh s v
  by_cases hd : ((wait_on_buffer s (some v)).bh (some v)).b_dirt = true
  · rw [if_pos hd]
    obtain ⟨_, f1, f2, _, f4, f5, _⟩ := sync_dev_spec E (wait_on_buffer s (some v))
      ((wait_on_buffer s (some v)).bh (some v)).b_dev
    generalize (sync_dev E (wait_on_buffer s (some v))
      ((wait_on_buffer s (some v)).bh (some v)).b_dev).1 = t at f1 f2 f4 f5
    have hwt := wait_flag t v
    have hwtb := wait_bh t v
    refine ⟨FlagStep_trans hw (FlagStep_trans f1 hwt), ?_, ?_, ?_, ?_⟩
    · rw [wait_eq_upd]; show t.buffer_wait = _
      rw [f2, wait_eq_upd]; rfl
    · intro j
      rw [hwtb j]
      have := f4 j
      rw [hwb j] at this
      split <;> split at this <;> simp_all
    · rw [hwtb v, if_pos rfl]
      exact (f5 v rfl).1
    · rw [hwtb v, if_pos rfl]
  · rw [if_neg hd]
    refine ⟨hw, ?_, ?_, ?_, ?_⟩
    · rw [wait_eq_upd]; rfl
    · intro j; rw [hwb j]; split <;> exact ⟨rfl, rfl, rfl⟩
    · simpa using hd
    · rw [hwb v, if_pos rfl]

theorem sync_loop_spec (E : Env) (s : State) (v : Nat) (k : Nat)
    (hc : (s.bh (some v)).b_count = 0) :
    sync_loop E (k + 2) (wait_on_buffer s (some v)) (some v) = some (getblk_prep E s v, false) := by
  unfold getblk_prep
  have hwb := wait_bh s v
  by_cases hd : ((wait_on_buffer s (some v)).bh (some v)).b_dirt = true
  · rw [if_pos hd]
    rw [sync_loop, if_pos hd]
    obtain ⟨_, f1, f2, _, f4, f5, _⟩ := sync_dev_spec E (wait_on_buffer s (some v))
      ((wait_on_buffer s (some v)).bh (some v)).b_dev
    generalize (sync_dev E (wait_on_buffer s (some v))
      ((wait_on_buffer s (some v)).bh (some v)).b_dev).1 = t at f1 f2 f4 f5
    have hwtb := wait_bh t v
    have hcnt : ((wait_on_buffer t (some v)).bh (some v)).b_count = 0 := by
      rw [hwtb v, if_pos rfl]
      show (t.bh (some v)).b_count = 0
      rw [(f4 v).1, hwb v, if_pos rfl]
      exact hc
    have hdirt : ¬ ((wait_on_buffer t (some v)).bh (some v)).b_dirt = true := by
      rw [hwtb v, if_pos rfl]
      show ¬ (t.bh (some v)).b_dirt = true
      rw [(f5 v rfl).1]; simp
    simp only [hcnt, ne_eq, not_true_eq_false, if_false]
    rw [sync_loop, if_neg hdirt]
  · rw [if_neg hd]
    rw [sync_loop, if_neg hd]

theorem get_hash_table_miss {k : Nat} {s : State} {dev block : Int}
    (h : find_buffer (k + 1) s dev block = some none) :
    get_hash_table (k + 1) s dev block = Res.ok s none := by
  rw [get_hash_table, h]

theorem get_hash_table_hit {k : Nat} {s : State} {dev block : Int} {i : Nat}
    (h : find_buffer (k + 1) s dev block = some (some i)) (hi : i < s.bufs.length)
    (hb : (s.bh (some i)).b_dev = dev ∧ (s.bh (some i)).b_blocknr = block) :
    get_hash_table (k + 1) s dev block = Res.ok (hit_state s i) (some i) := by
  rw [get_hash_table, h]
  simp only [store_some _ hi, wait_eq_upd, upd_upd]
  have hb2 : ((s.upd i fun b => { b with b_count := b.b_count + 1, b_lock := false }).bh
      (some i)).b_dev = dev ∧
      ((s.upd i fun b => { b with b_count := b.b_count + 1, b_lock := false }).bh
      (some i)).b_blocknr = block := by
    rw [bh_upd_same _ _ hi]; exact hb
  rw [if_pos hb2]
  rfl

theorem hit_flag (s : State) (i : Nat) : FlagStep s (hit_state s i) :=
  FlagStep_upd s i _ (fun _ => ⟨rfl, rfl, rfl, rfl, rfl, rfl⟩)

theorem getblk_hit (E : Env) {k : Nat} {s : State} {dev block : Int} {i : Nat}
    (h : find_buffer (k + 1) s dev block = some (some i)) (hi : i < s.bufs.length)
    (hb : (s.bh (some i)).b_dev = dev ∧ (s.bh (some i)).b_blocknr = block) :
    getblk E (k + 1) s dev block = Res.ok (hit_state s i) (some i) := by
  rw [getblk, get_hash_table_hit h hi hb]

theorem getblk_miss (E : Env) {k : Nat} {s : State} {L : List Nat}
    {dev block : Int} (hF : FreeOrder s L) (hk : s.bufs.length < k + 1)
    (h : find_buffer (k + 1) s dev block = some none) :
    getblk E (k + 1) s dev block =
      match pick s L none with
      | none => Res.sleeping { s with buffer_wait := true }
      | some v => getblk_commit (getblk_prep E s v) (some v) dev block := by
  rw [getblk, get_hash_table_miss h]
  simp only [scan_free hF hk]
  cases hp : pick s L none with
  | none => rfl
  | some v =>
    simp only []
    rcases pick_some hp with h1 | ⟨hvL, hc⟩
    · exact absurd h1 (by simp)
    have hv : v < s.bufs.length := (hF.2.1 v).1 hvL
    have hc2 : ((wait_on_buffer s (some v)).bh (some v)).b_count = 0 := by
      rw [wait_bh, if_pos rfl]; exact hc
    simp only [hc2, ne_eq, not_true_eq_false, if_false]
    have hn : 1 ≤ s.bufs.length := Nat.lt_of_le_of_lt (Nat.zero_le _) hv
    obtain ⟨k2, hk2⟩ : ∃ k2, k + 1 = k2 + 2 := ⟨k - 1, by omega⟩
    have hsl : sync_loop E (k + 1) (wait_on_buffer s (some v)) (some v) =
        some (getblk_prep E s v, false) := by
      rw [hk2]; exact sync_loop_spec E s v k2 hc
    simp only [hsl]
    have hfs := (getblk_prep_spec E s v).1
    rw [find_buffer_congr hfs, h]

theorem buffer_init_spec (n : Nat) (hn : 0 < n) :
    (buffer_init n).bufs.length = n ∧ (buffer_init n).hash_table = (fun _ => none) ∧
    (buffer_init n).free_list = some 0 ∧ (buffer_init n).buffer_wait = false ∧
    (buffer_init n).io_log = [] ∧ (buffer_init n).disk = [] ∧ (buffer_init n).stray = 0 ∧
    ∀ j, j < n → (buffer_init n).bh (some j) = { buffer_head.zero with
      b_prev_free := if j = 0 then some (n - 1) else some (j - 1),
      b_next_free := if j = n - 1 then some 0 else some (j + 1) } := by
  obtain ⟨s0, hs0⟩ : ∃ s0 : State, s0 =
    { bufs := (List.range n).map (fun i =>
        { buffer_head.zero with b_prev_free := some (i - 1), b_next_free := some (i + 1) }),
      hash_table := fun _ => none, free_list := some 0, buffer_wait := false,
      io_log := [], disk := [], stray := 0 } := ⟨_, rfl⟩
  have hlen0 : s0.bufs.length = n := by rw [hs0]; simp
  have hbh0 : ∀ j, j < n → s0.bh (some j) =
      { buffer_head.zero with b_prev_free := some (j - 1), b_next_free := some (j + 1) } := by
    intro j hj
    rw [hs0]
    simp [State.bh, List.getD_eq_getElem?_getD, hj]
  have h0 : 0 < s0.bufs.length := by rw [hlen0]; exact hn
  have hn1 : n - 1 < (s0.upd 0 (fun b => { b with b_prev_free := some (n - 1) })).bufs.length := by
    rw [upd_length, hlen0]; omega
  have key : buffer_init n = (s0.upd 0 (fun b => { b with b_prev_free := some (n - 1) })).upd (n - 1)
      (fun b => { b with b_next_free := some 0 }) := by
    unfold buffer_init
    simp only [← hs0]
    have hfl : s0.free_list = some 0 := by rw [hs0]
    have hfl1 : (s0.upd 0 (fun b => { b with b_prev_free := some (n - 1) })).free_list = some 0 := hfl
    simp only [store_some _ h0, hfl1, store_some _ hn1]
  rw [key]
  refine ⟨by rw [upd_length, upd_length, hlen0], by rw [hs0]; rfl, by rw [hs0]; rfl,
    by rw [hs0]; rfl, by rw [hs0]; rfl, by rw [hs0]; rfl, by rw [hs0]; rfl, ?_⟩
  intro j hj
  rw [bh_upd, bh_upd, bh_upd, upd_length, hlen0]
  obtain ⟨m, rfl⟩ : ∃ m, n = m + 1 := ⟨n - 1, by omega⟩
  have hm : m < m + 1 := Nat.lt_succ_self m
  simp only [Nat.add_sub_cancel, hm, hn, and_true]
  by_cases hj0 : j = 0
  · subst hj0
    by_cases hjn : 0 = m
    · subst hjn
      rw [if_pos rfl, if_pos rfl, hbh0 0 hn]
      rfl
    · have h2 : ¬ m = 0 := fun h => hjn h.symm
      rw [if_neg hjn, if_pos rfl, hbh0 0 hn]
      simp [hjn]
  · by_cases hjn : j = m
    · subst hjn
      rw [if_pos rfl, if_neg hj0, hbh0 j hm]
      simp [hj0]
    · rw [if_neg hjn, if_neg hj0, hbh0 j hj]
      simp [hj0, hjn]

theorem RPath_range {nf pf : Nat → Ptr} (m a b : Nat)
    (h : ∀ i, a ≤ i → i < a + m → RLink nf pf i (i + 1)) (hb : RLink nf pf (a + m) b) :
    RPath nf pf a (List.range' (a + 1) m) b := by
  induction m generalizing a with
  | zero => simpa [RPath] using hb
  | succ m ih =>
    rw [List.range'_succ]
    refine ⟨h a (Nat.le_refl _) (by omega), ih (a + 1) ?_ ?_⟩
    · intro i hi1 hi2; exact h i (by omega) (by omega)
    · rw [show a + 1 + m = a + (m + 1) from by omega]; exact hb

theorem buffer_init_wf (n : Nat) (hn : 0 < n) :
    FreeOrder (buffer_init n) (List.range n) ∧ HashOrder (buffer_init n) (fun _ => []) ∧
      Unique (buffer_init n) := by
  obtain ⟨a1, a2, a3, _, _, _, _, a8⟩ := buffer_init_spec n hn
  have hdev : ∀ j, ((buffer_init n).bh (some j)).b_dev = 0 := by
    intro j
    by_cases hj : j < n
    · rw [a8 j hj]; rfl
    · rw [bh_out _ (by rw [a1]; exact hj)]; rfl
  have hnx : ∀ j, (buffer_init n).nx j = none ∧ (buffer_init n).pv j = none := by
    intro j
    simp only [State.nx, State.pv]
    by_cases hj : j < n
    · rw [a8 j hj]; exact ⟨rfl, rfl⟩
    · rw [bh_out _ (by rw [a1]; exact hj)]; exact ⟨rfl, rfl⟩
  refine ⟨⟨List.nodup_range n, fun i => by rw [a1, List.mem_range], ?_, ?_⟩,
    ⟨fun h => by rw [a2]; rfl, fun _ => List.nodup_nil, ?_, fun i _ _ _ => hnx i⟩, ?_⟩
  · rw [a3]
    cases n with
    | zero => exact absurd hn (by simp)
    | succ m => rw [List.range_succ_eq_map]; rfl
  · obtain ⟨m, rfl⟩ : ∃ m, n = m + 1 := ⟨n - 1, by omega⟩
    rw [List.range_eq_range', List.range'_succ]
    show RPath _ _ 0 (List.range' (0 + 1) m) 0
    refine RPath_range m 0 0 ?_ ?_
    · intro i _ hi
      have hi1 : i < m + 1 := by omega
      have hi2 : i + 1 < m + 1 := by omega
      constructor
      · simp only [State.nf, a8 i hi1]
        have : ¬ i = m := by omega
        simp [this]
      · simp only [State.pf, a8 (i + 1) hi2]
        simp
    · have hm : 0 + m < m + 1 := by omega
      constructor
      · simp only [State.nf, a8 (0 + m) hm]
        simp
      · simp only [State.pf, a8 0 hn]
        simp
  · intro h x
    simp only [List.not_mem_nil, false_iff]
    rintro ⟨_, _, hd, _⟩
    exact hd (hdev x)
  · intro i j _ _ hd _ _
    exact absurd (hdev i) hd

theorem find_buffer_total {s : State} {C : Nat → List Nat} (h : HashOrder s C) (dev block : Int)
    {k : Nat} (hk : s.bufs.length < k) :
    find_buffer k s dev block = some none ∨
      ∃ i, find_buffer k s dev block = some (some i) ∧ i < s.bufs.length ∧
        (s.bh (some i)).b_dev = dev ∧ (s.bh (some i)).b_blocknr = block ∧ dev ≠ 0 := by
  cases hf : find_buffer k s dev block with
  | none =>
    rw [find_buffer_spec h dev block hk] at hf
    exact absurd hf (by simp)
  | some r =>
    cases r with
    | none => exact Or.inl rfl
    | some i =>
      obtain ⟨a, b, c, d⟩ := find_buffer_some h hk hf
      exact Or.inr ⟨i, rfl, a, b, c, d⟩

/-- The three ways `getblk` ends in a well-formed cache, with enough budget:
a hit, a sleep on `buffer_wait` when every slot is referenced, or the commit
of the victim chosen by the scan. -/
theorem getblk_cases (E : Env) {s : State} {L : List Nat} {C : Nat → List Nat}
    (dev block : Int) {k : Nat} (hF : FreeOrder s L) (hH : HashOrder s C)
    (hk : s.bufs.length < k) :
    (∃ i, i < s.bufs.length ∧ (s.bh (some i)).b_dev = dev ∧ (s.bh (some i)).b_blocknr = block ∧
        dev ≠ 0 ∧ find_buffer k s dev block = some (some i) ∧
        getblk E k s dev block = Res.ok (hit_state s i) (some i)) ∨
    (find_buffer k s dev block = some none ∧ pick s L none = none ∧
        getblk E k s dev block = Res.sleeping { s with buffer_wait := true }) ∨
    (find_buffer k s dev block = some none ∧
      ∃ v, pick s L none = some v ∧ v < s.bufs.length ∧ (s.bh (some v)).b_count = 0 ∧
      ∃ t, getblk E k s dev block = Res.ok t (some v) ∧
        getblk_commit (getblk_prep E s v) (some v) dev block = Res.ok t (some v) ∧
        FreeOrder t (L.erase v ++ [v]) ∧
        HashOrder t (fun h =>
          if dev ≠ 0 ∧ h = _hashfn dev block then v :: (C h).erase v else (C h).erase v) ∧
        t.bufs.length = s.bufs.length ∧ t.buffer_wait = s.buffer_wait ∧
        t.io_log = (getblk_prep E s v).io_log ∧ t.disk = (getblk_prep E s v).disk ∧
        (∀ j, j ≠ v → (t.bh (some j)).core = ((getblk_prep E s v).bh (some j)).core) ∧
        (t.bh (some v)).core =
          ((s.bh (some v)).b_data, block, dev, false, false, 1, false) ∧
        t.stray = (if dev ≠ 0 ∧ (C (_hashfn dev block)).erase v = [] then s.stray + 1
          else s.stray)) := by
  obtain ⟨k, rfl⟩ : ∃ k', k = k' + 1 := ⟨k - 1, by omega⟩
  rcases find_buffer_total hH dev block hk with hf | ⟨i, hf, hi, hd, hb, h0⟩
  · right
    have hm := @getblk_miss E _ _ _ dev block hF hk hf
    cases hp : pick s L none with
    | none =>
      left
      rw [hp] at hm
      exact ⟨hf, rfl, hm⟩
    | some v =>
      right
      rw [hp] at hm
      simp only [] at hm
      rcases pick_some hp with h1 | ⟨hvL, hc⟩
      · exact absurd h1 (by simp)
      have hv : v < s.bufs.length := (hF.2.1 v).1 hvL
      obtain ⟨p1, p2, p3, p4, p5⟩ := getblk_prep_spec E s v
      have hvp : v < (getblk_prep E s v).bufs.length := by rw [p1.1]; exact hv
      obtain ⟨t, c0, c1, c2, c3, c4, c5, c6, c7, c8, c9⟩ :=
        getblk_commit_spec dev block (p1.freeOrder hF) (p1.hashOrder hH) hvp
      refine ⟨hf, v, rfl, hv, hc, t, hm.trans c0, c0, c1, c2, c3.trans p1.1, c4.trans p2, c5, c6,
        c7, ?_, ?_⟩
      · rw [c8, (p3 v).2.1, p5]
      · rw [c9, p1.2.2.2.1]
  · left
    exact ⟨i, hi, hd, hb, h0, hf, getblk_hit E hf hi ⟨hd, hb⟩⟩

theorem ll_rw_block_read (E : Env) (rw : Rw) (s : State) (i : Nat) (hrw : rw ≠ Rw.WRITE)
    (hi : i < s.bufs.length) :
    (ll_rw_block E rw s (some i)).bufs.length = s.bufs.length ∧
    (ll_rw_block E rw s (some i)).hash_table = s.hash_table ∧
    (ll_rw_block E rw s (some i)).free_list = s.free_list ∧
    (ll_rw_block E rw s (some i)).buffer_wait = s.buffer_wait ∧
    (ll_rw_block E rw s (some i)).stray = s.stray ∧
    (ll_rw_block E rw s (some i)).disk = s.disk ∧
    (ll_rw_block E rw s (some i)).io_log =
      s.io_log ++ [{ rw := rw, bh := some i, head := s.bh (some i) }] ∧
    ∀ j, (ll_rw_block E rw s (some i)).bh (some j) =
      if j = i ∧ (s.bh (some i)).b_uptodate = false then
        (if E.read_ok (s.bh (some i)).b_dev (s.bh (some i)).b_blocknr = true then
          { s.bh (some i) with
            b_data := disk_read E s (s.bh (some i)).b_dev (s.bh (some i)).b_blocknr,
            b_uptodate := true, b_lock := false }
        else { s.bh (some i) with b_lock := false })
      else s.bh (some j) := by
  have hl : i < ({ s with io_log := s.io_log ++
      [{ rw := rw, bh := some i, head := s.bh (some i) }] } : State).bufs.length := hi
  have hb : ∀ p, ({ s with io_log := s.io_log ++
      [{ rw := rw, bh := some i, head := s.bh (some i) }] } : State).bh p = s.bh p :=
    fun p => bh_of_bufs rfl p
  cases rw with
  | WRITE => exact absurd rfl hrw
  | READ =>
    simp only [ll_rw_block]
    by_cases hu : (s.bh (some i)).b_uptodate = true
    · rw [if_pos hu]
      refine ⟨rfl, rfl, rfl, rfl, rfl, rfl, rfl, fun j => ?_⟩
      rw [if_neg (by simp [hu])]; rfl
    · rw [if_neg hu]
      have hu' : (s.bh (some i)).b_uptodate = false := by simpa using hu
      by_cases hr : E.read_ok (s.bh (some i)).b_dev (s.bh (some i)).b_blocknr = true
      · rw [if_pos hr, store_some _ hl]
        refine ⟨upd_length _ _ _, rfl, rfl, rfl, rfl, rfl, rfl, fun j => ?_⟩
        rw [bh_upd, hb, hb]
        by_cases hji : j = i
        · subst hji; simp [hl, hu', hr]
        · simp [hji]
      · rw [if_neg hr, store_some _ hl]
        refine ⟨upd_length _ _ _, rfl, rfl, rfl, rfl, rfl, rfl, fun j => ?_⟩
        rw [bh_upd, hb, hb]
        by_cases hji : j = i
        · subst hji; simp [hl, hu', hr]
        · simp [hji]
  | READA =>
    simp only [ll_rw_block]
    by_cases hu : (s.bh (some i)).b_uptodate = true
    · rw [if_pos hu]
      refine ⟨rfl, rfl, rfl, rfl, rfl, rfl, rfl, fun j => ?_⟩
      rw [if_neg (by simp [hu])]; rfl
    · rw [if_neg hu]
      have hu' : (s.bh (some i)).b_uptodate = false := by simpa using hu
      by_cases hr : E.read_ok (s.bh (some i)).b_dev (s.bh (some i)).b_blocknr = true
      · rw [if_pos hr, store_some _ hl]
        refine ⟨upd_length _ _ _, rfl, rfl, rfl, rfl, rfl, rfl, fun j => ?_⟩
        rw [bh_upd, hb, hb]
        by_cases hji : j = i
        · subst hji; simp [hl, hu', hr]
        · simp [hji]
      · rw [if_neg hr, store_some _ hl]
        refine ⟨upd_length _ _ _, rfl, rfl, rfl, rfl, rfl, rfl, fun j => ?_⟩
        rw [bh_upd, hb, hb]
        by_cases hji : j = i
        · subst hji; simp [hl, hu', hr]
        · simp [hji]

theorem ll_rw_block_read_flag (E : Env) (rw : Rw) (s : State) (i : Nat) (hrw : rw ≠ Rw.WRITE)
    (hi : i < s.bufs.length) : FlagStep s (ll_rw_block E rw s (some i)) := by
  obtain ⟨a1, a2, a3, _, a5, _, _, a8⟩ := ll_rw_block_read E rw s i hrw hi
  refine ⟨a1, a2, a3, a5, fun j => ?_⟩
  rw [a8 j]
  split
  · next h =>
    rw [h.1]
    split <;> exact ⟨rfl, rfl, rfl, rfl, rfl, rfl⟩
  · exact ⟨rfl, rfl, rfl, rfl, rfl, rfl⟩

theorem brelse_spec (s : State) (i : Nat) (hi : i < s.bufs.length)
    (hc : (s.bh (some i)).b_count ≠ 0) :
    brelse s (some i) = Res.ok (release_state s i) () := by
  unfold brelse
  simp only [wait_eq_upd]
  have h1 : ((s.upd i (fun b => { b with b_lock := false })).bh (some i)).b_count ≠ 0 := by
    rw [bh_upd_same _ _ hi]; exact hc
  have hi1 : i < (s.upd i (fun b => { b with b_lock := false })).bufs.length := by
    rw [upd_length]; exact hi
  rw [if_neg h1, store_some _ hi1, upd_upd]
  rfl

theorem release_flag (s : State) (i : Nat) : FlagStep s (release_state s i) := by
  have := FlagStep_upd s i (fun b => { b with b_count := b.b_count - 1, b_lock := false })
    (fun _ => ⟨rfl, rfl, rfl, rfl, rfl, rfl⟩)
  exact this

theorem core_ident {a b : buffer_head} (h : a.core = b.core) :
    a.b_dev = b.b_dev ∧ a.b_blocknr = b.b_blocknr := by
  simp only [buffer_head.core, Prod.mk.injEq] at h
  exact ⟨h.2.2.1, h.2.1⟩

theorem getblk_inv (E : Env) {s : State} (dev block : Int) {k : Nat} (hW : WF s) (hU : Unique s)
    (hk : s.bufs.length < k) :
    (∀ t r, getblk E k s dev block = Res.ok t r → WF t ∧ Unique t) ∧
    (∀ t, getblk E k s dev block = Res.sleeping t → WF t ∧ Unique t) := by
  obtain ⟨L, C, hF, hH⟩ := hW
  rcases getblk_cases E dev block hF hH hk with ⟨i, hi, _, _, _, _, hg⟩ | ⟨_, _, hg⟩ |
    ⟨hf, v, _, hv, _, t, hg, _, c1, c2, c3, _, _, _, c7, c8, _⟩
  · rw [hg]
    constructor
    · intro t r h
      injection h with h1 h2
      subst h1
      exact ⟨(hit_flag s i).wf ⟨L, C, hF, hH⟩, (hit_flag s i).unique hU⟩
    · intro t h; exact absurd h (by simp)
  · rw [hg]
    have hfs : FlagStep s { s with buffer_wait := true } :=
      ⟨rfl, rfl, rfl, rfl, fun _ => ⟨rfl, rfl, rfl, rfl, rfl, rfl⟩⟩
    constructor
    · intro t r h; exact absurd h (by simp)
    · intro t h
      injection h with h1
      subst h1
      exact ⟨hfs.wf ⟨L, C, hF, hH⟩, hfs.unique hU⟩
  · rw [hg]
    constructor
    · intro t' r h
      injection h with h1 h2
      subst h1
      refine ⟨⟨_, _, c1, c2⟩, ?_⟩
      have hp := (getblk_prep_spec E s v).1
      have hid : ∀ j, j ≠ v → (t.bh (some j)).b_dev = (s.bh (some j)).b_dev ∧
          (t.bh (some j)).b_blocknr = (s.bh (some j)).b_blocknr := by
        intro j hj
        obtain ⟨e1, e2⟩ := core_ident (c7 j hj)
        rw [e1, e2]
        exact ⟨(hp.2.2.2.2 j).1, (hp.2.2.2.2 j).2.1⟩
      have hidv : (t.bh (some v)).b_dev = dev ∧ (t.bh (some v)).b_blocknr = block := by
        simp only [buffer_head.core, Prod.mk.injEq] at c8
        exact ⟨c8.2.2.1, c8.2.1⟩
      have hnone : ∀ j, j < s.bufs.length → dev ≠ 0 →
          ¬ ((s.bh (some j)).b_dev = dev ∧ (s.bh (some j)).b_blocknr = block) := by
        intro j hj hd
        rcases (find_buffer_none hH hk).1 hf with h0 | hall
        · exact absurd h0 hd
        · exact hall j hj
      intro i j hi hj hd he hb
      rw [c3] at hi hj
      by_cases hiv : i = v
      · by_cases hjv : j = v
        · rw [hiv, hjv]
        · exfalso
          subst hiv
          rw [hidv.1] at hd he
          rw [hidv.2] at hb
          rw [(hid j hjv).1] at he
          rw [(hid j hjv).2] at hb
          exact hnone j hj hd ⟨he.symm, hb.symm⟩
      · by_cases hjv : j = v
        · exfalso
          subst hjv
          rw [(hid i hiv).1] at hd he
          rw [(hid i hiv).2] at hb
          rw [hidv.1] at he
          rw [hidv.2] at hb
          exact hnone i hi (he ▸ hd) ⟨he, hb⟩
        · rw [(hid i hiv).1] at hd he
          rw [(hid i hiv).2] at hb
          rw [(hid j hjv).1] at he
          rw [(hid j hjv).2] at hb
          exact hU i j hi hj hd he hb
    · intro t' h; exact absurd h (by simp)

theorem get_hash_table_inv {s : State} (dev block : Int) {k : Nat} (hW : WF s) (hU : Unique s)
    (hk : s.bufs.length < k) :
    ∀ t r, get_hash_table k s dev block = Res.ok t r → WF t ∧ Unique t := by
  obtain ⟨L, C, hF, hH⟩ := hW
  obtain ⟨k, rfl⟩ : ∃ k', k = k' + 1 := ⟨k - 1, by omega⟩
  intro t r h
  rcases find_buffer_total hH dev block hk with hf | ⟨i, hf, hi, hd, hb, _⟩
  · rw [get_hash_table_miss hf] at h
    injection h with h1 h2
    subst h1
    exact ⟨⟨L, C, hF, hH⟩, hU⟩
  · rw [get_hash_table_hit hf hi ⟨hd, hb⟩] at h
    injection h with h1 h2
    subst h1
    exact ⟨(hit_flag s i).wf ⟨L, C, hF, hH⟩, (hit_flag s i).unique hU⟩

theorem brelse_flag {s t : State} {buf : Ptr} (h : brelse s buf = Res.ok t ()) : FlagStep s t := by
  cases buf with
  | none =>
    simp only [brelse] at h
    injection h with h1
    subst h1
    exact FlagStep.refl s
  | some i =>
    by_cases hc : (s.bh (some i)).b_count = 0
    · exfalso
      simp only [brelse, wait_eq_upd] at h
      have : ((s.upd i (fun b => { b with b_lock := false })).bh (some i)).b_count = 0 := by
        rw [bh_upd]; split <;> simp [hc]
      rw [if_pos this] at h
      exact absurd h (by simp)
    · have hi : i < s.bufs.length := by
        by_contra hi
        rw [bh_out s hi] at hc
        exact hc rfl
      rw [brelse_spec s i hi hc] at h
      injection h with h1
      subst h1
      exact release_flag s i

theorem hit_bh (s : State) (i j : Nat) (hi : i < s.bufs.length) :
    (hit_state s i).bh (some j) =
      if j = i then { s.bh (some i) with b_count := (s.bh (some i)).b_count + 1, b_lock := false }
      else s.bh (some j) := by
  unfold hit_state
  rw [bh_upd]
  by_cases hji : j = i
  · simp [hji, hi]
  · simp [hji]

theorem getblk_ok (E : Env) {s : State} (dev block : Int) {k : Nat} (hW : WF s)
    (hk : s.bufs.length < k) {t : State} {r : Ptr} (h : getblk E k s dev block = Res.ok t r) :
    ∃ i, r = some i ∧ i < s.bufs.length ∧ t.bufs.length = s.bufs.length ∧
      (t.bh (some i)).b_dev = dev ∧ (t.bh (some i)).b_blocknr = block ∧
      (t.bh (some i)).b_count = (s.bh (some i)).b_count + 1 := by
  obtain ⟨L, C, hF, hH⟩ := hW
  rcases getblk_cases E dev block hF hH hk with ⟨i, hi, hd, hb, _, _, hg⟩ | ⟨_, _, hg⟩ |
    ⟨_, v, _, hv, hc, t', hg, _, _, _, c3, _, _, _, _, c8, _⟩
  · rw [hg] at h
    injection h with h1 h2
    subst h1; subst h2
    refine ⟨i, rfl, hi, upd_length _ _ _, ?_, ?_, ?_⟩
    · rw [hit_bh s i i hi, if_pos rfl]; exact hd
    · rw [hit_bh s i i hi, if_pos rfl]; exact hb
    · rw [hit_bh s i i hi, if_pos rfl]
  · rw [hg] at h; exact absurd h (by simp)
  · rw [hg] at h
    injection h with h1 h2
    subst h1; subst h2
    simp only [buffer_head.core, Prod.mk.injEq] at c8
    exact ⟨v, rfl, hv, c3, c8.2.2.1, c8.2.1, by rw [c8.2.2.2.2.2.1, hc]⟩

theorem bread_inv (E : Env) {s : State} (dev block : Int) {k : Nat} (hW : WF s) (hU : Unique s)
    (hk : s.bufs.length < k) :
    (∀ t r, bread E k s dev block = Res.ok t r → WF t ∧ Unique t) ∧
    (∀ t, bread E k s dev block = Res.sleeping t → WF t ∧ Unique t) := by
  obtain ⟨g1, g2⟩ := getblk_inv E dev block hW hU hk
  unfold bread
  cases hg : getblk E k s dev block with
  | ok s1 r =>
    obtain ⟨i, hr, hi, hlen, _, _, hcnt⟩ := getblk_ok E dev block hW hk hg
    obtain ⟨hW1, hU1⟩ := g1 s1 r hg
    subst hr
    simp only []
    have hi1 : i < s1.bufs.length := by rw [hlen]; exact hi
    by_cases hu : (s1.bh (some i)).b_uptodate = true
    · rw [if_pos hu]
      constructor
      · intro t r h
        injection h with h1 h2
        subst h1
        exact ⟨hW1, hU1⟩
      · intro t h; exact absurd h (by simp)
    · rw [if_neg hu]
      have f2 := ll_rw_block_read_flag E Rw.READ s1 i (by simp) hi1
      have f3 := wait_flag (ll_rw_block E Rw.READ s1 (some i)) i
      have f23 := FlagStep_trans f2 f3
      generalize wait_on_buffer (ll_rw_block E Rw.READ s1 (some i)) (some i) = s3 at f23
      by_cases hu3 : (s3.bh (some i)).b_uptodate = true
      · rw [if_pos hu3]
        constructor
        · intro t r h
          injection h with h1 h2
          subst h1
          exact ⟨f23.wf hW1, f23.unique hU1⟩
        · intro t h; exact absurd h (by simp)
      · rw [if_neg hu3]
        cases hb : brelse s3 (some i) with
        | ok s4 u =>
          have f4 := brelse_flag hb
          constructor
          · intro t r h
            injection h with h1 h2
            subst h1
            exact ⟨(FlagStep_trans f23 f4).wf hW1, (FlagStep_trans f23 f4).unique hU1⟩
          · intro t h; exact absurd h (by simp)
        | sleeping t =>
          exfalso
          simp only [brelse] at hb
          split at hb <;> exact absurd hb (by simp)
        | panic m => exact ⟨fun t r h => absurd h (by simp), fun t h => absurd h (by simp)⟩
        | timeout => exact ⟨fun t r h => absurd h (by simp), fun t h => absurd h (by simp)⟩
  | sleeping t1 =>
    simp only []
    constructor
    · intro t r h; exact absurd h (by simp)
    · intro t h
      injection h with h1
      subst h1
      exact g2 t1 hg
  | panic m => exact ⟨fun t r h => absurd h (by simp), fun t h => absurd h (by simp)⟩
  | timeout => exact ⟨fun t r h => absurd h (by simp), fun t h => absurd h (by simp)⟩

theorem invalidate_flag (s : State) (dev : Int) : FlagStep s (invalidate_buffers s dev) := by
  obtain ⟨a1, a2, a3, _, _, _, a7, a8⟩ := invalidate_buffers_spec s dev
  refine ⟨a1, a2, a3, a7, fun j => ?_⟩
  rw [a8 j]
  simp only [inval_slot]
  split <;> exact ⟨rfl, rfl, rfl, rfl, rfl, rfl⟩

/-- Every reachable state is well formed and binds each pair at most once. -/
theorem reachable_inv (E : Env) (n : Nat) (hn : 0 < n) {s : State} (h : Reachable E n s) :
    WF s ∧ Unique s := by
  induction h with
  | init =>
    obtain ⟨a, b, c⟩ := buffer_init_wf n hn
    exact ⟨⟨_, _, a, b⟩, c⟩
  | getblk s t k dev block r _ hk hg ih => exact (getblk_inv E dev block ih.1 ih.2 hk).1 t r hg
  | getblk_sleep s t k dev block _ hk hg ih => exact (getblk_inv E dev block ih.1 ih.2 hk).2 t hg
  | get_hash_table s t k dev block r _ hk hg ih =>
    exact get_hash_table_inv dev block ih.1 ih.2 hk t r hg
  | brelse s t buf _ hb ih => exact ⟨(brelse_flag hb).wf ih.1, (brelse_flag hb).unique ih.2⟩
  | bread s t k dev block r _ hk hg ih => exact (bread_inv E dev block ih.1 ih.2 hk).1 t r hg
  | bread_sleep s t k dev block _ hk hg ih => exact (bread_inv E dev block ih.1 ih.2 hk).2 t hg
  | invalidate_buffers s dev _ ih =>
    exact ⟨(invalidate_flag s dev).wf ih.1, (invalidate_flag s dev).unique ih.2⟩
  | sync_dev s dev _ ih =>
    have := (sync_dev_spec E s dev).2.1
    exact ⟨this.wf ih.1, this.unique ih.2⟩
  | modify s i data _ ih =>
    have := FlagStep_upd s i (fun b => { b with b_data := data, b_dirt := true })
      (fun _ => ⟨rfl, rfl, rfl, rfl, rfl, rfl⟩)
    exact ⟨this.wf ih.1, this.unique ih.2⟩

theorem reachable_getblk (E : Env) (n : Nat) {s : State} (h : Reachable E n s) (k : Nat)
    (hk : s.bufs.length < k) (dev block : Int) :
    Reachable E n ((getblk E k s dev block).state s) := by
  cases hg : getblk E k s dev block with
  | ok t r => exact Reachable.getblk s t k dev block r h hk hg
  | sleeping t => exact Reachable.getblk_sleep s t k dev block h hk hg
  | panic m => exact h
  | timeout => exact h

theorem sync_reqs_mem {s : State} {dev : Int} {m : Nat} {q : Request}
    (h : q ∈ sync_reqs s dev m) :
    ∃ i, i < m ∧ q = { rw := Rw.WRITE, bh := some i, head := { s.bh (some i) with b_lock := false } } ∧
      (s.bh (some i)).b_dev = dev ∧ (s.bh (some i)).b_dirt = true := by
  simp only [sync_reqs, List.mem_filterMap, List.mem_range] at h
  obtain ⟨i, hi, hq⟩ := h
  split at hq
  · next hc =>
    exact ⟨i, hi, (Option.some.inj hq).symm, hc.1, hc.2⟩
  · exact absurd hq (by simp)

theorem sync_reqs_of {s : State} {dev : Int} {m i : Nat} (hi : i < m)
    (hd : (s.bh (some i)).b_dev = dev) (hdirt : (s.bh (some i)).b_dirt = true) :
    ({ rw := Rw.WRITE, bh := some i, head := { s.bh (some i) with b_lock := false } } : Request) ∈
      sync_reqs s dev m := by
  simp only [sync_reqs, List.mem_filterMap, List.mem_range]
  exact ⟨i, hi, by rw [if_pos ⟨hd, hdirt⟩]⟩

/-- C1. Uniqueness is an invariant of the cache: in every state reached from
the state of `buffer_init` by calls of `getblk`, `get_hash_table`, `brelse`,
`bread`, `invalidate_buffers` and `sync_dev` (and by callers writing to
slots), at most one slot of the pool is bound to a pair `(device, block)`
with `device ≠ 0`. -/
theorem C1_uniqueness (E : Env) (n : Nat) (s : State) (hn : 0 < n) (h : Reachable E n s) :
    ∀ i j, i < s.NR_BUFFERS → j < s.NR_BUFFERS → (s.bh (some i)).b_dev ≠ 0 →
      (s.bh (some i)).b_dev = (s.bh (some j)).b_dev →
      (s.bh (some i)).b_blocknr = (s.bh (some j)).b_blocknr → i = j :=
  (reachable_inv E n hn h).2

/-- C1, at the state after `getblk(1, 5)`, `getblk(1, 312)` and
`invalidate_buffers(1)` on a fresh pool of three slots. -/
theorem C1_uniqueness_witness :
    0 < 3 ∧
    ∀ i j,
      i < (invalidate_buffers ((getblk Env.quiet 4 ((getblk Env.quiet 4 (buffer_init 3) 1 5).state
        (buffer_init 3)) 1 312).state (buffer_init 3)) 1).NR_BUFFERS →
      j < (invalidate_buffers ((getblk Env.quiet 4 ((getblk Env.quiet 4 (buffer_init 3) 1 5).state
        (buffer_init 3)) 1 312).state (buffer_init 3)) 1).NR_BUFFERS →
      ((invalidate_buffers ((getblk Env.quiet 4 ((getblk Env.quiet 4 (buffer_init 3) 1 5).state
        (buffer_init 3)) 1 312).state (buffer_init 3)) 1).bh (some i)).b_dev ≠ 0 →
      ((invalidate_buffers ((getblk Env.quiet 4 ((getblk Env.quiet 4 (buffer_init 3) 1 5).state
        (buffer_init 3)) 1 312).state (buffer_init 3)) 1).bh (some i)).b_dev =
      ((invalidate_buffers ((getblk Env.quiet 4 ((getblk Env.quiet 4 (buffer_init 3) 1 5).state
        (buffer_init 3)) 1 312).state (buffer_init 3)) 1).bh (some j)).b_dev →
      ((invalidate_buffers ((getblk Env.quiet 4 ((getblk Env.quiet 4 (buffer_init 3) 1 5).state
        (buffer_init 3)) 1 312).state (buffer_init 3)) 1).bh (some i)).b_blocknr =
      ((invalidate_buffers ((getblk Env.quiet 4 ((getblk Env.quiet 4 (buffer_init 3) 1 5).state
        (buffer_init 3)) 1 312).state (buffer_init 3)) 1).bh (some j)).b_blocknr → i = j :=
  ⟨by decide, C1_uniqueness Env.quiet 3 _ (by decide)
    (Reachable.invalidate_buffers _ 1
      (reachable_getblk Env.quiet 3
        (reachable_getblk Env.quiet 3 Reachable.init 4 (by decide) 1 5) 4 (by decide) 1 312))⟩

theorem pool_one_reach : Reachable Env.quiet 3 pool_one :=
  reachable_getblk Env.quiet 3 Reachable.init 4 (by decide) 1 5

theorem pool_dirty_reach : Reachable Env.quiet 3 pool_dirty := by
  unfold pool_dirty
  cases hb : brelse (pool_one.upd 0 (fun b => { b with b_data := [7], b_dirt := true })) (some 0) with
  | ok t u => exact Reachable.brelse _ t _ (Reachable.modify _ 0 [7] pool_one_reach) hb
  | sleeping t =>
    exfalso
    simp only [brelse] at hb
    split at hb <;> exact absurd hb (by simp)
  | panic m => exact pool_one_reach
  | timeout => exact pool_one_reach

/-- C2. No eviction while referenced: in a well-formed cache, with enough
budget, `getblk(dev, block)` either returns or sleeps on `buffer_wait`; when
it returns, every slot with `b_count > 0` keeps its `b_dev` and `b_blocknr`,
and a slot whose identity changed is the returned one, rebound by the commit
in a state in which its `b_count` was 0 and it still had its old identity;
when it sleeps no slot has changed. -/
theorem C2_no_evict_while_referenced (E : Env) (s : State) (dev block : Int) (k : Nat)
    (hW : WF s) (hk : s.NR_BUFFERS < k) :
    (∃ t r, getblk E k s dev block = Res.ok t r ∧
      (∀ j, 0 < (s.bh (some j)).b_count →
        (t.bh (some j)).b_dev = (s.bh (some j)).b_dev ∧
        (t.bh (some j)).b_blocknr = (s.bh (some j)).b_blocknr) ∧
      (∀ j, ¬ ((t.bh (some j)).b_dev = (s.bh (some j)).b_dev ∧
          (t.bh (some j)).b_blocknr = (s.bh (some j)).b_blocknr) →
        r = some j ∧ (s.bh (some j)).b_count = 0 ∧
        ∃ p, getblk_commit p (some j) dev block = Res.ok t r ∧ (p.bh (some j)).b_count = 0 ∧
          (p.bh (some j)).b_dev = (s.bh (some j)).b_dev ∧
          (p.bh (some j)).b_blocknr = (s.bh (some j)).b_blocknr)) ∨
    (∃ t, getblk E k s dev block = Res.sleeping t ∧ ∀ j, t.bh (some j) = s.bh (some j)) := by
  obtain ⟨L, C, hF, hH⟩ := hW
  rcases getblk_cases E dev block hF hH hk with ⟨i, hi, _, _, _, _, hg⟩ | ⟨_, _, hg⟩ |
    ⟨_, v, _, hv, hc, t, hg, hcm, _, _, _, _, _, _, c7, _, _⟩
  · left
    have hid : ∀ j, ((hit_state s i).bh (some j)).b_dev = (s.bh (some j)).b_dev ∧
        ((hit_state s i).bh (some j)).b_blocknr = (s.bh (some j)).b_blocknr :=
      fun j => ⟨((hit_flag s i).2.2.2.2 j).1, ((hit_flag s i).2.2.2.2 j).2.1⟩
    exact ⟨_, _, hg, fun j _ => hid j, fun j hj => absurd (hid j) hj⟩
  · right
    exact ⟨_, hg, fun j => rfl⟩
  · left
    obtain ⟨p1, _, p3, _, _⟩ := getblk_prep_spec E s v
    have hid : ∀ j, j ≠ v → (t.bh (some j)).b_dev = (s.bh (some j)).b_dev ∧
        (t.bh (some j)).b_blocknr = (s.bh (some j)).b_blocknr := by
      intro j hj
      obtain ⟨e1, e2⟩ := core_ident (c7 j hj)
      rw [e1, e2]
      exact ⟨(p1.2.2.2.2 j).1, (p1.2.2.2.2 j).2.1⟩
    refine ⟨t, some v, hg, ?_, ?_⟩
    · intro j hj
      apply hid
      rintro rfl
      rw [hc] at hj
      exact absurd hj (by decide)
    · intro j hj
      have hjv : j = v := by
        by_contra hne
        exact hj (hid j hne)
      subst hjv
      exact ⟨rfl, hc, getblk_prep E s j, hcm, by rw [(p3 j).1, hc],
        (p1.2.2.2.2 j).1, (p1.2.2.2.2 j).2.1⟩

/-- C2, for `getblk(2, 9)` on a pool whose slot 0 is held for `(1, 5)`. -/
theorem C2_no_evict_while_referenced_witness :
    WF pool_one ∧ pool_one.NR_BUFFERS < 4 ∧
    ((∃ t r, getblk Env.quiet 4 pool_one 2 9 = Res.ok t r ∧
      (∀ j, 0 < (pool_one.bh (some j)).b_count →
        (t.bh (some j)).b_dev = (pool_one.bh (some j)).b_dev ∧
        (t.bh (some j)).b_blocknr = (pool_one.bh (some j)).b_blocknr) ∧
      (∀ j, ¬ ((t.bh (some j)).b_dev = (pool_one.bh (some j)).b_dev ∧
          (t.bh (some j)).b_blocknr = (pool_one.bh (some j)).b_blocknr) →
        r = some j ∧ (pool_one.bh (some j)).b_count = 0 ∧
        ∃ p, getblk_commit p (some j) 2 9 = Res.ok t r ∧ (p.bh (some j)).b_count = 0 ∧
          (p.bh (some j)).b_dev = (pool_one.bh (some j)).b_dev ∧
          (p.bh (some j)).b_blocknr = (pool_one.bh (some j)).b_blocknr)) ∨
    (∃ t, getblk Env.quiet 4 pool_one 2 9 = Res.sleeping t ∧
      ∀ j, t.bh (some j) = pool_one.bh (some j))) :=
  ⟨(reachable_inv Env.quiet 3 (by decide) pool_one_reach).1, by decide,
    C2_no_evict_while_referenced Env.quiet pool_one 2 9 4
      (reachable_inv Env.quiet 3 (by decide) pool_one_reach).1 (by decide)⟩

theorem single_dirty_reach : Reachable Env.quiet 1 single_dirty := by
  unfold single_dirty
  cases hb : brelse (((getblk Env.quiet 3 (buffer_init 1) 1 5).state (buffer_init 1)).upd 0
      (fun b => { b with b_data := [7], b_dirt := true })) (some 0) with
  | ok t u =>
    exact Reachable.brelse _ t _ (Reachable.modify _ 0 [7]
      (reachable_getblk Env.quiet 1 Reachable.init 3 (by decide) 1 5)) hb
  | sleeping t =>
    exfalso
    simp only [brelse] at hb
    split at hb <;> exact absurd hb (by simp)
  | panic m => exact Reachable.init
  | timeout => exact Reachable.init

/-- C3. Dirty write-back before reuse: when `getblk(dev, block)` misses in a
well-formed cache and its scan picks the dirty slot `v`, then `getblk` is the
commit of `v` in the state `p` reached by waiting for `v`, calling
`sync_dev` on the device of `v` and waiting again; in `p` the slot still has
its old identity and is not dirty, the log of `p` extends the log before the
call by requests among which is a `WRITE` of `v` under its old identity and
with its data, and the commit, which logs nothing, rebinds `v` to
`(dev, block)`. -/
theorem C3_dirty_write_back (E : Env) (s : State) (dev block : Int) (k v : Nat)
    (hW : WF s) (hk : s.NR_BUFFERS < k)
    (hmiss : find_buffer k s dev block = some none)
    (hscan : scan s k s.free_list none = some (some v))
    (hdirt : (s.bh (some v)).b_dirt = true) :
    getblk E k s dev block =
      getblk_commit (wait_on_buffer (sync_dev E (wait_on_buffer s (some v))
        (s.bh (some v)).b_dev).1 (some v)) (some v) dev block ∧
    ((wait_on_buffer (sync_dev E (wait_on_buffer s (some v))
        (s.bh (some v)).b_dev).1 (some v)).bh (some v)).b_dirt = false ∧
    ((wait_on_buffer (sync_dev E (wait_on_buffer s (some v))
        (s.bh (some v)).b_dev).1 (some v)).bh (some v)).b_dev = (s.bh (some v)).b_dev ∧
    ((wait_on_buffer (sync_dev E (wait_on_buffer s (some v))
        (s.bh (some v)).b_dev).1 (some v)).bh (some v)).b_blocknr = (s.bh (some v)).b_blocknr ∧
    (∃ q rest, (wait_on_buffer (sync_dev E (wait_on_buffer s (some v))
        (s.bh (some v)).b_dev).1 (some v)).io_log = s.io_log ++ rest ∧ q ∈ rest ∧
      q.rw = Rw.WRITE ∧ q.bh = some v ∧ q.head.b_dev = (s.bh (some v)).b_dev ∧
      q.head.b_blocknr = (s.bh (some v)).b_blocknr ∧ q.head.b_data = (s.bh (some v)).b_data ∧
      q.head.b_dirt = true) ∧
    ∃ t, getblk E k s dev block = Res.ok t (some v) ∧
      t.io_log = (wait_on_buffer (sync_dev E (wait_on_buffer s (some v))
        (s.bh (some v)).b_dev).1 (some v)).io_log ∧
      (t.bh (some v)).b_dev = dev ∧ (t.bh (some v)).b_blocknr = block ∧
      (t.bh (some v)).b_dirt = false := by
  obtain ⟨L, C, hF, hH⟩ := hW
  have hpick : pick s L none = some v := by
    rw [scan_free hF hk] at hscan
    exact Option.some.inj hscan
  have hwb := wait_bh s v
  have hwd : ((wait_on_buffer s (some v)).bh (some v)).b_dirt = true := by
    rw [hwb v, if_pos rfl]; exact hdirt
  have hwdev : ((wait_on_buffer s (some v)).bh (some v)).b_dev = (s.bh (some v)).b_dev := by
    rw [hwb v, if_pos rfl]
  have hprep : getblk_prep E s v = wait_on_buffer (sync_dev E (wait_on_buffer s (some v))
      (s.bh (some v)).b_dev).1 (some v) := by
    unfold getblk_prep
    simp only [hwd, if_true, hwdev]
  rw [← hprep]
  obtain ⟨p1, _, p3, p4, _⟩ := getblk_prep_spec E s v
  rcases getblk_cases E dev block hF hH hk with ⟨i, _, _, _, _, hf, _⟩ | ⟨_, hp, _⟩ |
    ⟨_, v', hp, hv, _, t, hg, hcm, _, _, _, _, c5, _, _, c8, _⟩
  · rw [hmiss] at hf; exact absurd hf (by simp)
  · rw [hpick] at hp; exact absurd hp (by simp)
  · rw [hpick] at hp
    have hvv : v = v' := Option.some.inj hp
    subst hvv
    simp only [buffer_head.core, Prod.mk.injEq] at c8
    refine ⟨hg.trans hcm.symm, p4, (p1.2.2.2.2 v).1, (p1.2.2.2.2 v).2.1, ?_,
      t, hg, c5, c8.2.2.1, c8.2.1, c8.2.2.2.2.1⟩
    -- the requests of `sync_dev`
    obtain ⟨_, _, _, f3, _⟩ := sync_dev_spec E (wait_on_buffer s (some v)) (s.bh (some v)).b_dev
    have hlen : (wait_on_buffer s (some v)).bufs.length = s.bufs.length := (wait_flag s v).1
    have hlog : (wait_on_buffer s (some v)).io_log = s.io_log := by rw [wait_eq_upd]; rfl
    have hpl : (getblk_prep E s v).io_log =
        (sync_dev E (wait_on_buffer s (some v)) (s.bh (some v)).b_dev).1.io_log := by
      rw [hprep, wait_eq_upd]; rfl
    refine ⟨Request.mk Rw.WRITE (some v)
        ({ (wait_on_buffer s (some v)).bh (some v) with b_lock := false }),
      sync_reqs (wait_on_buffer s (some v)) (s.bh (some v)).b_dev
          (wait_on_buffer s (some v)).bufs.length ++
        sync_reqs (sync_inodes E (sync_pass E (s.bh (some v)).b_dev (wait_on_buffer s (some v))))
          (s.bh (some v)).b_dev (wait_on_buffer s (some v)).bufs.length, ?_, ?_,
      rfl, rfl, ?_, ?_, ?_, ?_⟩
    · rw [hpl, f3, hlog, List.append_assoc]
    · refine List.mem_append_left _ (sync_reqs_of ?_ hwdev hwd)
      rw [hlen]; exact hv
    · exact hwdev
    · show ((wait_on_buffer s (some v)).bh (some v)).b_blocknr = _
      rw [hwb v, if_pos rfl]
    · show ((wait_on_buffer s (some v)).bh (some v)).b_data = _
      rw [hwb v, if_pos rfl]
    · exact hwd

/-- C3, for `getblk(2, 9)` on `single_dirty`, a pool of one slot that is
bound to `(1, 5)`, dirty and free. -/
theorem C3_dirty_write_back_witness :
    WF single_dirty ∧ single_dirty.NR_BUFFERS < 3 ∧
      find_buffer 3 single_dirty 2 9 = some none ∧
      scan single_dirty 3 single_dirty.free_list none = some (some 0) ∧
      (single_dirty.bh (some 0)).b_dirt = true ∧
      ∃ t, getblk Env.quiet 3 single_dirty 2 9 = Res.ok t (some 0) ∧
        t.io_log = (wait_on_buffer (sync_dev Env.quiet (wait_on_buffer single_dirty (some 0))
          (single_dirty.bh (some 0)).b_dev).1 (some 0)).io_log ∧
        (t.bh (some 0)).b_dev = 2 ∧ (t.bh (some 0)).b_blocknr = 9 ∧
        (t.bh (some 0)).b_dirt = false :=
  ⟨(reachable_inv Env.quiet 1 (by decide) single_dirty_reach).1, by decide, by decide, by decide,
    by decide,
    (C3_dirty_write_back Env.quiet single_dirty 2 9 3 0
      (reachable_inv Env.quiet 1 (by decide) single_dirty_reach).1 (by decide) (by decide)
      (by decide) (by decide)).2.2.2.2.2⟩

/-- C4. In a well-formed cache, with enough budget, `getblk(dev, block)`
returns a slot or sleeps on `buffer_wait`, and it sleeps only when the pair
is not cached and every slot is referenced. The slot returned has
`b_dev = dev`, `b_blocknr = block` and `b_count ≥ 1`; when the pair was not
cached before the call the slot has `b_count = 1`, is neither dirty nor up to
date, `find_buffer` no longer returns it for its old identity and, for
`dev ≠ 0`, `find_buffer(dev, block)` now returns it. -/
theorem C4_getblk_result (E : Env) (s : State) (dev block : Int) (k : Nat)
    (hW : WF s) (hk : s.NR_BUFFERS < k) :
    (∃ t i, getblk E k s dev block = Res.ok t (some i) ∧ i < t.NR_BUFFERS ∧
      (t.bh (some i)).b_dev = dev ∧ (t.bh (some i)).b_blocknr = block ∧
      1 ≤ (t.bh (some i)).b_count ∧
      (find_buffer k s dev block = some none →
        (t.bh (some i)).b_count = 1 ∧ (t.bh (some i)).b_dirt = false ∧
        (t.bh (some i)).b_uptodate = false ∧
        find_buffer k t (s.bh (some i)).b_dev (s.bh (some i)).b_blocknr ≠ some (some i) ∧
        (dev ≠ 0 → find_buffer k t dev block = some (some i)))) ∨
    (getblk E k s dev block = Res.sleeping { s with buffer_wait := true } ∧
      find_buffer k s dev block = some none ∧
      ∀ j, j < s.NR_BUFFERS → (s.bh (some j)).b_count ≠ 0) := by
  obtain ⟨L, C, hF, hH⟩ := hW
  rcases getblk_cases E dev block hF hH hk with ⟨i, hi, hd, hb, _, hf, hg⟩ | ⟨hf, hp, hg⟩ |
    ⟨hf, v, _, hv, hc, t, hg, _, _, c2, c3, _, _, _, _, c8, _⟩
  · left
    refine ⟨_, i, hg, ?_, ?_, ?_, ?_, ?_⟩
    · show i < (hit_state s i).bufs.length
      rw [(hit_flag s i).1]; exact hi
    · rw [hit_bh s i i hi, if_pos rfl]; exact hd
    · rw [hit_bh s i i hi, if_pos rfl]; exact hb
    · rw [hit_bh s i i hi, if_pos rfl]; exact Nat.le_add_left 1 _
    · intro hc; rw [hf] at hc; exact absurd hc (by simp)
  · right
    refine ⟨hg, hf, ?_⟩
    intro j hj
    exact pick_none.1 hp j ((hF.2.1 j).2 hj)
  · left
    simp only [buffer_head.core, Prod.mk.injEq] at c8
    obtain ⟨_, e2, e3, e4, e5, e6, _⟩ := c8
    have hkt : t.bufs.length < k := by rw [c3]; exact hk
    refine ⟨t, v, hg, by show v < t.bufs.length; rw [c3]; exact hv, e3, e2,
      by rw [e6], fun _ => ⟨e6, e5, e4, ?_, ?_⟩⟩
    · intro hfind
      obtain ⟨_, a2, a3, a4⟩ := find_buffer_some c2 hkt hfind
      rw [e3] at a2
      rw [e2] at a3
      rcases (find_buffer_none hH hk).1 hf with h0 | hall
      · exact a4 (a2 ▸ h0)
      · exact hall v hv ⟨a2.symm, a3.symm⟩
    · intro hd
      rw [find_buffer_spec c2 dev block hkt]
      simp only [ne_eq, hd, not_false_eq_true, true_and, if_true, List.find?_cons]
      have : t.bound dev block v = true := by
        simp only [State.bound, decide_eq_true_eq]
        exact ⟨e3, e2⟩
      rw [this]

/-- C4, for `getblk(2, 9)` on a pool whose slot 0 is held for `(1, 5)`. -/
theorem C4_getblk_result_witness :
    WF pool_one ∧ pool_one.NR_BUFFERS < 4 ∧
    ((∃ t i, getblk Env.quiet 4 pool_one 2 9 = Res.ok t (some i) ∧ i < t.NR_BUFFERS ∧
      (t.bh (some i)).b_dev = 2 ∧ (t.bh (some i)).b_blocknr = 9 ∧
      1 ≤ (t.bh (some i)).b_count ∧
      (find_buffer 4 pool_one 2 9 = some none →
        (t.bh (some i)).b_count = 1 ∧ (t.bh (some i)).b_dirt = false ∧
        (t.bh (some i)).b_uptodate = false ∧
        find_buffer 4 t (pool_one.bh (some i)).b_dev (pool_one.bh (some i)).b_blocknr ≠
          some (some i) ∧
        ((2 : Int) ≠ 0 → find_buffer 4 t 2 9 = some (some i)))) ∨
    (getblk Env.quiet 4 pool_one 2 9 = Res.sleeping { pool_one with buffer_wait := true } ∧
      find_buffer 4 pool_one 2 9 = some none ∧
      ∀ j, j < pool_one.NR_BUFFERS → (pool_one.bh (some j)).b_count ≠ 0)) :=
  ⟨(reachable_inv Env.quiet 3 (by decide) pool_one_reach).1, by decide,
    C4_getblk_result Env.quiet pool_one 2 9 4
      (reachable_inv Env.quiet 3 (by decide) pool_one_reach).1 (by decide)⟩

theorem upd_congr (s : State) (i : Nat) {f g : buffer_head → buffer_head}
    (h : f (s.bh (some i)) = g (s.bh (some i))) : s.upd i f = s.upd i g := by
  simp only [State.bh] at h
  simp only [State.upd, h]

theorem getblk_hit_unlocked (E : Env) {s : State} {dev block : Int} {k i : Nat}
    (hW : WF s) (hU : Unique s) (hk : s.bufs.length < k) (hi : i < s.bufs.length)
    (hd : dev ≠ 0) (hb : (s.bh (some i)).b_dev = dev ∧ (s.bh (some i)).b_blocknr = block)
    (hl : (s.bh (some i)).b_lock = false) :
    getblk E k s dev block =
      Res.ok (s.upd i (fun b => { b with b_count := b.b_count + 1 })) (some i) := by
  obtain ⟨L, C, hF, hH⟩ := hW
  obtain ⟨k, rfl⟩ : ∃ k', k = k' + 1 := ⟨k - 1, by omega⟩
  have hf := find_buffer_hit hH hU hk hi hd hb
  rw [getblk_hit E hf hi hb]
  unfold hit_state
  rw [upd_congr s i (g := fun b => { b with b_count := b.b_count + 1 })]
  simp only [← hl]

theorem count_flag (s : State) (i c : Nat) :
    FlagStep s (s.upd i (fun b => { b with b_count := b.b_count + c })) :=
  FlagStep_upd s i _ (fun _ => ⟨rfl, rfl, rfl, rfl, rfl, rfl⟩)

theorem repeat_getblk_hit (E : Env) {s : State} {dev block : Int} {k i : Nat}
    (hW : WF s) (hU : Unique s) (hk : s.bufs.length < k) (hi : i < s.bufs.length)
    (hd : dev ≠ 0) (hb : (s.bh (some i)).b_dev = dev ∧ (s.bh (some i)).b_blocknr = block)
    (hl : (s.bh (some i)).b_lock = false) (m : Nat) :
    repeat_getblk E k dev block (m + 1) s =
      Res.ok (s.upd i (fun b => { b with b_count := b.b_count + (m + 1) })) (some i) := by
  induction m with
  | zero =>
    simp only [repeat_getblk]
    exact getblk_hit_unlocked E hW hU hk hi hd hb hl
  | succ m ih =>
    rw [repeat_getblk, ih]
    simp only []
    have hfs := count_flag s i (m + 1)
    have hbh : (s.upd i (fun b => { b with b_count := b.b_count + (m + 1) })).bh (some i) =
        { s.bh (some i) with b_count := (s.bh (some i)).b_count + (m + 1) } := bh_upd_same _ _ hi
    rw [getblk_hit_unlocked E (hfs.wf hW) (hfs.unique hU) (by rw [hfs.1]; exact hk)
      (by rw [hfs.1]; exact hi) hd (by rw [hbh]; exact hb) (by rw [hbh]; exact hl), upd_upd]
    rfl

/-- C5. Cache hit: in a well-formed cache that binds each pair once, when the
unlocked slot `i` is bound to `(dev, block)` with `dev ≠ 0`, `getblk(dev,
block)` returns slot `i` in the state that differs from the one before only
in the `b_count` of slot `i`, one higher: no request is logged, the data and
the flags of slot `i`, the other slots, the hash table and the recency list
are as before. Hence `m + 1` calls in a row return slot `i` with `b_count`
raised by `m + 1`, and `getblk`, `brelse`, `getblk` returns slot `i` again
with its data unchanged and without any request. -/
theorem C5_cache_hit (E : Env) (s : State) (dev block : Int) (k i : Nat)
    (hW : WF s) (hU : Unique s) (hk : s.NR_BUFFERS < k) (hi : i < s.NR_BUFFERS)
    (hd : dev ≠ 0) (hb : (s.bh (some i)).b_dev = dev ∧ (s.bh (some i)).b_blocknr = block)
    (hl : (s.bh (some i)).b_lock = false) :
    getblk E k s dev block =
      Res.ok (s.upd i (fun b => { b with b_count := b.b_count + 1 })) (some i) ∧
    (s.upd i (fun b => { b with b_count := b.b_count + 1 })).io_log = s.io_log ∧
    (s.upd i (fun b => { b with b_count := b.b_count + 1 })).hash_table = s.hash_table ∧
    (s.upd i (fun b => { b with b_count := b.b_count + 1 })).free_list = s.free_list ∧
    (∀ j, (s.upd i (fun b => { b with b_count := b.b_count + 1 })).bh (some j) =
      if j = i then { s.bh (some i) with b_count := (s.bh (some i)).b_count + 1 }
      else s.bh (some j)) ∧
    (∀ m, repeat_getblk E k dev block (m + 1) s =
      Res.ok (s.upd i (fun b => { b with b_count := b.b_count + (m + 1) })) (some i)) ∧
    ∃ s1 s2 s3, getblk E k s dev block = Res.ok s1 (some i) ∧
      brelse s1 (some i) = Res.ok s2 () ∧ getblk E k s2 dev block = Res.ok s3 (some i) ∧
      (s3.bh (some i)).b_data = (s.bh (some i)).b_data ∧ s3.io_log = s.io_log ∧
      (s3.bh (some i)).b_count = (s.bh (some i)).b_count + 1 := by
  have h1 := getblk_hit_unlocked E hW hU hk hi hd hb hl
  have hbh : ∀ j, (s.upd i (fun b => { b with b_count := b.b_count + 1 })).bh (some j) =
      if j = i then { s.bh (some i) with b_count := (s.bh (some i)).b_count + 1 }
      else s.bh (some j) := by
    intro j
    rw [bh_upd]
    by_cases hji : j = i
    · have hi' : i < s.bufs.length := hi
      simp [hji, hi']
    · simp [hji]
  refine ⟨h1, rfl, rfl, rfl, hbh, repeat_getblk_hit E hW hU hk hi hd hb hl, ?_⟩
  have hfs := count_flag s i 1
  have hi1 : i < (s.upd i (fun b => { b with b_count := b.b_count + 1 })).bufs.length := by
    rw [hfs.1]; exact hi
  have hc1 : ((s.upd i (fun b => { b with b_count := b.b_count + 1 })).bh (some i)).b_count ≠ 0 := by
    rw [hbh i, if_pos rfl]; exact Nat.succ_ne_zero _
  have h2 := brelse_spec _ i hi1 hc1
  have hfr := release_flag (s.upd i (fun b => { b with b_count := b.b_count + 1 })) i
  have hf2 := FlagStep_trans hfs hfr
  have hbh2 : (release_state (s.upd i (fun b => { b with b_count := b.b_count + 1 })) i).bh (some i) =
      s.bh (some i) := by
    show ((s.upd i (fun b => { b with b_count := b.b_count + 1 })).upd i
      (fun b => { b with b_count := b.b_count - 1, b_lock := false })).bh (some i) = _
    rw [bh_upd_same _ _ hi1, hbh i, if_pos rfl]
    cases hs : s.bh (some i)
    simp only [hs] at hl
    simp only [Nat.add_sub_cancel]
    rw [hl]
  have h3 := getblk_hit_unlocked E (hf2.wf hW) (hf2.unique hU) (k := k) (i := i)
    (by rw [hf2.1]; exact hk) (by rw [hf2.1]; exact hi) hd (by rw [hbh2]; exact hb)
    (by rw [hbh2]; exact hl)
  refine ⟨_, _, _, h1, h2, h3, ?_, rfl, ?_⟩
  · rw [bh_upd_same _ _ (by rw [hf2.1]; exact hi), hbh2]
  · rw [bh_upd_same _ _ (by rw [hf2.1]; exact hi), hbh2]

/-- C5, for `getblk(1, 5)` on a pool whose slot 0 is bound to `(1, 5)`. -/
theorem C5_cache_hit_witness :
    WF pool_one ∧ Unique pool_one ∧ pool_one.NR_BUFFERS < 4 ∧ 0 < pool_one.NR_BUFFERS ∧
    (1 : Int) ≠ 0 ∧
    ((pool_one.bh (some 0)).b_dev = 1 ∧ (pool_one.bh (some 0)).b_blocknr = 5) ∧
    (pool_one.bh (some 0)).b_lock = false ∧
    getblk Env.quiet 4 pool_one 1 5 =
      Res.ok (pool_one.upd 0 (fun b => { b with b_count := b.b_count + 1 })) (some 0) ∧
    repeat_getblk Env.quiet 4 1 5 3 pool_one =
      Res.ok (pool_one.upd 0 (fun b => { b with b_count := b.b_count + 3 })) (some 0) :=
  ⟨(reachable_inv Env.quiet 3 (by decide) pool_one_reach).1,
    (reachable_inv Env.quiet 3 (by decide) pool_one_reach).2, by decide, by decide, by decide,
    by decide, by decide,
    (C5_cache_hit Env.quiet pool_one 1 5 4 0
      (reachable_inv Env.quiet 3 (by decide) pool_one_reach).1
      (reachable_inv Env.quiet 3 (by decide) pool_one_reach).2 (by decide) (by decide)
      (by decide) (by decide) (by decide)).1,
    (C5_cache_hit Env.quiet pool_one 1 5 4 0
      (reachable_inv Env.quiet 3 (by decide) pool_one_reach).1
      (reachable_inv Env.quiet 3 (by decide) pool_one_reach).2 (by decide) (by decide)
      (by decide) (by decide) (by decide)).2.2.2.2.2.1 2⟩

/-- C6. `brelse(buf)` panics with "Trying to free free buffer" exactly when
`buf` is not `NULL` and the `b_count` of the slot is 0 after the wait (the
wait does not change it); for a slot of the pool with `b_count = c > 0` it
returns with `b_count = c - 1`, with the device, block number, data, dirty
and up-to-date flags of the slot and every other slot unchanged, and with the
sleepers on `buffer_wait` woken; `brelse(NULL)` changes nothing. -/
theorem C6_brelse (s : State) (buf : Ptr) :
    (∀ msg, brelse s buf = Res.panic msg ↔
      (msg = "Trying to free free buffer" ∧
        ∃ i, buf = some i ∧ ((wait_on_buffer s (some i)).bh (some i)).b_count = 0)) ∧
    (∀ i, ((wait_on_buffer s (some i)).bh (some i)).b_count = (s.bh (some i)).b_count) ∧
    (∀ i, buf = some i → i < s.NR_BUFFERS → 0 < (s.bh (some i)).b_count →
      ∃ t, brelse s buf = Res.ok t () ∧
        (t.bh (some i)).b_count = (s.bh (some i)).b_count - 1 ∧
        (t.bh (some i)).b_dev = (s.bh (some i)).b_dev ∧
        (t.bh (some i)).b_blocknr = (s.bh (some i)).b_blocknr ∧
        (t.bh (some i)).b_data = (s.bh (some i)).b_data ∧
        (t.bh (some i)).b_dirt = (s.bh (some i)).b_dirt ∧
        (t.bh (some i)).b_uptodate = (s.bh (some i)).b_uptodate ∧
        t.buffer_wait = false ∧
        (∀ j, j ≠ i → t.bh (some j) = s.bh (some j)) ∧
        t.hash_table = s.hash_table ∧ t.free_list = s.free_list ∧ t.io_log = s.io_log) ∧
    (buf = none → brelse s buf = Res.ok s ()) := by
  have hcnt : ∀ i, ((wait_on_buffer s (some i)).bh (some i)).b_count = (s.bh (some i)).b_count := by
    intro i; rw [wait_bh, if_pos rfl]
  refine ⟨?_, hcnt, ?_, ?_⟩
  · intro msg
    cases buf with
    | none =>
      simp only [brelse]
      constructor
      · intro h; exact absurd h (by simp)
      · rintro ⟨_, i, hi, _⟩; exact absurd hi (by simp)
    | some i =>
      simp only [brelse]
      by_cases hc : ((wait_on_buffer s (some i)).bh (some i)).b_count = 0
      · rw [if_pos hc]
        constructor
        · intro h
          injection h with h1
          exact ⟨h1.symm, i, rfl, hc⟩
        · rintro ⟨hm, _⟩
          rw [hm]
      · rw [if_neg hc]
        constructor
        · intro h; exact absurd h (by simp)
        · rintro ⟨_, j, hj, hcj⟩
          have : i = j := Option.some.inj hj
          subst this
          exact absurd hcj hc
  · intro i hb hi hc
    subst hb
    have hi' : i < s.bufs.length := hi
    refine ⟨release_state s i, brelse_spec s i hi' (Nat.pos_iff_ne_zero.1 hc), ?_⟩
    have hbh : ∀ j, (release_state s i).bh (some j) =
        if j = i then { s.bh (some i) with b_count := (s.bh (some i)).b_count - 1, b_lock := false }
        else s.bh (some j) := by
      intro j
      show (s.upd i (fun b => { b with b_count := b.b_count - 1, b_lock := false })).bh (some j) = _
      rw [bh_upd]
      by_cases hji : j = i
      · simp [hji, hi']
      · simp [hji]
    refine ⟨?_, ?_, ?_, ?_, ?_, ?_, rfl, ?_, rfl, rfl, rfl⟩
    · rw [hbh i, if_pos rfl]
    · rw [hbh i, if_pos rfl]
    · rw [hbh i, if_pos rfl]
    · rw [hbh i, if_pos rfl]
    · rw [hbh i, if_pos rfl]
    · rw [hbh i, if_pos rfl]
    · intro j hj; rw [hbh j, if_neg hj]
  · intro hb
    subst hb
    rfl

/-- C6, on a pool whose slot 0 is held once and whose slot 1 is free:
releasing slot 1 panics, releasing slot 0 succeeds. -/
theorem C6_brelse_witness :
    brelse pool_one (some 1) = Res.panic "Trying to free free buffer" ∧
    ∃ t, brelse pool_one (some 0) = Res.ok t () ∧
      (t.bh (some 0)).b_count = (pool_one.bh (some 0)).b_count - 1 ∧
      (t.bh (some 0)).b_dev = (pool_one.bh (some 0)).b_dev ∧
      (t.bh (some 0)).b_blocknr = (pool_one.bh (some 0)).b_blocknr ∧
      (t.bh (some 0)).b_data = (pool_one.bh (some 0)).b_data ∧
      (t.bh (some 0)).b_dirt = (pool_one.bh (some 0)).b_dirt ∧
      (t.bh (some 0)).b_uptodate = (pool_one.bh (some 0)).b_uptodate ∧
      t.buffer_wait = false ∧
      (∀ j, j ≠ 0 → t.bh (some j) = pool_one.bh (some j)) ∧
      t.hash_table = pool_one.hash_table ∧ t.free_list = pool_one.free_list ∧
      t.io_log = pool_one.io_log :=
  ⟨((C6_brelse pool_one (some 1)).1 "Trying to free free buffer").2
      ⟨rfl, 1, rfl, by decide⟩,
    (C6_brelse pool_one (some 0)).2.2.1 0 rfl (by decide) (by decide)⟩

theorem getblk_prep_log (E : Env) (s : State) (v : Nat) :
    ∃ ws, (getblk_prep E s v).io_log = s.io_log ++ ws ∧ ∀ q ∈ ws, q.rw = Rw.WRITE := by
  unfold getblk_prep
  have hlog : (wait_on_buffer s (some v)).io_log = s.io_log := by rw [wait_eq_upd]; rfl
  by_cases hd : ((wait_on_buffer s (some v)).bh (some v)).b_dirt = true
  · rw [if_pos hd]
    obtain ⟨_, _, _, f3, _⟩ := sync_dev_spec E (wait_on_buffer s (some v))
      ((wait_on_buffer s (some v)).bh (some v)).b_dev
    refine ⟨sync_reqs (wait_on_buffer s (some v)) ((wait_on_buffer s (some v)).bh (some v)).b_dev
          (wait_on_buffer s (some v)).bufs.length ++
        sync_reqs (sync_inodes E (sync_pass E ((wait_on_buffer s (some v)).bh (some v)).b_dev
          (wait_on_buffer s (some v))))
          ((wait_on_buffer s (some v)).bh (some v)).b_dev (wait_on_buffer s (some v)).bufs.length,
        ?_, ?_⟩
    · rw [wait_eq_upd]
      show (sync_dev E (wait_on_buffer s (some v)) _).1.io_log = _
      rw [f3, hlog, List.append_assoc]
    · intro q hq
      rcases List.mem_append.1 hq with h | h
      · obtain ⟨i, _, hqi, _⟩ := sync_reqs_mem h
        rw [hqi]
      · obtain ⟨i, _, hqi, _⟩ := sync_reqs_mem h
        rw [hqi]
  · rw [if_neg hd]
    exact ⟨[], by rw [hlog]; simp, fun q hq => absurd hq (by simp)⟩

/-- C7. In a well-formed cache, with enough budget, `bread(dev, block)`
sleeps when `getblk` sleeps; otherwise `getblk` returns a slot `i`, having
logged only `WRITE` requests. If slot `i` is then up to date `bread` returns
it and logs nothing (`getblk` logged nothing either). If not, `bread` logs
one `READ` of slot `i` and nothing else; when the device succeeds it returns
slot `i`, now up to date; when the device fails it returns `NULL` with the
slot released, its `b_count` as before the call, and the log shows the one
`READ` only. -/
theorem C7_bread (E : Env) (s : State) (dev block : Int) (k : Nat)
    (hW : WF s) (hk : s.NR_BUFFERS < k) :
    (∃ s1 i ws, getblk E k s dev block = Res.ok s1 (some i) ∧
      s1.io_log = s.io_log ++ ws ∧ (∀ q ∈ ws, q.rw = Rw.WRITE) ∧
      ((s1.bh (some i)).b_uptodate = true →
        bread E k s dev block = Res.ok s1 (some i) ∧ s1.io_log = s.io_log) ∧
      ((s1.bh (some i)).b_uptodate = false →
        (E.read_ok dev block = true →
          ∃ t, bread E k s dev block = Res.ok t (some i) ∧
            (t.bh (some i)).b_uptodate = true ∧
            t.io_log = s1.io_log ++ [{ rw := Rw.READ, bh := some i, head := s1.bh (some i) }]) ∧
        (E.read_ok dev block = false →
          ∃ t, bread E k s dev block = Res.ok t none ∧
            (t.bh (some i)).b_uptodate = false ∧
            (t.bh (some i)).b_count = (s.bh (some i)).b_count ∧
            t.io_log = s1.io_log ++ [{ rw := Rw.READ, bh := some i, head := s1.bh (some i) }]))) ∨
    (∃ t, getblk E k s dev block = Res.sleeping t ∧ bread E k s dev block = Res.sleeping t) := by
  obtain ⟨L, C, hF, hH⟩ := hW
  have hW : WF s := ⟨L, C, hF, hH⟩
  have hcases := getblk_cases E dev block hF hH hk
  cases hg : getblk E k s dev block with
  | sleeping t =>
    right
    exact ⟨t, rfl, by unfold bread; rw [hg]⟩
  | panic m =>
    exfalso
    rcases hcases with ⟨i, _, _, _, _, _, h⟩ | ⟨_, _, h⟩ | ⟨_, v, _, _, _, t, h, _⟩ <;>
      rw [hg] at h <;> exact absurd h (by simp)
  | timeout =>
    exfalso
    rcases hcases with ⟨i, _, _, _, _, _, h⟩ | ⟨_, _, h⟩ | ⟨_, v, _, _, _, t, h, _⟩ <;>
      rw [hg] at h <;> exact absurd h (by simp)
  | ok s1 r =>
    left
    obtain ⟨i, hr, hi, hlen, hd, hb, hcnt⟩ := getblk_ok E dev block hW hk hg
    subst hr
    have hi1 : i < s1.bufs.length := by rw [hlen]; exact hi
    -- the log of `getblk`, and the flag after a miss
    have hlog : ∃ ws, s1.io_log = s.io_log ++ ws ∧ (∀ q ∈ ws, q.rw = Rw.WRITE) ∧
        ((s1.bh (some i)).b_uptodate = true → s1.io_log = s.io_log) := by
      rcases hcases with ⟨i', _, _, _, _, _, h⟩ | ⟨_, _, h⟩ |
        ⟨_, v, _, _, _, t, h, _, _, _, _, _, c5, _, _, c8, _⟩
      · rw [hg] at h
        injection h with h1 h2
        subst h1
        exact ⟨[], by simp; rfl, fun q hq => absurd hq (by simp), fun _ => rfl⟩
      · rw [hg] at h; exact absurd h (by simp)
      · rw [hg] at h
        injection h with h1 h2
        subst h1
        have hiv : i = v := Option.some.inj h2
        subst hiv
        obtain ⟨ws, hws, hw⟩ := getblk_prep_log E s i
        simp only [buffer_head.core, Prod.mk.injEq] at c8
        refine ⟨ws, by rw [c5, hws], hw, ?_⟩
        intro hu
        rw [c8.2.2.2.1] at hu
        exact absurd hu (by simp)
    obtain ⟨ws, hws, hw, hup⟩ := hlog
    refine ⟨s1, i, ws, rfl, hws, hw, ?_, ?_⟩
    · intro hu
      refine ⟨?_, hup hu⟩
      unfold bread
      rw [hg]
      simp only [hu, if_true]
    · intro hu
      obtain ⟨r1, _, _, _, _, _, r7, r8⟩ := ll_rw_block_read E Rw.READ s1 i (by simp) hi1
      have hnu : ¬ (s1.bh (some i)).b_uptodate = true := by rw [hu]; simp
      have hbread : bread E k s dev block =
          if ((wait_on_buffer (ll_rw_block E Rw.READ s1 (some i)) (some i)).bh (some i)).b_uptodate
              = true then
            Res.ok (wait_on_buffer (ll_rw_block E Rw.READ s1 (some i)) (some i)) (some i)
          else
            match brelse (wait_on_buffer (ll_rw_block E Rw.READ s1 (some i)) (some i)) (some i) with
            | Res.ok s4 _ => Res.ok s4 none
            | Res.sleeping t => Res.sleeping t
            | Res.panic m => Res.panic m
            | Res.timeout => Res.timeout := by
        unfold bread
        rw [hg]
        simp only [if_neg hnu]
      have hwlog : (wait_on_buffer (ll_rw_block E Rw.READ s1 (some i)) (some i)).io_log =
          s1.io_log ++ [{ rw := Rw.READ, bh := some i, head := s1.bh (some i) }] := by
        rw [wait_eq_upd]
        exact r7
      have hwbh := wait_bh (ll_rw_block E Rw.READ s1 (some i)) i i
      rw [if_pos rfl, r8 i, if_pos ⟨rfl, hu⟩, hd, hb] at hwbh
      constructor
      · intro hok
        rw [if_pos hok] at hwbh
        have hu3 : ((wait_on_buffer (ll_rw_block E Rw.READ s1 (some i)) (some i)).bh
            (some i)).b_uptodate = true := by rw [hwbh]
        exact ⟨_, by rw [hbread, if_pos hu3], hu3, hwlog⟩
      · intro hfail
        have hnok : ¬ E.read_ok dev block = true := by rw [hfail]; simp
        rw [if_neg hnok] at hwbh
        have hu3 : ¬ ((wait_on_buffer (ll_rw_block E Rw.READ s1 (some i)) (some i)).bh
            (some i)).b_uptodate = true := by rw [hwbh]; simpa using hu
        have hc3 : ((wait_on_buffer (ll_rw_block E Rw.READ s1 (some i)) (some i)).bh
            (some i)).b_count ≠ 0 := by
          rw [hwbh]
          show (s1.bh (some i)).b_count ≠ 0
          rw [hcnt]; exact Nat.succ_ne_zero _
        have hi3 : i < (wait_on_buffer (ll_rw_block E Rw.READ s1 (some i)) (some i)).bufs.length := by
          rw [(wait_flag _ i).1, r1]; exact hi1
        have hbr := brelse_spec _ i hi3 hc3
        generalize wait_on_buffer (ll_rw_block E Rw.READ s1 (some i)) (some i) = s3 at *
        have hrel : (release_state s3 i).bh (some i) =
            { s3.bh (some i) with b_count := (s3.bh (some i)).b_count - 1, b_lock := false } := by
          exact bh_upd_same s3 (fun b => { b with b_count := b.b_count - 1, b_lock := false }) hi3
        refine ⟨release_state s3 i, by rw [hbread, if_neg hu3, hbr], ?_, ?_, hwlog⟩
        · rw [hrel, hwbh]; exact hu
        · rw [hrel, hwbh]
          show (s1.bh (some i)).b_count - 1 = _
          rw [hcnt]; rfl

/-- C7, for `bread(2, 9)` on a pool whose slot 0 is held for `(1, 5)`. -/
theorem C7_bread_witness :
    WF pool_one ∧ pool_one.NR_BUFFERS < 4 ∧
    ((∃ s1 i ws, getblk Env.quiet 4 pool_one 2 9 = Res.ok s1 (some i) ∧
      s1.io_log = pool_one.io_log ++ ws ∧ (∀ q ∈ ws, q.rw = Rw.WRITE) ∧
      ((s1.bh (some i)).b_uptodate = true →
        bread Env.quiet 4 pool_one 2 9 = Res.ok s1 (some i) ∧ s1.io_log = pool_one.io_log) ∧
      ((s1.bh (some i)).b_uptodate = false →
        (Env.quiet.read_ok 2 9 = true →
          ∃ t, bread Env.quiet 4 pool_one 2 9 = Res.ok t (some i) ∧
            (t.bh (some i)).b_uptodate = true ∧
            t.io_log = s1.io_log ++ [{ rw := Rw.READ, bh := some i, head := s1.bh (some i) }]) ∧
        (Env.quiet.read_ok 2 9 = false →
          ∃ t, bread Env.quiet 4 pool_one 2 9 = Res.ok t none ∧
            (t.bh (some i)).b_uptodate = false ∧
            (t.bh (some i)).b_count = (pool_one.bh (some i)).b_count ∧
            t.io_log = s1.io_log ++ [{ rw := Rw.READ, bh := some i, head := s1.bh (some i) }]))) ∨
    (∃ t, getblk Env.quiet 4 pool_one 2 9 = Res.sleeping t ∧
      bread Env.quiet 4 pool_one 2 9 = Res.sleeping t)) :=
  ⟨(reachable_inv Env.quiet 3 (by decide) pool_one_reach).1, by decide,
    C7_bread Env.quiet pool_one 2 9 4
      (reachable_inv Env.quiet 3 (by decide) pool_one_reach).1 (by decide)⟩

theorem inval_slot_idem (dev : Int) (b : buffer_head) :
    inval_slot dev (inval_slot dev b) = inval_slot dev b := by
  unfold inval_slot
  by_cases h : b.b_dev = dev
  · simp only [if_pos h]
  · simp only [if_neg h]

theorem inval_slot_fields (dev : Int) (b : buffer_head) :
    (inval_slot dev b).b_dev = b.b_dev ∧ (inval_slot dev b).b_blocknr = b.b_blocknr ∧
    (inval_slot dev b).b_count = b.b_count ∧ (inval_slot dev b).b_data = b.b_data ∧
    (inval_slot dev b).b_prev = b.b_prev ∧ (inval_slot dev b).b_next = b.b_next ∧
    (inval_slot dev b).b_prev_free = b.b_prev_free ∧
    (inval_slot dev b).b_next_free = b.b_next_free := by
  unfold inval_slot
  split <;> exact ⟨rfl, rfl, rfl, rfl, rfl, rfl, rfl, rfl⟩

/-- C8. In a cache state where no slot is locked, `invalidate_buffers(d)`
run twice in a row ends in exactly the state one run ends in; in that state
every slot of the pool with `b_dev = d` has `b_uptodate` and `b_dirt` clear,
and still no slot is locked. -/
theorem C8_invalidate_idempotent (s : State) (d : Int)
    (hl : ∀ j, j < s.NR_BUFFERS → (s.bh (some j)).b_lock = false) :
    invalidate_buffers (invalidate_buffers s d) d = invalidate_buffers s d ∧
    (∀ j, j < s.NR_BUFFERS → ((invalidate_buffers s d).bh (some j)).b_dev = d →
      ((invalidate_buffers s d).bh (some j)).b_uptodate = false ∧
      ((invalidate_buffers s d).bh (some j)).b_dirt = false) ∧
    (∀ j, j < s.NR_BUFFERS → ((invalidate_buffers s d).bh (some j)).b_lock = false) := by
  obtain ⟨a1, a2, a3, a4, a5, a6, a7, a8⟩ := invalidate_buffers_spec s d
  obtain ⟨b1, b2, b3, b4, b5, b6, b7, b8⟩ := invalidate_buffers_spec (invalidate_buffers s d) d
  refine ⟨?_, ?_, ?_⟩
  · refine State.ext_bh b1 ?_ b2 b3 b4 b5 b6 b7
    intro j _
    rw [b8 j, a8 j, inval_slot_idem]
  · intro j _ hd
    rw [a8 j] at hd ⊢
    rw [(inval_slot_fields d (s.bh (some j))).1] at hd
    unfold inval_slot
    rw [if_pos hd]
    exact ⟨rfl, rfl⟩
  · intro j hj
    rw [a8 j]
    unfold inval_slot
    by_cases hd : (s.bh (some j)).b_dev = d
    · rw [if_pos hd]
    · rw [if_neg hd]; exact hl j hj

/-- C8, on the pool whose slot 0 is bound to `(1, 5)`, written to and
released, for device 1. -/
theorem C8_invalidate_idempotent_witness :
    (∀ j, j < pool_dirty.NR_BUFFERS → (pool_dirty.bh (some j)).b_lock = false) ∧
    (invalidate_buffers (invalidate_buffers pool_dirty 1) 1 = invalidate_buffers pool_dirty 1 ∧
    (∀ j, j < pool_dirty.NR_BUFFERS → ((invalidate_buffers pool_dirty 1).bh (some j)).b_dev = 1 →
      ((invalidate_buffers pool_dirty 1).bh (some j)).b_uptodate = false ∧
      ((invalidate_buffers pool_dirty 1).bh (some j)).b_dirt = false) ∧
    (∀ j, j < pool_dirty.NR_BUFFERS →
      ((invalidate_buffers pool_dirty 1).bh (some j)).b_lock = false)) :=
  ⟨by decide, C8_invalidate_idempotent pool_dirty 1 (by decide)⟩

/-- C9. For every cache state and device `d`, `invalidate_buffers(d)` leaves
`b_dev`, `b_blocknr`, `b_count`, the data and the four links of every slot,
the hash table, `free_list`, the wait queue, the request log and the device
contents unchanged; a slot with `b_dev != d` is unchanged in every field; a
slot with `b_dev = d` ends with `b_uptodate` and `b_dirt` clear and, the wait
of line 136 having returned, unlocked, so that an unlocked slot changes in
the two flags only. -/
theorem C9_invalidate_frame (s : State) (d : Int) :
    (invalidate_buffers s d).NR_BUFFERS = s.NR_BUFFERS ∧
    (invalidate_buffers s d).hash_table = s.hash_table ∧
    (invalidate_buffers s d).free_list = s.free_list ∧
    (invalidate_buffers s d).buffer_wait = s.buffer_wait ∧
    (invalidate_buffers s d).io_log = s.io_log ∧
    (invalidate_buffers s d).disk = s.disk ∧
    (∀ j, ((invalidate_buffers s d).bh (some j)).b_dev = (s.bh (some j)).b_dev ∧
      ((invalidate_buffers s d).bh (some j)).b_blocknr = (s.bh (some j)).b_blocknr ∧
      ((invalidate_buffers s d).bh (some j)).b_count = (s.bh (some j)).b_count ∧
      ((invalidate_buffers s d).bh (some j)).b_data = (s.bh (some j)).b_data ∧
      ((invalidate_buffers s d).bh (some j)).b_prev = (s.bh (some j)).b_prev ∧
      ((invalidate_buffers s d).bh (some j)).b_next = (s.bh (some j)).b_next ∧
      ((invalidate_buffers s d).bh (some j)).b_prev_free = (s.bh (some j)).b_prev_free ∧
      ((invalidate_buffers s d).bh (some j)).b_next_free = (s.bh (some j)).b_next_free) ∧
    (∀ j, (s.bh (some j)).b_dev ≠ d → (invalidate_buffers s d).bh (some j) = s.bh (some j)) ∧
    (∀ j, (s.bh (some j)).b_dev = d →
      (invalidate_buffers s d).bh (some j) =
        { s.bh (some j) with b_uptodate := false, b_dirt := false, b_lock := false }) ∧
    (∀ j, (s.bh (some j)).b_dev = d → (s.bh (some j)).b_lock = false →
      (invalidate_buffers s d).bh (some j) =
        { s.bh (some j) with b_uptodate := false, b_dirt := false }) := by
  obtain ⟨a1, a2, a3, a4, a5, a6, a7, a8⟩ := invalidate_buffers_spec s d
  refine ⟨a1, a2, a3, a4, a5, a6, ?_, ?_, ?_, ?_⟩
  · intro j
    rw [a8 j]
    exact inval_slot_fields d (s.bh (some j))
  · intro j hd
    rw [a8 j]
    unfold inval_slot
    rw [if_neg hd]
  · intro j hd
    rw [a8 j]
    unfold inval_slot
    rw [if_pos hd]
  · intro j hd hl
    rw [a8 j]
    unfold inval_slot
    rw [if_pos hd]
    cases hb : s.bh (some j)
    rw [hb] at hl
    simp only at hl
    simp only [hl]

/-- C10. For every cache state and every behaviour of the inode layer,
`sync_dev(dev)` returns 0, leaves `b_dev` of every slot as it was and no slot
of the pool with `b_dev = dev` dirty, and adds to the request log only
`WRITE` requests, each for a slot of the pool that is bound to `dev` and
whose header, at the time of issue, has `b_dev = dev` and `b_dirt` set: none
is for a slot bound to another device. A `WRITE` clears `b_dirt` of the slot
written. -/
theorem C10_sync_dev (E : Env) (s : State) (dev : Int) :
    (sync_dev E s dev).2 = 0 ∧
    (∀ j, ((sync_dev E s dev).1.bh (some j)).b_dev = (s.bh (some j)).b_dev) ∧
    (∀ j, j < s.NR_BUFFERS → ((sync_dev E s dev).1.bh (some j)).b_dev = dev →
      ((sync_dev E s dev).1.bh (some j)).b_dirt = false) ∧
    (∃ ws, (sync_dev E s dev).1.io_log = s.io_log ++ ws ∧
      ∀ q ∈ ws, q.rw = Rw.WRITE ∧ q.head.b_dev = dev ∧ q.head.b_dirt = true ∧
        ∃ i, i < s.NR_BUFFERS ∧ q.bh = some i ∧ (s.bh (some i)).b_dev = dev) ∧
    (∀ (t : State) (i : Nat), i < t.NR_BUFFERS →
      ((ll_rw_block E Rw.WRITE t (some i)).bh (some i)).b_dirt = false) := by
  obtain ⟨h1, h2, _, h4, _, h6, _⟩ := sync_dev_spec E s dev
  obtain ⟨_, _, _, _, f5⟩ := h2
  refine ⟨h1, fun j => (f5 j).1, ?_, ?_, ?_⟩
  · intro j _ hd
    rw [(f5 j).1] at hd
    exact (h6 j hd).1
  · refine ⟨sync_reqs s dev s.bufs.length ++
      sync_reqs (sync_inodes E (sync_pass E dev s)) dev s.bufs.length, ?_, ?_⟩
    · rw [h4, List.append_assoc]
    · intro q hq
      rcases List.mem_append.1 hq with h | h
      · obtain ⟨i, hi, hqi, hd, hdirt⟩ := sync_reqs_mem h
        rw [hqi]
        exact ⟨rfl, hd, hdirt, i, hi, rfl, hd⟩
      · obtain ⟨i, hi, hqi, hd, hdirt⟩ := sync_reqs_mem h
        rw [hqi]
        refine ⟨rfl, hd, hdirt, i, hi, rfl, ?_⟩
        obtain ⟨_, _, _, _, _, _, _, a8⟩ := sync_pass_spec E s dev
        obtain ⟨_, _, _, _, _, _, _, b8⟩ := sync_inodes_spec E (sync_pass E dev s)
        have e1 : ((sync_inodes E (sync_pass E dev s)).bh (some i)).b_dev =
            ((sync_pass E dev s).bh (some i)).b_dev := by
          rcases b8 i with e | e <;> rw [e]
        rw [← hd, e1, a8 i]
        exact ((sync_slot_fields dev (s.bh (some i))).1).symm
  · intro t i hi
    obtain ⟨w, _⟩ := ll_rw_block_write E t i hi
    rw [bh_of_bufs w (some i), bh_upd_same _ _ hi]

theorem pool_held_reach : Reachable Env.quiet 1 pool_held :=
  reachable_getblk Env.quiet 1 Reachable.init 3 (by decide) 1 5

theorem wake_flag (s : State) (w : Bool) : FlagStep s { s with buffer_wait := w } :=
  ⟨rfl, rfl, rfl, rfl, fun _ => ⟨rfl, rfl, rfl, rfl, rfl, rfl⟩⟩

/-- C11. In a well-formed cache in which every slot is referenced and
`(dev, block)` is not cached (`dev` is 0 or no slot is bound to the pair),
`getblk(dev, block)` does not return: its scan
ends without a candidate and the call sleeps on `buffer_wait` with every slot
as it was. When the holder of a slot `i` with `b_count = 1` then calls
`brelse`, the count of slot `i` is 0, the sleepers are woken, and `getblk`
started again returns slot `i`, bound to `(dev, block)` with `b_count = 1`. -/
theorem C11_full_pool (E : Env) (s : State) (dev block : Int) (k : Nat)
    (hW : WF s) (hk : s.NR_BUFFERS < k)
    (hfull : ∀ j, j < s.NR_BUFFERS → 0 < (s.bh (some j)).b_count)
    (hmiss : dev = 0 ∨ ∀ j, j < s.NR_BUFFERS →
      ¬ ((s.bh (some j)).b_dev = dev ∧ (s.bh (some j)).b_blocknr = block)) :
    getblk E k s dev block = Res.sleeping { s with buffer_wait := true } ∧
    scan s k s.free_list none = some none ∧
    ∀ i, i < s.NR_BUFFERS → (s.bh (some i)).b_count = 1 →
      ∃ s1 t, brelse { s with buffer_wait := true } (some i) = Res.ok s1 () ∧
        (s1.bh (some i)).b_count = 0 ∧ s1.buffer_wait = false ∧
        getblk E k s1 dev block = Res.ok t (some i) ∧
        (t.bh (some i)).b_dev = dev ∧ (t.bh (some i)).b_blocknr = block ∧
        (t.bh (some i)).b_count = 1 := by
  obtain ⟨L, C, hF, hH⟩ := hW
  have hk' : s.bufs.length < k := hk
  have hnone : pick s L none = none :=
    pick_none.2 (fun x hx => Nat.pos_iff_ne_zero.1 (hfull x ((hF.2.1 x).1 hx)))
  refine ⟨?_, ?_, ?_⟩
  · rcases getblk_cases E dev block hF hH hk' with ⟨i, hi, hd, hb, hd0, _⟩ | ⟨_, _, h⟩ |
      ⟨_, v, hv, _⟩
    · rcases hmiss with h | h
      · exact absurd h hd0
      · exact absurd ⟨hd, hb⟩ (h i hi)
    · exact h
    · rw [hnone] at hv; exact absurd hv (by simp)
  · rw [scan_free hF hk', hnone]
  · intro i hi hc
    have hi' : i < s.bufs.length := hi
    have hbr := brelse_spec { s with buffer_wait := true } i hi'
      (by show (s.bh (some i)).b_count ≠ 0; rw [hc]; exact Nat.one_ne_zero)
    have hfs : FlagStep s (release_state { s with buffer_wait := true } i) :=
      FlagStep_trans (wake_flag s true) (release_flag _ i)
    have hbh : ∀ j, (release_state { s with buffer_wait := true } i).bh (some j) =
        if j = i then { s.bh (some i) with b_count := (s.bh (some i)).b_count - 1, b_lock := false }
        else s.bh (some j) := by
      intro j
      show (State.upd { s with buffer_wait := true } i
        (fun b => { b with b_count := b.b_count - 1, b_lock := false })).bh (some j) = _
      rw [bh_upd]
      by_cases hji : j = i
      · subst hji
        rw [if_pos ⟨rfl, hi'⟩, if_pos rfl]; rfl
      · rw [if_neg (fun h => hji h.1), if_neg hji]; rfl
    have hc1 : ((release_state { s with buffer_wait := true } i).bh (some i)).b_count = 0 := by
      rw [hbh i, if_pos rfl]
      show (s.bh (some i)).b_count - 1 = 0
      rw [hc]
    have hw1 : (release_state { s with buffer_wait := true } i).buffer_wait = false := rfl
    have hF1 := hfs.freeOrder hF
    have hH1 := hfs.hashOrder hH
    have hk1 : (release_state { s with buffer_wait := true } i).bufs.length < k := by
      rw [hfs.1]; exact hk'
    generalize release_state { s with buffer_wait := true } i = s1 at *
    refine ⟨s1, ?_⟩
    rcases getblk_cases E dev block hF1 hH1 hk1 with ⟨j, hj, hd, hb, hd0, _⟩ | ⟨_, hp, _⟩ |
      ⟨_, v, hv, _, hcv, t, hg, _, _, _, _, _, _, _, _, hcore, _⟩
    · exfalso
      rw [hfs.1] at hj
      rw [(hfs.2.2.2.2 j).1] at hd
      rw [(hfs.2.2.2.2 j).2.1] at hb
      rcases hmiss with h | h
      · exact hd0 h
      · exact h j hj ⟨hd, hb⟩
    · exfalso
      exact pick_none.1 hp i ((hF.2.1 i).2 hi') hc1
    · have hvi : v = i := by
        by_contra hne
        rcases pick_some hv with h | ⟨hm, _⟩
        · exact absurd h (by simp)
        · rw [hbh v, if_neg hne] at hcv
          exact absurd hcv (Nat.pos_iff_ne_zero.1 (hfull v ((hF.2.1 v).1 hm)))
      subst hvi
      simp only [buffer_head.core, Prod.mk.injEq] at hcore
      exact ⟨t, hbr, hc1, hw1, hg, hcore.2.2.1, hcore.2.1, hcore.2.2.2.2.2.1⟩

/-- C11, for `getblk(1, 6)` on a pool whose only slot is held for `(1, 5)`. -/
theorem C11_full_pool_witness :
    WF pool_held ∧ pool_held.NR_BUFFERS < 3 ∧
    (∀ j, j < pool_held.NR_BUFFERS → 0 < (pool_held.bh (some j)).b_count) ∧
    ((1 : Int) = 0 ∨ ∀ j, j < pool_held.NR_BUFFERS →
      ¬ ((pool_held.bh (some j)).b_dev = 1 ∧ (pool_held.bh (some j)).b_blocknr = 6)) ∧
    (getblk Env.quiet 3 pool_held 1 6 = Res.sleeping { pool_held with buffer_wait := true } ∧
    scan pool_held 3 pool_held.free_list none = some none ∧
    ∀ i, i < pool_held.NR_BUFFERS → (pool_held.bh (some i)).b_count = 1 →
      ∃ s1 t, brelse { pool_held with buffer_wait := true } (some i) = Res.ok s1 () ∧
        (s1.bh (some i)).b_count = 0 ∧ s1.buffer_wait = false ∧
        getblk Env.quiet 3 s1 1 6 = Res.ok t (some i) ∧
        (t.bh (some i)).b_dev = 1 ∧ (t.bh (some i)).b_blocknr = 6 ∧
        (t.bh (some i)).b_count = 1) :=
  ⟨(reachable_inv Env.quiet 1 (by decide) pool_held_reach).1, by decide, by decide, by decide,
    C11_full_pool Env.quiet pool_held 1 6 3
      (reachable_inv Env.quiet 1 (by decide) pool_held_reach).1 (by decide) (by decide)
      (by decide)⟩

theorem lookup_prefix (A rest : List ((Int × Int) × List Nat)) (key : Int × Int) (P : List Nat)
    (hA : ∀ e ∈ A, e.1 = key → e.2 = P)
    (h : (∃ e ∈ A, e.1 = key) ∨ rest.lookup key = some P) :
    (A ++ rest).lookup key = some P := by
  induction A with
  | nil =>
    rcases h with ⟨e, he, _⟩ | h
    · exact absurd he (by simp)
    · exact h
  | cons a T ih =>
    obtain ⟨ka, va⟩ := a
    by_cases hk : key = ka
    · have : va = P := hA (ka, va) (List.mem_cons_self _ _) hk.symm
      subst hk
      simp [List.lookup, this]
    · have hb : (key == ka) = false := by simpa using hk
      show List.lookup key ((ka, va) :: (T ++ rest)) = some P
      simp only [List.lookup, hb]
      apply ih (fun e he => hA e (List.mem_cons_of_mem _ he))
      rcases h with ⟨e, he, hek⟩ | h
      · rcases List.mem_cons.1 he with h1 | h1
        · subst h1; exact absurd hek.symm hk
        · exact Or.inl ⟨e, h1, hek⟩
      · exact Or.inr h

theorem sync_pass_flag (E : Env) (s : State) (dev : Int) : FlagStep s (sync_pass E dev s) := by
  obtain ⟨a1, a2, a3, _, a5, _, _, a8⟩ := sync_pass_spec E s dev
  refine ⟨a1, a2, a3, a5, fun j => ?_⟩
  rw [a8 j]
  obtain ⟨f1, f2, f3, f4, f5, f6, _⟩ := sync_slot_fields dev (s.bh (some j))
  exact ⟨f1, f2, f3, f4, f5, f6⟩

theorem sync_inodes_flag (E : Env) (s : State) : FlagStep s (sync_inodes E s) := by
  obtain ⟨a1, a2, a3, _, a5, _, _, a8⟩ := sync_inodes_spec E s
  refine ⟨a1, a2, a3, a5, fun j => ?_⟩
  rcases a8 j with e | e <;> rw [e] <;> exact ⟨rfl, rfl, rfl, rfl, rfl, rfl⟩

theorem sync_dev_disk (E : Env) (s : State) (dev : Int) :
    (sync_dev E s dev).1.disk =
      disk_after (sync_reqs (sync_inodes E (sync_pass E dev s)) dev s.bufs.length)
        (disk_after (sync_reqs s dev s.bufs.length) s.disk) := by
  obtain ⟨a1, _, _, _, _, _, a7, _⟩ := sync_pass_spec E s dev
  obtain ⟨b1, _, _, _, _, _, b7, _⟩ := sync_inodes_spec E (sync_pass E dev s)
  obtain ⟨_, _, _, _, _, _, c7, _⟩ := sync_pass_spec E (sync_inodes E (sync_pass E dev s)) dev
  show (sync_pass E dev (sync_inodes E (sync_pass E dev s))).disk = _
  rw [c7, b7, a7, b1, a1]

/-- After the writes of one pass of `sync_dev(d)` the device holds the data of
the slot bound to `(d, b)`, when that slot was dirty or the device held
them already. -/
theorem disk_after_sync {w : State} (hU : Unique w) {i : Nat} {d b : Int} {P : List Nat}
    (hi : i < w.bufs.length) (hd0 : d ≠ 0) (hd : (w.bh (some i)).b_dev = d)
    (hb : (w.bh (some i)).b_blocknr = b) (hP : (w.bh (some i)).b_data = P)
    (disk : List ((Int × Int) × List Nat))
    (h : (w.bh (some i)).b_dirt = true ∨ disk.lookup (d, b) = some P) :
    (disk_after (sync_reqs w d w.bufs.length) disk).lookup (d, b) = some P := by
  unfold disk_after
  apply lookup_prefix
  · intro e he hek
    obtain ⟨q, hq, rfl⟩ := List.mem_map.1 he
    obtain ⟨j, hj, hqj, hdj, _⟩ := sync_reqs_mem (List.mem_reverse.1 hq)
    subst hqj
    simp only [Prod.mk.injEq] at hek
    have hji : i = j := hU i j hi hj (by rw [hd]; exact hd0) (by rw [hd, hdj])
      (by rw [hb]; exact hek.2.symm)
    subst hji
    exact hP
  · rcases h with h | h
    · left
      refine ⟨_, List.mem_map.2 ⟨_, List.mem_reverse.2 (sync_reqs_of hi hd h), rfl⟩, ?_⟩
      simp only [Prod.mk.injEq]
      exact ⟨hd, hb⟩
    · exact Or.inr h

/-- The call `bread` on a slot that `getblk` returns not up to date, on a
device that reads the block. -/
theorem bread_read (E : Env) {k : Nat} {s s1 : State} {dev block : Int} {i : Nat}
    (hg : getblk E k s dev block = Res.ok s1 (some i)) (hi : i < s1.bufs.length)
    (hu : (s1.bh (some i)).b_uptodate = false) (hd : (s1.bh (some i)).b_dev = dev)
    (hb : (s1.bh (some i)).b_blocknr = block) (hr : E.read_ok dev block = true) :
    bread E k s dev block =
      Res.ok (wait_on_buffer (ll_rw_block E Rw.READ s1 (some i)) (some i)) (some i) ∧
    ((wait_on_buffer (ll_rw_block E Rw.READ s1 (some i)) (some i)).bh (some i)).b_data =
      disk_read E s1 dev block ∧
    ((wait_on_buffer (ll_rw_block E Rw.READ s1 (some i)) (some i)).bh (some i)).b_uptodate =
      true := by
  obtain ⟨_, _, _, _, _, _, _, r8⟩ := ll_rw_block_read E Rw.READ s1 i (by simp) hi
  have hwbh := wait_bh (ll_rw_block E Rw.READ s1 (some i)) i i
  rw [if_pos rfl, r8 i, if_pos ⟨rfl, hu⟩, hd, hb, if_pos hr] at hwbh
  have hnu : ¬ (s1.bh (some i)).b_uptodate = true := by rw [hu]; simp
  have hu3 : ((wait_on_buffer (ll_rw_block E Rw.READ s1 (some i)) (some i)).bh
      (some i)).b_uptodate = true := by rw [hwbh]
  refine ⟨?_, by rw [hwbh], hu3⟩
  unfold bread
  rw [hg]
  simp only [if_neg hnu, if_pos hu3]

/-- C12. Read round trip. In a well-formed cache that binds each pair once,
on a device that reads block `(d, b)` with `d ≠ 0`: when `getblk(d, b)`
returns slot `i`, and the caller writes `P` into the data of the slot, sets
`b_dirt` and calls `brelse`, then after `sync_dev(d)` and
`invalidate_buffers(d)` the call `bread(d, b)` returns slot `i`, up to date,
with data `P`. -/
theorem C12_read_round_trip (E : Env) (s s1 : State) (d b : Int) (P : List Nat) (k i : Nat)
    (hW : WF s) (hU : Unique s) (hk : s.NR_BUFFERS < k) (hd0 : d ≠ 0)
    (hr : E.read_ok d b = true) (hg : getblk E k s d b = Res.ok s1 (some i)) :
    ∃ s3 t, brelse (s1.upd i (fun x => { x with b_data := P, b_dirt := true })) (some i) =
        Res.ok s3 () ∧
      bread E k (invalidate_buffers (sync_dev E s3 d).1 d) d b = Res.ok t (some i) ∧
      (t.bh (some i)).b_data = P ∧ (t.bh (some i)).b_uptodate = true := by
  have hk' : s.bufs.length < k := hk
  obtain ⟨hW1, hU1⟩ := (getblk_inv E d b hW hU hk').1 s1 (some i) hg
  obtain ⟨i', hr', hi, hlen1, hd1, hb1, hc1⟩ := getblk_ok E d b hW hk' hg
  have hii : i' = i := (Option.some.inj hr').symm
  subst hii
  have hi1 : i' < s1.bufs.length := by rw [hlen1]; exact hi
  -- the caller writes the slot
  have hf12 : FlagStep s1 (s1.upd i' (fun x => { x with b_data := P, b_dirt := true })) :=
    FlagStep_upd s1 i' _ (fun _ => ⟨rfl, rfl, rfl, rfl, rfl, rfl⟩)
  have hbh2 : (s1.upd i' (fun x => { x with b_data := P, b_dirt := true })).bh (some i') =
      { s1.bh (some i') with b_data := P, b_dirt := true } := bh_upd_same s1 _ hi1
  generalize s1.upd i' (fun x => { x with b_data := P, b_dirt := true }) = s2 at hf12 hbh2 ⊢
  have hi2 : i' < s2.bufs.length := by rw [hf12.1]; exact hi1
  have hc2 : (s2.bh (some i')).b_count ≠ 0 := by
    rw [hbh2]
    show (s1.bh (some i')).b_count ≠ 0
    rw [hc1]; exact Nat.succ_ne_zero _
  -- the release
  have hbr := brelse_spec s2 i' hi2 hc2
  have hf23 := release_flag s2 i'
  have hbh3 : (release_state s2 i').bh (some i') =
      { s2.bh (some i') with b_count := (s2.bh (some i')).b_count - 1, b_lock := false } :=
    bh_upd_same s2 (fun b => { b with b_count := b.b_count - 1, b_lock := false }) hi2
  rw [hbh2] at hbh3
  refine ⟨release_state s2 i', ?_⟩
  generalize release_state s2 i' = s3 at hbr hf23 hbh3 ⊢
  have hf13 := FlagStep_trans hf12 hf23
  have hU3 := hf13.unique hU1
  have hi3 : i' < s3.bufs.length := by rw [hf13.1]; exact hi1
  have hd3 : (s3.bh (some i')).b_dev = d := by rw [hbh3]; exact hd1
  have hb3 : (s3.bh (some i')).b_blocknr = b := by rw [hbh3]; exact hb1
  have hP3 : (s3.bh (some i')).b_data = P := by rw [hbh3]
  have hdirt3 : (s3.bh (some i')).b_dirt = true := by rw [hbh3]
  -- the flush
  obtain ⟨_, g2, _, _, g5, g6, _⟩ := sync_dev_spec E s3 d
  have hdisk4 : (sync_dev E s3 d).1.disk.lookup (d, b) = some P := by
    rw [sync_dev_disk]
    have hfu := FlagStep_trans (sync_pass_flag E s3 d) (sync_inodes_flag E (sync_pass E d s3))
    obtain ⟨_, _, _, _, _, _, _, a8⟩ := sync_pass_spec E s3 d
    obtain ⟨_, _, _, _, _, _, _, b8⟩ := sync_inodes_spec E (sync_pass E d s3)
    have hPu : ((sync_inodes E (sync_pass E d s3)).bh (some i')).b_data = P := by
      have e1 : ((sync_pass E d s3).bh (some i')).b_data = P := by
        rw [a8 i', (sync_slot_fields d (s3.bh (some i'))).2.2.2.2.2.2.2.1]; exact hP3
      rcases b8 i' with e | e <;> rw [e] <;> exact e1
    have h1 := disk_after_sync hU3 hi3 hd0 hd3 hb3 hP3 s3.disk (Or.inl hdirt3)
    have h2 := disk_after_sync (hfu.unique hU3) (by rw [hfu.1]; exact hi3) hd0
      (by rw [(hfu.2.2.2.2 i').1]; exact hd3) (by rw [(hfu.2.2.2.2 i').2.1]; exact hb3) hPu
      (disk_after (sync_reqs s3 d s3.bufs.length) s3.disk) (Or.inr h1)
    rw [hfu.1] at h2
    exact h2
  have hP4 : ((sync_dev E s3 d).1.bh (some i')).b_data = P := by rw [(g5 i').2.1]; exact hP3
  generalize (sync_dev E s3 d).1 = s4 at g2 hdisk4 hP4 ⊢
  -- the invalidation
  obtain ⟨_, _, _, _, _, v6, _, v8⟩ := invalidate_buffers_spec s4 d
  have hf45 := invalidate_flag s4 d
  have hd4 : (s4.bh (some i')).b_dev = d := by rw [(g2.2.2.2.2 i').1]; exact hd3
  have hbh5 : (invalidate_buffers s4 d).bh (some i') =
      { s4.bh (some i') with b_uptodate := false, b_dirt := false, b_lock := false } := by
    rw [v8 i']; unfold inval_slot; rw [if_pos hd4]
  generalize invalidate_buffers s4 d = s5 at v6 hf45 hbh5 ⊢
  have hf15 := FlagStep_trans hf13 (FlagStep_trans g2 hf45)
  have hW5 := hf15.wf hW1
  have hU5 := hf15.unique hU1
  have hk5 : s5.bufs.length < k := by rw [hf15.1, hlen1]; exact hk'
  have hi5 : i' < s5.bufs.length := by rw [hf15.1]; exact hi1
  have hd5 : (s5.bh (some i')).b_dev = d := by rw [(hf15.2.2.2.2 i').1]; exact hd1
  have hb5 : (s5.bh (some i')).b_blocknr = b := by rw [(hf15.2.2.2.2 i').2.1]; exact hb1
  -- the read
  have hg5 := getblk_hit_unlocked E hW5 hU5 hk5 hi5 hd0 ⟨hd5, hb5⟩ (by rw [hbh5])
  have hbh6 : (s5.upd i' (fun x => { x with b_count := x.b_count + 1 })).bh (some i') =
      { s5.bh (some i') with b_count := (s5.bh (some i')).b_count + 1 } := bh_upd_same s5 _ hi5
  have hdisk6 : (s5.upd i' (fun x => { x with b_count := x.b_count + 1 })).disk = s5.disk := rfl
  have hlen6 : (s5.upd i' (fun x => { x with b_count := x.b_count + 1 })).bufs.length =
      s5.bufs.length := upd_length _ _ _
  generalize s5.upd i' (fun x => { x with b_count := x.b_count + 1 }) = s6 at hg5 hbh6 hdisk6 hlen6
  obtain ⟨e1, e2, e3⟩ := bread_read E hg5 (by rw [hlen6]; exact hi5)
    (by rw [hbh6, hbh5]) (by rw [hbh6]; exact hd5) (by rw [hbh6]; exact hb5) hr
  refine ⟨_, hbr, e1, ?_, e3⟩
  rw [e2]
  unfold disk_read
  rw [hdisk6, v6, hdisk4]

/-- C12, on a fresh pool of three slots, for block `(1, 5)` and the pattern
`[7]`. -/
theorem C12_read_round_trip_witness :
    WF (buffer_init 3) ∧ Unique (buffer_init 3) ∧ (buffer_init 3).NR_BUFFERS < 4 ∧
    (1 : Int) ≠ 0 ∧ Env.quiet.read_ok 1 5 = true ∧
    getblk Env.quiet 4 (buffer_init 3) 1 5 = Res.ok pool_one (some 0) ∧
    ∃ s3 t, brelse (pool_one.upd 0 (fun x => { x with b_data := [7], b_dirt := true })) (some 0) =
        Res.ok s3 () ∧
      bread Env.quiet 4 (invalidate_buffers (sync_dev Env.quiet s3 1).1 1) 1 5 =
        Res.ok t (some 0) ∧
      (t.bh (some 0)).b_data = [7] ∧ (t.bh (some 0)).b_uptodate = true :=
  ⟨⟨_, _, (buffer_init_wf 3 (by decide)).1, (buffer_init_wf 3 (by decide)).2.1⟩,
    (buffer_init_wf 3 (by decide)).2.2, by decide, by decide, rfl, rfl,
    C12_read_round_trip Env.quiet (buffer_init 3) pool_one 1 5 [7] 4 0
      ⟨_, _, (buffer_init_wf 3 (by decide)).1, (buffer_init_wf 3 (by decide)).2.1⟩
      (buffer_init_wf 3 (by decide)).2.2 (by decide) (by decide) rfl rfl⟩

/-- The call `bread_page(4096, 1, [10, 11, 0, 13])` on a fresh pool of four
slots returns; the first bytes of the four blocks of the page are then 10,
11, the old byte and 13. -/
theorem bread_page_example :
    ∃ t mem', bread_page Env.numbered 5 1024 (buffer_init 4) 4096 1 page_blocks blank_mem =
        Res.ok t mem' ∧
      mem' 4096 = 10 ∧ mem' 5120 = 11 ∧ mem' 6144 = 255 ∧ mem' 7168 = 13 ∧
      (t.bh (some 0)).b_count = 0 ∧ (t.bh (some 1)).b_count = 0 ∧ (t.bh (some 2)).b_count = 0 ∧
      (t.bh (some 3)).b_count = 0 :=
  ⟨_, _, rfl, rfl, rfl, rfl, rfl, rfl, rfl, rfl, rfl⟩

/-- C14 fails on the code. The call `breada(1, 5, 6, -1)` on a fresh pool of
three slots returns slot 0, bound to `(1, 5)`. The hinted block `(1, 6)` is
bound to slot 1, which is not up to date and is released (`b_count = 0`),
but the `READA` request of line 386 names slot 0, the slot of the first
block: the log holds a `READ` of slot 0 and a `READA` of slot 0, and no
request for slot 1, whose data are never read. -/
theorem C14_breada_reads_ahead_primary :
    ∃ t, breada Env.numbered 4 (buffer_init 3) 1 5 [6, -1] = Res.ok t (some 0) ∧
      t.io_log.map (fun q => (q.rw, q.bh, q.head.b_dev, q.head.b_blocknr)) =
        [(Rw.READ, some 0, 1, 5), (Rw.READA, some 0, 1, 5)] ∧
      (t.bh (some 1)).b_dev = 1 ∧ (t.bh (some 1)).b_blocknr = 6 ∧
      (t.bh (some 1)).b_uptodate = false ∧ (t.bh (some 1)).b_count = 0 ∧
      (∀ q ∈ t.io_log, q.bh ≠ some 1) :=
  ⟨_, rfl, rfl, rfl, rfl, rfl, rfl, by decide⟩

theorem pool_two_reach : Reachable Env.quiet 3 pool_two :=
  reachable_getblk Env.quiet 3 pool_one_reach 4 (by decide) 1 6

/-- C15 fails on the code. In the pool with recency list 2, 0, 1 and slot 0
held, `brelse` of slot 0 returns with the list as it was: slot 0 is followed
by slot 1, and the tail of the list, the slot before `free_list`, is slot 1
and not slot 0. -/
theorem C15_release_not_at_tail :
    WF pool_two ∧ 0 < (pool_two.bh (some 0)).b_count ∧
    ∃ t, brelse pool_two (some 0) = Res.ok t () ∧ t.free_list = some 2 ∧
      (t.bh (some 2)).b_next_free = some 0 ∧ (t.bh (some 0)).b_next_free = some 1 ∧
      (t.bh (some 1)).b_next_free = some 2 ∧
      (t.bh t.free_list).b_prev_free = some 1 ∧ (t.bh t.free_list).b_prev_free ≠ some 0 :=
  ⟨(reachable_inv Env.quiet 3 (by decide) pool_two_reach).1, by decide,
    _, rfl, rfl, rfl, rfl, rfl, rfl, by decide⟩

/-- C15 as amended. For every state and every slot `i` of the pool with
`b_count > 0`, `brelse` returns and leaves the recency list as it was:
`free_list` and the links `b_next_free` and `b_prev_free` of every slot are
unchanged, every order `L` of the list is still its order, and slot `i` is
at the tail, the slot before `free_list`, exactly when it was there before
the call. -/
theorem C15_brelse_keeps_recency (s : State) (i : Nat) (hi : i < s.NR_BUFFERS)
    (hc : 0 < (s.bh (some i)).b_count) :
    ∃ t, brelse s (some i) = Res.ok t () ∧ t.free_list = s.free_list ∧
      (∀ j, (t.bh (some j)).b_next_free = (s.bh (some j)).b_next_free ∧
        (t.bh (some j)).b_prev_free = (s.bh (some j)).b_prev_free) ∧
      (∀ L, FreeOrder s L → FreeOrder t L) ∧
      ((t.bh t.free_list).b_prev_free = some i ↔ (s.bh s.free_list).b_prev_free = some i) := by
  have hbr := brelse_spec s i hi (Nat.pos_iff_ne_zero.1 hc)
  have hfl := release_flag s i
  refine ⟨release_state s i, hbr, hfl.2.2.1, fun j => ⟨(hfl.2.2.2.2 j).2.2.2.2.2,
    (hfl.2.2.2.2 j).2.2.2.2.1⟩, fun L hF => hfl.freeOrder hF, ?_⟩
  rw [hfl.2.2.1]
  cases hf : s.free_list with
  | none =>
    have h1 : ∀ u : State, (u.bh none).b_prev_free = none := fun _ => rfl
    rw [h1, h1]
  | some f => rw [(hfl.2.2.2.2 f).2.2.2.2.1]

/-- C15 as amended, for slot 0 of the pool with recency list 2, 0, 1. -/
theorem C15_brelse_keeps_recency_witness :
    0 < pool_two.NR_BUFFERS ∧ 0 < (pool_two.bh (some 0)).b_count ∧
    ∃ t, brelse pool_two (some 0) = Res.ok t () ∧ t.free_list = pool_two.free_list ∧
      (∀ j, (t.bh (some j)).b_next_free = (pool_two.bh (some j)).b_next_free ∧
        (t.bh (some j)).b_prev_free = (pool_two.bh (some j)).b_prev_free) ∧
      (∀ L, FreeOrder pool_two L → FreeOrder t L) ∧
      ((t.bh t.free_list).b_prev_free = some 0 ↔
        (pool_two.bh pool_two.free_list).b_prev_free = some 0) :=
  ⟨by decide, by decide, C15_brelse_keeps_recency pool_two 0 (by decide) (by decide)⟩

/-- The candidate the scan keeps: either the one it started with, when no
free slot of the list is better, or the first free slot of the list whose
`BADNESS` is least. -/
theorem pick_char (s : State) : ∀ (l : List Nat) (bh : Ptr),
    (pick s l bh = bh ∧ ∀ u ∈ l, (s.bh (some u)).b_count = 0 →
      bh ≠ none ∧ BADNESS (s.bh bh) ≤ BADNESS (s.bh (some u))) ∨
    ∃ A v B, l = A ++ v :: B ∧ pick s l bh = some v ∧ (s.bh (some v)).b_count = 0 ∧
      (bh = none ∨ BADNESS (s.bh (some v)) < BADNESS (s.bh bh)) ∧
      (∀ u ∈ A, (s.bh (some u)).b_count = 0 →
        BADNESS (s.bh (some v)) < BADNESS (s.bh (some u))) ∧
      (∀ u ∈ B, (s.bh (some u)).b_count = 0 →
        BADNESS (s.bh (some v)) ≤ BADNESS (s.bh (some u))) := by
  intro l
  induction l with
  | nil => intro bh; exact Or.inl ⟨rfl, fun u hu => absurd hu (by simp)⟩
  | cons x t ih =>
    intro bh
    by_cases hc : (s.bh (some x)).b_count ≠ 0
    · have he : pick s (x :: t) bh = pick s t bh := by
        show (if (s.bh (some x)).b_count ≠ 0 then _ else _) = _
        rw [if_pos hc]
      rcases ih bh with ⟨h1, h2⟩ | ⟨A, v, B, h1, h2, h3, h4, h5, h6⟩
      · left
        refine ⟨he.trans h1, fun u hu hcu => ?_⟩
        rcases List.mem_cons.1 hu with h | h
        · subst h; exact absurd hcu hc
        · exact h2 u h hcu
      · right
        refine ⟨x :: A, v, B, by rw [h1]; rfl, he.trans h2, h3, h4, fun u hu hcu => ?_, h6⟩
        rcases List.mem_cons.1 hu with h | h
        · subst h; exact absurd hcu hc
        · exact h5 u h hcu
    · have hc0 : (s.bh (some x)).b_count = 0 := by simpa using hc
      by_cases hb : bh = none ∨ BADNESS (s.bh (some x)) < BADNESS (s.bh bh)
      · by_cases hz : BADNESS (s.bh (some x)) = 0
        · right
          refine ⟨[], x, t, rfl, ?_, hc0, hb, fun u hu => absurd hu (by simp), fun u _ _ => ?_⟩
          · show (if (s.bh (some x)).b_count ≠ 0 then _ else _) = _
            rw [if_neg hc, if_pos hb, if_pos hz]
          · rw [hz]; exact Nat.zero_le _
        · have he : pick s (x :: t) bh = pick s t (some x) := by
            show (if (s.bh (some x)).b_count ≠ 0 then _ else _) = _
            rw [if_neg hc, if_pos hb, if_neg hz]
          right
          rcases ih (some x) with ⟨h1, h2⟩ | ⟨A, v, B, h1, h2, h3, h4, h5, h6⟩
          · exact ⟨[], x, t, rfl, he.trans h1, hc0, hb, fun u hu => absurd hu (by simp),
              fun u hu hcu => (h2 u hu hcu).2⟩
          · have h4' : BADNESS (s.bh (some v)) < BADNESS (s.bh (some x)) := by
              rcases h4 with h | h
              · exact absurd h (by simp)
              · exact h
            refine ⟨x :: A, v, B, by rw [h1]; rfl, he.trans h2, h3, ?_, fun u hu hcu => ?_, h6⟩
            · rcases hb with h | h
              · exact Or.inl h
              · exact Or.inr (Nat.lt_trans h4' h)
            · rcases List.mem_cons.1 hu with h | h
              · subst h; exact h4'
              · exact h5 u h hcu
      · have he : pick s (x :: t) bh = pick s t bh := by
          show (if (s.bh (some x)).b_count ≠ 0 then _ else _) = _
          rw [if_neg hc, if_neg hb]
        have hb1 : bh ≠ none := fun h => hb (Or.inl h)
        have hb2 : BADNESS (s.bh bh) ≤ BADNESS (s.bh (some x)) :=
          Nat.le_of_not_lt (fun h => hb (Or.inr h))
        rcases ih bh with ⟨h1, h2⟩ | ⟨A, v, B, h1, h2, h3, h4, h5, h6⟩
        · left
          refine ⟨he.trans h1, fun u hu hcu => ?_⟩
          rcases List.mem_cons.1 hu with h | h
          · subst h; exact ⟨hb1, hb2⟩
          · exact h2 u h hcu
        · right
          refine ⟨x :: A, v, B, by rw [h1]; rfl, he.trans h2, h3, h4, fun u hu hcu => ?_, h6⟩
          rcases List.mem_cons.1 hu with h | h
          · subst h
            rcases h4 with h | h
            · exact absurd h hb1
            · exact Nat.lt_of_lt_of_le h hb2
          · exact h5 u h hcu

/-- The scan ends at a free slot of `BADNESS` 0. -/
theorem scan_stop (s : State) (k v : Nat) (bh : Ptr) (hc : (s.bh (some v)).b_count = 0)
    (hz : BADNESS (s.bh (some v)) = 0) (hb : bh = none ∨ 0 < BADNESS (s.bh bh)) :
    scan s (k + 1) (some v) bh = some (some v) := by
  have hb' : bh = none ∨ BADNESS (s.bh (some v)) < BADNESS (s.bh bh) := by
    rw [hz]; exact hb
  show (if (s.bh (some v)).b_count ≠ 0 then _ else _) = _
  rw [if_neg (by simpa using hc), if_pos hb', if_pos hz]

/-- One turn of the scan at a slot that does not end it. -/
theorem scan_step (s : State) (k a c : Nat) (bh : Ptr)
    (hn : ¬ ((s.bh (some a)).b_count = 0 ∧ BADNESS (s.bh (some a)) = 0))
    (hnf : s.nf a = some c) (hcf : some c ≠ s.free_list)
    (hb : bh = none ∨ 0 < BADNESS (s.bh bh)) :
    ∃ bh', (bh' = none ∨ 0 < BADNESS (s.bh bh')) ∧
      scan s (k + 1) (some a) bh = scan s k (some c) bh' := by
  have hnf' : (s.bh (some a)).b_next_free = some c := hnf
  by_cases hc : (s.bh (some a)).b_count ≠ 0
  · refine ⟨bh, hb, ?_⟩
    show (if (s.bh (some a)).b_count ≠ 0 then _ else _) = _
    rw [if_pos hc, hnf', if_pos hcf]
  · have hc0 : (s.bh (some a)).b_count = 0 := by simpa using hc
    have hz : BADNESS (s.bh (some a)) ≠ 0 := fun h => hn ⟨hc0, h⟩
    by_cases hbt : bh = none ∨ BADNESS (s.bh (some a)) < BADNESS (s.bh bh)
    · refine ⟨some a, Or.inr (Nat.pos_of_ne_zero hz), ?_⟩
      show (if (s.bh (some a)).b_count ≠ 0 then _ else _) = _
      rw [if_neg hc, if_pos hbt, if_neg hz, hnf', if_pos hcf]
    · refine ⟨bh, hb, ?_⟩
      show (if (s.bh (some a)).b_count ≠ 0 then _ else _) = _
      rw [if_neg hc, if_neg hbt, hnf', if_pos hcf]

/-- The scan along a piece of the ring that ends at the first free slot of
`BADNESS` 0 visits the slots of the piece and no more. -/
theorem scan_prefix (s : State) (f v : Nat) (hfl : s.free_list = some f)
    (hc : (s.bh (some v)).b_count = 0) (hz : BADNESS (s.bh (some v)) = 0) (hvf : v ≠ f) :
    ∀ (l : List Nat) (a : Nat) (bh : Ptr), RPath s.nf s.pf a l v → (∀ x ∈ l, x ≠ f) →
      (∀ x ∈ a :: l, ¬ ((s.bh (some x)).b_count = 0 ∧ BADNESS (s.bh (some x)) = 0)) →
      (bh = none ∨ 0 < BADNESS (s.bh bh)) →
      scan s (l.length + 2) (some a) bh = some (some v) := by
  intro l
  induction l with
  | nil =>
    intro a bh hp _ hn hb
    obtain ⟨bh', hb', he⟩ := scan_step s 1 a v bh (hn a (List.mem_cons_self _ _)) hp.1
      (by rw [hfl]; simpa using hvf) hb
    show scan s (1 + 1) (some a) bh = _
    rw [he]
    exact scan_stop s 0 v bh' hc hz hb'
  | cons c t ih =>
    intro a bh hp hl hn hb
    obtain ⟨hp1, hp2⟩ := hp
    obtain ⟨bh', hb', he⟩ := scan_step s (t.length + 2) a c bh (hn a (List.mem_cons_self _ _))
      hp1.1 (by rw [hfl]; simpa using hl c (List.mem_cons_self _ _)) hb
    show scan s ((t.length + 2) + 1) (some a) bh = _
    rw [he]
    exact ih c bh' hp2 (fun x hx => hl x (List.mem_cons_of_mem _ hx))
      (fun x hx => hn x (List.mem_cons_of_mem _ hx)) hb'

theorem pool_dirty_order : FreeOrder pool_dirty [1, 2, 0] := by
  refine ⟨by decide, fun i => ?_, rfl, ⟨rfl, rfl⟩, ⟨rfl, rfl⟩, ⟨rfl, rfl⟩⟩
  have h3 : pool_dirty.bufs.length = 3 := rfl
  rw [h3]
  simp only [List.mem_cons, List.mem_singleton, List.not_mem_nil, or_false]
  omega

/-- C16. In a well-formed cache with recency list `L` in which `(dev, block)`
is not cached (`dev` is 0 or no slot is bound to the pair), `getblk` commits
the candidate its scan chooses and sleeps when the scan chooses none. The
scan chooses none exactly when every slot is referenced. The candidate `v`
is free, no free slot has a lower `BADNESS`, and every free slot before `v`
in `L` has a higher one. When a free slot of `BADNESS` 0 has no such slot
before it in `L`, the scan has chosen it once it has visited it, the slots
after it unseen. `BADNESS` ranks a clean unlocked slot below a clean locked
one, and a clean slot below a dirty one. -/
theorem C16_victim_selection (E : Env) (s : State) (dev block : Int) (k : Nat) (L : List Nat)
    (hW : WF s) (hF : FreeOrder s L) (hk : s.NR_BUFFERS < k)
    (hmiss : dev = 0 ∨ ∀ j, j < s.NR_BUFFERS →
      ¬ ((s.bh (some j)).b_dev = dev ∧ (s.bh (some j)).b_blocknr = block)) :
    (getblk E k s dev block =
      match scan s k s.free_list none with
      | some (some v) => getblk_commit (getblk_prep E s v) (some v) dev block
      | _ => Res.sleeping { s with buffer_wait := true }) ∧
    (∃ r, scan s k s.free_list none = some r ∧
      (r = none ↔ ∀ j, j < s.NR_BUFFERS → (s.bh (some j)).b_count ≠ 0) ∧
      (∀ v, r = some v → ∃ A B, L = A ++ v :: B ∧ (s.bh (some v)).b_count = 0 ∧
        (∀ u ∈ A, (s.bh (some u)).b_count = 0 →
          BADNESS (s.bh (some v)) < BADNESS (s.bh (some u))) ∧
        (∀ u, u < s.NR_BUFFERS → (s.bh (some u)).b_count = 0 →
          BADNESS (s.bh (some v)) ≤ BADNESS (s.bh (some u))))) ∧
    (∀ A v B, L = A ++ v :: B → (s.bh (some v)).b_count = 0 → BADNESS (s.bh (some v)) = 0 →
      (∀ u ∈ A, ¬ ((s.bh (some u)).b_count = 0 ∧ BADNESS (s.bh (some u)) = 0)) →
      scan s (A.length + 1) s.free_list none = some (some v)) ∧
    (∀ x y : buffer_head,
      (x.b_dirt = false → x.b_lock = false → y.b_lock = true → BADNESS x < BADNESS y) ∧
      (x.b_dirt = false → y.b_dirt = true → BADNESS x < BADNESS y)) := by
  have hk' : s.bufs.length < k := hk
  obtain ⟨_, C, _, hH⟩ := hW
  have hscan := scan_free hF hk'
  refine ⟨?_, ⟨pick s L none, hscan, ?_, ?_⟩, ?_, ?_⟩
  · rcases getblk_cases E dev block hF hH hk' with ⟨i, hi, hd, hb, hd0, _⟩ | ⟨_, hp, hg⟩ |
      ⟨_, v, hp, _, _, t, hg, hcm, _⟩
    · rcases hmiss with h | h
      · exact absurd h hd0
      · exact absurd ⟨hd, hb⟩ (h i hi)
    · rw [hscan, hp, hg]
    · rw [hscan, hp, hg]; exact hcm.symm
  · rw [pick_none]
    constructor
    · intro h j hj; exact h j ((hF.2.1 j).2 hj)
    · intro h x hx; exact h x ((hF.2.1 x).1 hx)
  · intro v hv
    rcases pick_char s L none with ⟨h1, _⟩ | ⟨A, w, B, h1, h2, h3, _, h5, h6⟩
    · rw [h1] at hv; exact absurd hv (by simp)
    · have hwv : w = v := Option.some.inj (h2.symm.trans hv)
      subst hwv
      refine ⟨A, B, h1, h3, h5, fun u hu hcu => ?_⟩
      have hm : u ∈ L := (hF.2.1 u).2 hu
      rw [h1] at hm
      rcases List.mem_append.1 hm with h | h
      · exact Nat.le_of_lt (h5 u h hcu)
      · rcases List.mem_cons.1 h with h | h
        · rw [h]
        · exact h6 u h hcu
  · intro A v B hL hc hz hA
    obtain ⟨hnd, _, hfl, hR⟩ := hF
    cases A with
    | nil =>
      rw [hL] at hfl
      rw [hfl]
      exact scan_stop s 0 v none hc hz (Or.inl rfl)
    | cons f A' =>
      rw [hL] at hfl hR hnd
      have hfl' : s.free_list = some f := hfl
      have hR' : RPath s.nf s.pf f (A' ++ v :: B) f := hR
      rw [RPath_append] at hR'
      have hnd' : f ∉ A' ++ v :: B := (List.nodup_cons.1 hnd).1
      rw [hfl']
      exact scan_prefix s f v hfl' hc hz
        (fun h => hnd' (by rw [← h]; simp)) A' f none hR'.1
        (fun x hx h => hnd' (by rw [← h]; simp [hx])) hA (Or.inl rfl)
  · intro x y
    constructor
    · intro h1 h2 h3; simp [BADNESS, h1, h2, h3]
    · intro h1 h3
      cases hx : x.b_lock <;> cases hy : y.b_lock <;> simp [BADNESS, h1, h3, hx, hy]

/-- C16, for `getblk(1, 6)` on the pool with recency list 1, 2, 0 whose slot
0 is dirty and free. -/
theorem C16_victim_selection_witness :
    WF pool_dirty ∧ FreeOrder pool_dirty [1, 2, 0] ∧ pool_dirty.NR_BUFFERS < 4 ∧
    ((1 : Int) = 0 ∨ ∀ j, j < pool_dirty.NR_BUFFERS →
      ¬ ((pool_dirty.bh (some j)).b_dev = 1 ∧ (pool_dirty.bh (some j)).b_blocknr = 6)) ∧
    ((getblk Env.quiet 4 pool_dirty 1 6 =
      match scan pool_dirty 4 pool_dirty.free_list none with
      | some (some v) => getblk_commit (getblk_prep Env.quiet pool_dirty v) (some v) 1 6
      | _ => Res.sleeping { pool_dirty with buffer_wait := true }) ∧
    (∃ r, scan pool_dirty 4 pool_dirty.free_list none = some r ∧
      (r = none ↔ ∀ j, j < pool_dirty.NR_BUFFERS → (pool_dirty.bh (some j)).b_count ≠ 0) ∧
      (∀ v, r = some v → ∃ A B, [1, 2, 0] = A ++ v :: B ∧ (pool_dirty.bh (some v)).b_count = 0 ∧
        (∀ u ∈ A, (pool_dirty.bh (some u)).b_count = 0 →
          BADNESS (pool_dirty.bh (some v)) < BADNESS (pool_dirty.bh (some u))) ∧
        (∀ u, u < pool_dirty.NR_BUFFERS → (pool_dirty.bh (some u)).b_count = 0 →
          BADNESS (pool_dirty.bh (some v)) ≤ BADNESS (pool_dirty.bh (some u))))) ∧
    (∀ A v B, [1, 2, 0] = A ++ v :: B → (pool_dirty.bh (some v)).b_count = 0 →
      BADNESS (pool_dirty.bh (some v)) = 0 →
      (∀ u ∈ A, ¬ ((pool_dirty.bh (some u)).b_count = 0 ∧
        BADNESS (pool_dirty.bh (some u)) = 0)) →
      scan pool_dirty (A.length + 1) pool_dirty.free_list none = some (some v)) ∧
    (∀ x y : buffer_head,
      (x.b_dirt = false → x.b_lock = false → y.b_lock = true → BADNESS x < BADNESS y) ∧
      (x.b_dirt = false → y.b_dirt = true → BADNESS x < BADNESS y))) :=
  ⟨(reachable_inv Env.quiet 3 (by decide) pool_dirty_reach).1, pool_dirty_order, by decide,
    by decide,
    C16_victim_selection Env.quiet pool_dirty 1 6 4 [1, 2, 0]
      (reachable_inv Env.quiet 3 (by decide) pool_dirty_reach).1 pool_dirty_order (by decide)
      (by decide)⟩

/-- C17. In every state reached from `buffer_init` the hash chains are lists
`C h`, one for each bucket `h`, each doubly linked from `hash_table[h]` to
`NULL` and without repetition. A slot with `b_dev = 0` is in no chain; a slot
with `b_dev ≠ 0` is in the chain of bucket `_hashfn(b_dev, b_blocknr)` and in
no other; and `find_buffer(b_dev, b_blocknr)` of a slot returns that slot
exactly when its `b_dev` is not 0. -/
theorem C17_hash_index (E : Env) (n : Nat) (s : State) (hn : 0 < n) (h : Reachable E n s) :
    ∃ C : Nat → List Nat,
      (∀ b, HSeg s.nx s.pv none (s.hash_table b) (C b) none) ∧ (∀ b, (C b).Nodup) ∧
      ∀ i, i < s.NR_BUFFERS →
        ((s.bh (some i)).b_dev = 0 → ∀ b, i ∉ C b) ∧
        ((s.bh (some i)).b_dev ≠ 0 →
          ∀ b, i ∈ C b ↔ b = _hashfn (s.bh (some i)).b_dev (s.bh (some i)).b_blocknr) ∧
        (∀ k, s.NR_BUFFERS < k →
          (find_buffer k s (s.bh (some i)).b_dev (s.bh (some i)).b_blocknr = some (some i) ↔
            (s.bh (some i)).b_dev ≠ 0)) := by
  obtain ⟨⟨L, C, hF, hH⟩, hU⟩ := reachable_inv E n hn h
  obtain ⟨h1, h2, h3, _⟩ := id hH
  refine ⟨C, h1, h2, fun i hi => ⟨?_, ?_, ?_⟩⟩
  · intro hd b hm
    exact ((h3 b i).1 hm).2.2.1 hd
  · intro hd b
    rw [h3 b i]
    constructor
    · intro hm; exact hm.2.2.2.symm
    · intro hb; exact ⟨hi, by simp, hd, hb.symm⟩
  · intro k hk
    constructor
    · intro hf
      exact (find_buffer_some hH hk hf).2.2.2
    · intro hd
      exact find_buffer_hit hH hU hk hi hd ⟨rfl, rfl⟩

/-- C17, at the state after `getblk(1, 5)` on a fresh pool of three slots. -/
theorem C17_hash_index_witness :
    0 < 3 ∧
    ∃ C : Nat → List Nat,
      (∀ b, HSeg pool_one.nx pool_one.pv none (pool_one.hash_table b) (C b) none) ∧
      (∀ b, (C b).Nodup) ∧
      ∀ i, i < pool_one.NR_BUFFERS →
        ((pool_one.bh (some i)).b_dev = 0 → ∀ b, i ∉ C b) ∧
        ((pool_one.bh (some i)).b_dev ≠ 0 →
          ∀ b, i ∈ C b ↔
            b = _hashfn (pool_one.bh (some i)).b_dev (pool_one.bh (some i)).b_blocknr) ∧
        (∀ k, pool_one.NR_BUFFERS < k →
          (find_buffer k pool_one (pool_one.bh (some i)).b_dev
              (pool_one.bh (some i)).b_blocknr = some (some i) ↔
            (pool_one.bh (some i)).b_dev ≠ 0)) :=
  ⟨by decide, C17_hash_index Env.quiet 3 pool_one (by decide) pool_one_reach⟩

theorem getblk_len (E : Env) {s : State} (dev block : Int) {k : Nat} (hW : WF s)
    (hk : s.bufs.length < k) :
    (∀ t r, getblk E k s dev block = Res.ok t r → t.bufs.length = s.bufs.length) ∧
    (∀ t, getblk E k s dev block = Res.sleeping t → t.bufs.length = s.bufs.length) := by
  constructor
  · intro t r hg
    obtain ⟨_, _, _, hlen, _⟩ := getblk_ok E dev block hW hk hg
    exact hlen
  · intro t hg
    obtain ⟨L, C, hF, hH⟩ := hW
    rcases getblk_cases E dev block hF hH hk with ⟨_, _, _, _, _, _, h⟩ | ⟨_, _, h⟩ |
      ⟨_, _, _, _, _, _, h, _⟩
    · rw [hg] at h; exact absurd h (by simp)
    · rw [hg] at h
      injection h with h1
      rw [h1]
    · rw [hg] at h; exact absurd h (by simp)

theorem get_hash_table_len {s : State} (dev block : Int) {k : Nat} (hW : WF s)
    (hk : s.bufs.length < k) :
    ∀ t r, get_hash_table k s dev block = Res.ok t r → t.bufs.length = s.bufs.length := by
  obtain ⟨L, C, hF, hH⟩ := hW
  obtain ⟨k, rfl⟩ : ∃ k', k = k' + 1 := ⟨k - 1, by omega⟩
  intro t r h
  rcases find_buffer_total hH dev block hk with hf | ⟨i, hf, hi, hd, hb, _⟩
  · rw [get_hash_table_miss hf] at h
    injection h with h1 h2
    rw [h1]
  · rw [get_hash_table_hit hf hi ⟨hd, hb⟩] at h
    injection h with h1 h2
    rw [← h1]
    exact (hit_flag s i).1

theorem bread_len (E : Env) {s : State} (dev block : Int) {k : Nat} (hW : WF s)
    (hk : s.bufs.length < k) :
    (∀ t r, bread E k s dev block = Res.ok t r → t.bufs.length = s.bufs.length) ∧
    (∀ t, bread E k s dev block = Res.sleeping t → t.bufs.length = s.bufs.length) := by
  obtain ⟨g1, g2⟩ := getblk_len E dev block hW hk
  unfold bread
  cases hg : getblk E k s dev block with
  | ok s1 r =>
    obtain ⟨i, hr, hi, hlen, _, _, hcnt⟩ := getblk_ok E dev block hW hk hg
    subst hr
    simp only []
    have hi1 : i < s1.bufs.length := by rw [hlen]; exact hi
    by_cases hu : (s1.bh (some i)).b_uptodate = true
    · rw [if_pos hu]
      constructor
      · intro t r h
        injection h with h1 h2
        rw [← h1]; exact hlen
      · intro t h; exact absurd h (by simp)
    · rw [if_neg hu]
      have f2 := ll_rw_block_read_flag E Rw.READ s1 i (by simp) hi1
      have f3 := wait_flag (ll_rw_block E Rw.READ s1 (some i)) i
      have f23 := FlagStep_trans f2 f3
      generalize wait_on_buffer (ll_rw_block E Rw.READ s1 (some i)) (some i) = s3 at f23
      by_cases hu3 : (s3.bh (some i)).b_uptodate = true
      · rw [if_pos hu3]
        constructor
        · intro t r h
          injection h with h1 h2
          rw [← h1, f23.1]; exact hlen
        · intro t h; exact absurd h (by simp)
      · rw [if_neg hu3]
        cases hb : brelse s3 (some i) with
        | ok s4 u =>
          have f4 := brelse_flag hb
          constructor
          · intro t r h
            injection h with h1 h2
            rw [← h1, f4.1, f23.1]; exact hlen
          · intro t h; exact absurd h (by simp)
        | sleeping t =>
          exfalso
          simp only [brelse] at hb
          split at hb <;> exact absurd hb (by simp)
        | panic m => exact ⟨fun t r h => absurd h (by simp), fun t h => absurd h (by simp)⟩
        | timeout => exact ⟨fun t r h => absurd h (by simp), fun t h => absurd h (by simp)⟩
  | sleeping t1 =>
    simp only []
    constructor
    · intro t r h; exact absurd h (by simp)
    · intro t h
      injection h with h1
      rw [← h1]
      exact g2 t1 hg
  | panic m => exact ⟨fun t r h => absurd h (by simp), fun t h => absurd h (by simp)⟩
  | timeout => exact ⟨fun t r h => absurd h (by simp), fun t h => absurd h (by simp)⟩

/-- The number of slots is the one `buffer_init` found. -/
theorem reachable_len (E : Env) (n : Nat) (hn : 0 < n) {s : State} (h : Reachable E n s) :
    s.bufs.length = n := by
  induction h with
  | init => exact (buffer_init_spec n hn).1
  | getblk s t k dev block r hs hk hg ih =>
    rw [(getblk_len E dev block (reachable_inv E n hn hs).1 hk).1 t r hg]; exact ih
  | getblk_sleep s t k dev block hs hk hg ih =>
    rw [(getblk_len E dev block (reachable_inv E n hn hs).1 hk).2 t hg]; exact ih
  | get_hash_table s t k dev block r hs hk hg ih =>
    rw [get_hash_table_len dev block (reachable_inv E n hn hs).1 hk t r hg]; exact ih
  | brelse s t buf _ hb ih => rw [(brelse_flag hb).1]; exact ih
  | bread s t k dev block r hs hk hg ih =>
    rw [(bread_len E dev block (reachable_inv E n hn hs).1 hk).1 t r hg]; exact ih
  | bread_sleep s t k dev block hs hk hg ih =>
    rw [(bread_len E dev block (reachable_inv E n hn hs).1 hk).2 t hg]; exact ih
  | invalidate_buffers s dev _ ih => rw [(invalidate_flag s dev).1]; exact ih
  | sync_dev s dev _ ih => rw [(sync_dev_spec E s dev).2.1.1]; exact ih
  | modify s i data _ ih => rw [upd_length]; exact ih

theorem RPath_head_link {nf pf : Nat → Ptr} {a b : Nat} {l : List Nat}
    (h : RPath nf pf a l b) : ∃ q, q ∈ l ++ [b] ∧ RLink nf pf a q := by
  cases l with
  | nil => exact ⟨b, by simp, h⟩
  | cons c t => exact ⟨c, by simp, h.1⟩

theorem RPath_tail_link {nf pf : Nat → Ptr} {b : Nat} {l : List Nat} :
    ∀ {a : Nat}, RPath nf pf a l b → ∃ p, p ∈ a :: l ∧ RLink nf pf p b := by
  induction l with
  | nil => intro a h; exact ⟨a, by simp, h⟩
  | cons c t ih =>
    intro a h
    obtain ⟨p, hp, hl⟩ := ih h.2
    exact ⟨p, List.mem_cons_of_mem _ hp, hl⟩

/-- Every slot of the ring has a slot before it and a slot after it, linked
in both directions. -/
theorem Ring_rlink {nf pf : Nat → Ptr} {L : List Nat} {v : Nat} (hR : Ring nf pf L)
    (hv : v ∈ L) : ∃ p q, p ∈ L ∧ q ∈ L ∧ RLink nf pf p v ∧ RLink nf pf v q := by
  obtain ⟨A, B, rfl⟩ := List.append_of_mem hv
  have h := Ring_rotate A v B hR
  have h' : RPath nf pf v (B ++ A) v := h
  obtain ⟨q, hq, hql⟩ := RPath_head_link h'
  obtain ⟨p, hp, hpl⟩ := RPath_tail_link h'
  refine ⟨p, q, ?_, ?_, hpl, hql⟩
  · simp only [List.mem_cons, List.mem_append] at hp ⊢
    tauto
  · simp only [List.mem_cons, List.mem_append, List.mem_singleton, List.not_mem_nil,
      or_false] at hq ⊢
    tauto

/-- Walking along a path of the ring meets its slots in order. -/
theorem walk_path (s : State) {b : Nat} : ∀ (l : List Nat) (a : Nat), RPath s.nf s.pf a l b →
    free_walk s (l.length + 1) (some a) = a :: l ∧
    free_step s (l.length + 1) (some a) = some b := by
  intro l
  induction l with
  | nil =>
    intro a h
    have h1 : (s.bh (some a)).b_next_free = some b := h.1
    constructor
    · show a :: free_walk s 0 _ = _
      rfl
    · show free_step s 0 (s.bh (some a)).b_next_free = _
      rw [h1]; rfl
  | cons c t ih =>
    intro a h
    have h1 : (s.bh (some a)).b_next_free = some c := h.1.1
    obtain ⟨i1, i2⟩ := ih c h.2
    constructor
    · show a :: free_walk s (t.length + 1) (s.bh (some a)).b_next_free = _
      rw [h1, i1]
    · show free_step s (t.length + 1) (s.bh (some a)).b_next_free = _
      rw [h1, i2]

/-- C18. In every state reached from `buffer_init` on a pool of `n` slots,
the pool still has `n` slots; the `n` steps along `b_next_free` from
`free_list` meet `n` different slots, every slot of the pool among them,
and end at `free_list`; and `b_prev_free` is the inverse of `b_next_free`. This
holds for `n = 1` and whichever slot `getblk` takes as its victim. -/
theorem C18_recency_ring (E : Env) (n : Nat) (s : State) (hn : 0 < n) (h : Reachable E n s) :
    s.NR_BUFFERS = n ∧
    (free_walk s n s.free_list).Nodup ∧ (free_walk s n s.free_list).length = n ∧
    (∀ i, i < n → i ∈ free_walk s n s.free_list) ∧
    free_step s n s.free_list = s.free_list ∧
    (∀ i j, i < n → j < n →
      ((s.bh (some i)).b_next_free = some j ↔ (s.bh (some j)).b_prev_free = some i)) := by
  have hlen := reachable_len E n hn h
  obtain ⟨⟨L, C, hF, _⟩, _⟩ := reachable_inv E n hn h
  obtain ⟨hnd, hmem, hfl, hR⟩ := hF
  rw [hlen] at hmem
  have hLn : L.length = n := nodup_length_eq hnd hmem
  cases L with
  | nil => simp at hLn; omega
  | cons f T =>
    have hT : T.length + 1 = n := hLn
    obtain ⟨w1, w2⟩ := walk_path s T f hR
    have hfl' : s.free_list = some f := hfl
    rw [hT] at w1 w2
    rw [hfl', w1, w2]
    refine ⟨hlen, hnd, hLn, fun i hi => (hmem i).2 hi, rfl, ?_⟩
    intro i j hi hj
    constructor
    · intro hij
      obtain ⟨_, q, _, _, _, hq⟩ := Ring_rlink hR ((hmem i).2 hi)
      have h1 : (s.bh (some i)).b_next_free = some q := hq.1
      have hqj : q = j := Option.some.inj (h1.symm.trans hij)
      rw [← hqj]
      exact hq.2
    · intro hji
      obtain ⟨p, _, _, _, hp, _⟩ := Ring_rlink hR ((hmem j).2 hj)
      have h1 : (s.bh (some j)).b_prev_free = some p := hp.2
      have hpi : p = i := Option.some.inj (h1.symm.trans hji)
      rw [← hpi]
      exact hp.1

/-- C18, for a pool of one slot after `getblk(1, 5)`, a write, `brelse` and
`getblk(1, 6)`, whose victim is the list head. -/
theorem C18_recency_ring_witness :
    0 < 1 ∧
    ((getblk Env.quiet 3 single_dirty 1 6).state single_dirty).NR_BUFFERS = 1 ∧
    (free_walk ((getblk Env.quiet 3 single_dirty 1 6).state single_dirty) 1
      ((getblk Env.quiet 3 single_dirty 1 6).state single_dirty).free_list).Nodup ∧
    (free_walk ((getblk Env.quiet 3 single_dirty 1 6).state single_dirty) 1
      ((getblk Env.quiet 3 single_dirty 1 6).state single_dirty).free_list).length = 1 ∧
    (∀ i, i < 1 → i ∈ free_walk ((getblk Env.quiet 3 single_dirty 1 6).state single_dirty) 1
      ((getblk Env.quiet 3 single_dirty 1 6).state single_dirty).free_list) ∧
    free_step ((getblk Env.quiet 3 single_dirty 1 6).state single_dirty) 1
      ((getblk Env.quiet 3 single_dirty 1 6).state single_dirty).free_list =
        ((getblk Env.quiet 3 single_dirty 1 6).state single_dirty).free_list ∧
    (∀ i j, i < 1 → j < 1 →
      ((((getblk Env.quiet 3 single_dirty 1 6).state single_dirty).bh (some i)).b_next_free =
          some j ↔
        (((getblk Env.quiet 3 single_dirty 1 6).state single_dirty).bh (some j)).b_prev_free =
          some i)) :=
  ⟨by decide, C18_recency_ring Env.quiet 1 ((getblk Env.quiet 3 single_dirty 1 6).state single_dirty)
    (by decide) (reachable_getblk Env.quiet 1 single_dirty_reach 3 (by decide) 1 6)⟩

/-- C19 fails on the code. In a fresh pool of three slots, with slot 0 bound
to `(1, 5)` and about to be inserted, the bucket of `(1, 5)` is empty and no
store has gone astray. `insert_into_queues` then sets `b_next` of the slot to
`NULL` (line 210) and stores through it (line 212): one store lands outside
the pool. `getblk(1, 5)` on the fresh pool does the same. -/
theorem C19_insert_null_store :
    (pool_detached.bh (some 0)).b_dev ≠ 0 ∧ pool_detached.hash 1 5 = none ∧
    pool_detached.stray = 0 ∧
    ((insert_into_queues pool_detached (some 0)).bh (some 0)).b_next = none ∧
    (insert_into_queues pool_detached (some 0)).stray = 1 ∧
    (buffer_init 3).stray = 0 ∧
    ((getblk Env.quiet 4 (buffer_init 3) 1 5).state (buffer_init 3)).stray = 1 :=
  ⟨by decide, rfl, rfl, rfl, rfl, rfl, rfl⟩

theorem last_link {nf pf : Nat → Ptr} {M : List Nat} {v : Nat} (h : Ring nf pf (M ++ [v])) :
    ∃ f, (M ++ [v]).head? = some f ∧ nf v = some f ∧ pf f = some v := by
  cases M with
  | nil =>
    have h' : RLink nf pf v v := h
    exact ⟨v, rfl, h'.1, h'.2⟩
  | cons f M' =>
    have h' : RPath nf pf f (M' ++ v :: []) f := h
    rw [RPath_append] at h'
    have h2 : RLink nf pf v f := h'.2
    exact ⟨f, rfl, h2.1, h2.2⟩

/-- C20. In a well-formed cache with recency list `L` in which `(dev, block)`
is not cached (`dev` is 0 or no slot is bound to the pair), when
`getblk(dev, block)` returns slot `v`, the
slot was free and the recency list is now `L` without `v`, followed by `v`:
the other slots keep their order, `v` is the slot before `free_list`, with
`free_list` after it, and `free_list` is as before unless it was `v`, in
which case it is the slot that followed `v`. -/
theorem C20_miss_reorder (E : Env) (s t : State) (dev block : Int) (k v : Nat) (L : List Nat)
    (hW : WF s) (hF : FreeOrder s L) (hk : s.NR_BUFFERS < k)
    (hmiss : dev = 0 ∨ ∀ j, j < s.NR_BUFFERS →
      ¬ ((s.bh (some j)).b_dev = dev ∧ (s.bh (some j)).b_blocknr = block))
    (hg : getblk E k s dev block = Res.ok t (some v)) :
    (s.bh (some v)).b_count = 0 ∧ v ∈ L ∧
    FreeOrder t (L.erase v ++ [v]) ∧
    (t.bh t.free_list).b_prev_free = some v ∧ (t.bh (some v)).b_next_free = t.free_list ∧
    t.free_list = (if s.free_list = some v then (s.bh (some v)).b_next_free else s.free_list) := by
  have hk' : s.bufs.length < k := hk
  obtain ⟨_, C, _, hH⟩ := hW
  rcases getblk_cases E dev block hF hH hk' with ⟨i, hi, hd, hb, hd0, _⟩ | ⟨_, _, h⟩ |
    ⟨_, v', _, hv, hcv, t', h, _, hFt, _⟩
  · rcases hmiss with h | h
    · exact absurd h hd0
    · exact absurd ⟨hd, hb⟩ (h i hi)
  · rw [hg] at h; exact absurd h (by simp)
  · rw [hg] at h
    injection h with h1 h2
    subst h1
    have hvv : v = v' := Option.some.inj h2
    subst hvv
    have hvL : v ∈ L := (hF.2.1 v).2 hv
    obtain ⟨f, hf1, hf2, hf3⟩ := last_link hFt.2.2.2
    have hfl : t.free_list = some f := hFt.2.2.1.trans hf1
    refine ⟨hcv, hvL, hFt, ?_, ?_, ?_⟩
    · rw [hfl]; exact hf3
    · rw [hfl]; exact hf2
    · obtain ⟨hnd, _, hsl, hR⟩ := hF
      rw [hfl]
      cases L with
      | nil => exact absurd hvL (by simp)
      | cons a T =>
        have hsl' : s.free_list = some a := hsl
        by_cases hav : a = v
        · subst hav
          rw [hsl', if_pos rfl]
          rw [List.erase_cons_head] at hf1
          have hR' : RPath s.nf s.pf a T a := hR
          cases T with
          | nil =>
            have h3 : RLink s.nf s.pf a a := hR'
            rw [← Option.some.inj hf1]
            exact h3.1.symm
          | cons c T' =>
            have h3 : RLink s.nf s.pf a c := hR'.1
            have hfc : c = f := Option.some.inj hf1
            rw [← hfc]
            exact h3.1.symm
        · have hne : some a ≠ some v := by simpa using hav
          rw [hsl', if_neg hne]
          rw [List.erase_cons_tail (by simpa using hav)] at hf1
          exact hf1.symm

/-- C20, for `getblk(1, 6)` on the pool with recency list 1, 2, 0, whose
victim is the list head, slot 1. -/
theorem C20_miss_reorder_witness :
    WF pool_dirty ∧ FreeOrder pool_dirty [1, 2, 0] ∧ pool_dirty.NR_BUFFERS < 4 ∧
    ((1 : Int) = 0 ∨ ∀ j, j < pool_dirty.NR_BUFFERS →
      ¬ ((pool_dirty.bh (some j)).b_dev = 1 ∧ (pool_dirty.bh (some j)).b_blocknr = 6)) ∧
    getblk Env.quiet 4 pool_dirty 1 6 =
      Res.ok ((getblk Env.quiet 4 pool_dirty 1 6).state pool_dirty) (some 1) ∧
    ((pool_dirty.bh (some 1)).b_count = 0 ∧ 1 ∈ [1, 2, 0] ∧
    FreeOrder ((getblk Env.quiet 4 pool_dirty 1 6).state pool_dirty)
      (List.erase [1, 2, 0] 1 ++ [1]) ∧
    (((getblk Env.quiet 4 pool_dirty 1 6).state pool_dirty).bh
      ((getblk Env.quiet 4 pool_dirty 1 6).state pool_dirty).free_list).b_prev_free = some 1 ∧
    (((getblk Env.quiet 4 pool_dirty 1 6).state pool_dirty).bh (some 1)).b_next_free =
      ((getblk Env.quiet 4 pool_dirty 1 6).state pool_dirty).free_list ∧
    ((getblk Env.quiet 4 pool_dirty 1 6).state pool_dirty).free_list =
      (if pool_dirty.free_list = some 1 then (pool_dirty.bh (some 1)).b_next_free
        else pool_dirty.free_list)) :=
  ⟨(reachable_inv Env.quiet 3 (by decide) pool_dirty_reach).1, pool_dirty_order, by decide,
    by decide, rfl,
    C20_miss_reorder Env.quiet pool_dirty ((getblk Env.quiet 4 pool_dirty 1 6).state pool_dirty)
      1 6 4 1 [1, 2, 0] (reachable_inv Env.quiet 3 (by decide) pool_dirty_reach).1
      pool_dirty_order (by decide) (by decide) rfl⟩

end Buffer
